import Mathlib

/-!
Verification of the object-graph normalizer in `json_pre_serializer.py`
and its timestamp-formatting collaborator `date_utils.py`.

The embedding is identity-based: every Python value is an address (`Nat`)
into a store `Nat → Obj`.  An `Obj` records the duck-typed capabilities the
source probes with `hasattr` / `isinstance` (the `__sensitive__` marker,
Enum-ness, dict-ness, sequence-ness, `model_dump`, legacy `dict()`,
`__slots__`, `__dict__`, `__items__`, datetime-ness) together with a scalar
payload for leaves.  Child positions hold addresses, so reference sharing
and cycles are represented exactly as in CPython, where `id()` plays the
role of the address.  Raised exceptions are modelled with `Except`.
-/

/-- Exceptions the Python code can raise: `AttributeError` from calling
`startswith` on a non-string key, `TypeError` from iterating a
non-iterable `__items__` payload, and `KeyError` from a failed
`node_lookup[...]` access. -/
inductive Err where
  | attributeError
  | typeError
  | keyError
deriving DecidableEq, Repr

/-- A Python mapping key: either a string, or some other hashable object
(modelled by an integer payload) which has no `startswith` method. -/
inductive Key where
  | str (s : String)
  | intKey (n : Int)
deriving DecidableEq, Repr

/-- Which concrete sequence type an object is an instance of; the walker
distinguishes them because phase 2 rewrites only `list` instances. -/
inductive SeqKind where
  | list
  | tuple
  | set
deriving DecidableEq, Repr

/-- The possible shapes of an `__items__` attribute: a callable producing
key/value pairs, a dict (whose `.items()` is taken), an iterable of pairs
used as-is, or something not iterable at all. -/
inductive ItemsVal where
  | callable (pairs : List (Key × Nat))
  | dictVal (pairs : List (Key × Nat))
  | rawPairs (pairs : List (Key × Nat))
  | notIterable
deriving DecidableEq, Repr

/-- JSON-primitive payload of a leaf object. -/
inductive Scalar where
  | null
  | str (s : String)
  | int (n : Int)
  | boolVal (b : Bool)
deriving DecidableEq, Repr

/-- A `datetime` value.  `tz = none` models a naive datetime (no `tzinfo`);
`tz = some off` models an aware datetime whose UTC offset is `off` minutes. -/
structure DateTimeV where
  year : Nat
  month : Nat
  day : Nat
  hour : Nat
  minute : Nat
  second : Nat
  microsecond : Nat
  tz : Option Int
deriving DecidableEq, Repr

/-- One Python object, recorded through the capabilities probed by
`shallow_normalize`.  Each capability is optional and independent, which
mirrors duck typing: an object may carry the `__sensitive__` marker and
still be a dict, an Enum may also expose `model_dump`, and so on.  Child
positions hold store addresses. -/
structure Obj where
  sensitive : Bool := false
  enum : Option Nat := none
  dict : Option (List (Key × Nat)) := none
  seq : Option (SeqKind × List Nat) := none
  model_dump : Option (List (Key × Nat)) := none
  dictMethod : Option (List (Key × Nat)) := none
  slots : Option (List (String × Nat)) := none
  dictAttr : Option (List (Key × Nat)) := none
  items : Option ItemsVal := none
  datetime : Option DateTimeV := none
  scalar : Scalar := .null
deriving DecidableEq, Repr

instance : Inhabited Obj := ⟨{}⟩

/-- A plain string object, as produced for `"<redacted>"` and for the
`strftime` result. -/
def Obj.mkStr (s : String) : Obj := { scalar := .str s }

/-- A plain `int` object. -/
def Obj.mkInt (n : Int) : Obj := { scalar := .int n }

/-- A plain `dict` instance. -/
def Obj.mkDict (l : List (Key × Nat)) : Obj := { dict := some l }

/-- A plain `list` instance. -/
def Obj.mkList (l : List Nat) : Obj := { seq := some (.list, l) }

/-- A plain `None`-like leaf. -/
def Obj.mkNull : Obj := {}

/-- An `Enum` member whose `.value` is the object at address `v`. -/
def Obj.mkEnum (v : Nat) : Obj := { enum := some v }

/-- A `datetime` instance. -/
def Obj.mkDatetime (d : DateTimeV) : Obj := { datetime := some d }

/-! ## DateUtils (`date_utils.py`) -/

/-- The two format strings defined on `DateUtils`. -/
inductive DateFormatV where
  | utcFormat
  | iso8061Format
deriving DecidableEq, Repr

/-- Zero-padding of a decimal number to a fixed width, as `strftime`
directives such as `%m` or `%f` do. -/
def padZeros (width : Nat) (n : Nat) : String :=
  let s := toString n
  String.mk (List.replicate (width - s.length) '0') ++ s

/-- The `%z` directive: empty for a naive datetime, otherwise the signed
`±HHMM` rendering of the UTC offset. -/
def formatTz : Option Int → String
  | none => ""
  | some off =>
    let sign := if off < 0 then "-" else "+"
    sign ++ padZeros 2 (off.natAbs / 60) ++ padZeros 2 (off.natAbs % 60)

/-- The common `%Y-%m-%d<sep>%H:%M:%S.%f` part of both formats;
`utc_format` uses a space separator, `iso_8061_format` uses `T`. -/
def dateTimePart (sep : String) (d : DateTimeV) : String :=
  padZeros 4 d.year ++ "-" ++ padZeros 2 d.month ++ "-" ++ padZeros 2 d.day ++ sep ++
    padZeros 2 d.hour ++ ":" ++ padZeros 2 d.minute ++ ":" ++ padZeros 2 d.second ++
    "." ++ padZeros 6 d.microsecond

/-- `datetime.strftime` restricted to the two format strings the class
defines: `"%Y-%m-%d %H:%M:%S.%f"` and `"%Y-%m-%dT%H:%M:%S.%f%z"`. -/
def strftime (d : DateTimeV) (fmt : DateFormatV) : String :=
  match fmt with
  | .utcFormat => dateTimePart " " d
  | .iso8061Format => dateTimePart "T" d ++ formatTz d.tz

namespace DateUtils

/-- `DateUtils.datetime_to_string`: format a datetime, defaulting to
`utc_format` when no format is passed. -/
def datetime_to_string (d : DateTimeV) (fmt : Option DateFormatV) : String :=
  strftime d (fmt.getD .utcFormat)

end DateUtils

/-- Whether a string matches the claimed pattern
`YYYY-MM-DDTHH:MM:SS.ssssss±HHMM`: 26 characters of date-time core
followed by a 5-character explicit offset whose first character is a
sign and whose remaining four are digits. -/
def hasIsoOffsetPattern (s : String) : Bool :=
  let cs := s.data
  cs.length == 31 &&
    (cs.getD 26 ' ' == '+' || cs.getD 26 ' ' == '-') &&
    ((cs.drop 27).all fun c => c.isDigit)

/-! ## The node normalizer (`JsonPreSerializer.shallow_normalize`) -/

/-- The constant redaction placeholder. -/
def redactedString : String := "<redacted>"

/-- The result of `shallow_normalize`, relative to the store: either an
existing object is returned (the node itself, or the Enum payload), or a
fresh object is produced (a shallow dict/list copy or a string). -/
inductive NormRes where
  | redacted
  | enumVal (v : Nat)
  | dictCopy (entries : List (Key × Nat))
  | listCopy (elems : List Nat)
  | datetimeStr (s : String)
  | passthrough
deriving DecidableEq, Repr

deriving instance DecidableEq for Except

/-- Whether a string begins with an underscore, i.e. `s.startswith("_")`
on a string: true exactly when the first character is `_`. -/
def startsWithUnderscore (s : String) : Bool :=
  match s.data with
  | [] => false
  | c :: _ => c == '_'

/-- `key.startswith("_")`: succeeds on a string key, raises
`AttributeError` on any other key. -/
def keyStartsWithUnderscore : Key → Except Err Bool
  | .str s => .ok (startsWithUnderscore s)
  | .intKey _ => .error .attributeError

/-- The comprehension `{key: value for key, value in ... if not
key.startswith("_")}`: keeps entries whose key does not start with an
underscore, raising `AttributeError` at the first non-string key. -/
def filterUnderscoreKeys : List (Key × Nat) → Except Err (List (Key × Nat))
  | [] => .ok []
  | (k, v) :: rest =>
    match keyStartsWithUnderscore k with
    | .error e => .error e
    | .ok b =>
      match filterUnderscoreKeys rest with
      | .error e => .error e
      | .ok tail => if b then .ok tail else .ok ((k, v) :: tail)

/-- The `__slots__` comprehension: slot names are strings, so the
underscore filter is total here. -/
def filterSlots (l : List (String × Nat)) : List (Key × Nat) :=
  (l.filter fun p => !startsWithUnderscore p.1).map fun p => (Key.str p.1, p.2)

/-- `JsonPreSerializer.get_iterable`: call a callable, take `.items()` of
a dict, and return anything else unchanged. -/
def get_iterable : ItemsVal → ItemsVal
  | .callable pairs => .rawPairs pairs
  | .dictVal pairs => .rawPairs pairs
  | .rawPairs pairs => .rawPairs pairs
  | .notIterable => .notIterable

/-- The `for key, value in iterable` part of the `__items__` rule:
iterating a non-iterable raises `TypeError`. -/
def iterateItems : ItemsVal → Except Err (List (Key × Nat))
  | .callable pairs => .ok pairs
  | .dictVal pairs => .ok pairs
  | .rawPairs pairs => .ok pairs
  | .notIterable => .error .typeError

/-- `JsonPreSerializer.shallow_normalize`, rule for rule in source order:
`__sensitive__` marker, `Enum`, `dict`, `list`/`tuple`/`set`,
`model_dump`, legacy `dict()`, `__slots__`, `__dict__`, `__items__`,
`datetime`, and finally pass-through.  Note that the `model_dump` and
legacy `dict()` results are returned without any key filtering, exactly
as in the source. -/
def shallow_normalize (node : Obj) : Except Err NormRes :=
  if node.sensitive then .ok .redacted
  else match node.enum with
  | some v => .ok (.enumVal v)
  | none => match node.dict with
  | some entries =>
    (match filterUnderscoreKeys entries with
     | .error e => .error e
     | .ok kept => .ok (.dictCopy kept))
  | none => match node.seq with
  | some (_, elems) => .ok (.listCopy elems)
  | none => match node.model_dump with
  | some entries => .ok (.dictCopy entries)
  | none => match node.dictMethod with
  | some entries => .ok (.dictCopy entries)
  | none => match node.slots with
  | some entries => .ok (.dictCopy (filterSlots entries))
  | none => match node.dictAttr with
  | some entries =>
    (match filterUnderscoreKeys entries with
     | .error e => .error e
     | .ok kept => .ok (.dictCopy kept))
  | none => match node.items with
  | some itemsVal =>
    (match iterateItems (get_iterable itemsVal) with
     | .error e => .error e
     | .ok pairs =>
       match filterUnderscoreKeys pairs with
       | .error e => .error e
       | .ok kept => .ok (.dictCopy kept))
  | none => match node.datetime with
  | some d => .ok (.datetimeStr (DateUtils.datetime_to_string d (some .iso8061Format)))
  | none => .ok .passthrough

/-! ## The graph walker (`JsonPreSerializer.prepare_for_serialization`)

The store maps addresses to objects.  Fresh objects produced during
normalization are allocated at a bump counter `next`, mirroring `id()` of
newly created Python objects.  Phase 2 mutates objects in place, which is
modelled by updating the store at the mutated object's address. -/

/-- The heap: a total map from addresses to objects.  Addresses at or
above the bump counter are unallocated garbage. -/
abbrev Store := Nat → Obj

/-- Write one address of the store. -/
def updateStore (store : Store) (i : Nat) (o : Obj) : Store :=
  fun j => if j = i then o else store j

/-- The walker's state: the traversal stack (head is the next element to
pop, matching `list.pop()` from the end of a Python list), the visited-id
set, the registry `node_lookup`, the heap, the allocation counter, and a
ghost trace of the ids that were dequeued as unvisited, in order. -/
structure WalkState where
  stack : List Nat
  visited : List Nat
  registry : List (Nat × Nat)
  store : Store
  next : Nat
  trace : List Nat

/-- Interpret a `shallow_normalize` result against the store: reuse the
node itself (pass-through) or the Enum payload, and allocate a fresh
object for a shallow copy or a produced string.  Returns the address of
the `child_nodes` object together with the updated store and counter. -/
def interpretNorm (store : Store) (next : Nat) (norm : NormRes) (selfId : Nat) :
    Nat × Store × Nat :=
  match norm with
  | .redacted => (next, updateStore store next (Obj.mkStr redactedString), next + 1)
  | .enumVal v => (v, store, next)
  | .dictCopy l => (next, updateStore store next (Obj.mkDict l), next + 1)
  | .listCopy l => (next, updateStore store next (Obj.mkList l), next + 1)
  | .datetimeStr s => (next, updateStore store next (Obj.mkStr s), next + 1)
  | .passthrough => (selfId, store, next)

/-- `JsonPreSerializer.create_stack_elements`: the ids enqueued after
normalizing a node — the values of a dict, the elements of a
list/tuple/set, and otherwise the object itself. -/
def create_stack_elements (store : Store) (n : Nat) : List Nat :=
  match (store n).dict with
  | some entries => entries.map Prod.snd
  | none =>
    match (store n).seq with
    | some (_, elems) => elems
    | none => [n]

/-- One phase-1 sweep with explicit fuel.  `none` means the fuel ran out;
`some (.error e)` propagates an exception raised by `shallow_normalize`;
`some (.ok s)` is normal completion with an empty stack.  Pushing
`l.reverse ++ rest` models `traversal_stack.extend(l)` followed by
popping from the end. -/
def phase1 : Nat → WalkState → Option (Except Err WalkState)
  | _, ⟨[], visited, registry, store, next, trace⟩ =>
    some (.ok ⟨[], visited, registry, store, next, trace⟩)
  | 0, _ => none
  | fuel + 1, ⟨i :: rest, visited, registry, store, next, trace⟩ =>
    if i ∈ visited then
      phase1 fuel ⟨rest, visited, registry, store, next, trace⟩
    else
      match shallow_normalize (store i) with
      | .error e => some (.error e)
      | .ok norm =>
        let r := interpretNorm store next norm i
        let elems := create_stack_elements r.2.1 r.1
        phase1 fuel ⟨elems.reverse ++ rest, i :: visited, (i, r.1) :: registry,
          r.2.1, r.2.2, trace ++ [i]⟩

/-- Registry lookup, `node_lookup[id]`: `none` models a `KeyError`. -/
def lookupReg (registry : List (Nat × Nat)) (i : Nat) : Option Nat :=
  match registry with
  | [] => none
  | (k, v) :: rest => if i = k then some v else lookupReg rest i

/-- The phase-2 dict comprehension `{key: node_lookup[id(value)] for key,
value in node.items()}`: rewrite every value through the registry,
failing with the first missing entry. -/
def rewriteEntries (registry : List (Nat × Nat)) :
    List (Key × Nat) → Option (List (Key × Nat))
  | [] => some []
  | (k, v) :: rest =>
    match lookupReg registry v with
    | none => none
    | some n =>
      match rewriteEntries registry rest with
      | none => none
      | some tail => some ((k, n) :: tail)

/-- The phase-2 list comprehension `[node_lookup[id(value)] for value in
node]`. -/
def rewriteElems (registry : List (Nat × Nat)) : List Nat → Option (List Nat)
  | [] => some []
  | v :: rest =>
    match lookupReg registry v with
    | none => none
    | some n =>
      match rewriteElems registry rest with
      | none => none
      | some tail => some (n :: tail)

/-- One phase-2 sweep with explicit fuel.  For each unvisited id the
registry entry is fetched (`KeyError` if missing); if it is a dict or a
list instance its children are rewritten through the registry, the
original children are enqueued and the object is mutated in place;
any other object is left alone and contributes nothing to the queue. -/
def phase2 : Nat → WalkState → Option (Except Err WalkState)
  | _, ⟨[], visited, registry, store, next, trace⟩ =>
    some (.ok ⟨[], visited, registry, store, next, trace⟩)
  | 0, _ => none
  | fuel + 1, ⟨i :: rest, visited, registry, store, next, trace⟩ =>
    if i ∈ visited then
      phase2 fuel ⟨rest, visited, registry, store, next, trace⟩
    else
      match lookupReg registry i with
      | none => some (.error .keyError)
      | some n =>
        match (store n).dict with
        | some entries =>
          match rewriteEntries registry entries with
          | none => some (.error .keyError)
          | some entries2 =>
            let elems := entries.map Prod.snd
            phase2 fuel ⟨elems.reverse ++ rest, i :: visited, registry,
              updateStore store n { store n with dict := some entries2 }, next,
              trace ++ [i]⟩
        | none =>
          match (store n).seq with
          | some (.list, elems) =>
            match rewriteElems registry elems with
            | none => some (.error .keyError)
            | some elems2 =>
              phase2 fuel ⟨elems.reverse ++ rest, i :: visited, registry,
                updateStore store n { store n with seq := some (.list, elems2) }, next,
                trace ++ [i]⟩
          | _ =>
            phase2 fuel ⟨rest, i :: visited, registry, store, next, trace ++ [i]⟩

/-- How many elements processing id `i` pushes in phase 1, computed from
the initial store.  Used for the fuel budget. -/
def pushBound (store : Store) (i : Nat) : Nat :=
  match shallow_normalize (store i) with
  | .error _ => 0
  | .ok norm =>
    match norm with
    | .redacted => 1
    | .enumVal v =>
      match (store v).dict with
      | some entries => entries.length
      | none =>
        match (store v).seq with
        | some (_, elems) => elems.length
        | none => 1
    | .dictCopy entries => entries.length
    | .listCopy elems => elems.length
    | .datetimeStr _ => 1
    | .passthrough => 1

/-- Fuel that always suffices for phase 1 on a well-formed finite store. -/
def fuel1Bound (store : Store) (next : Nat) : Nat :=
  1 + Finset.sum (Finset.range next) fun i => 3 + pushBound store i

/-- How many elements processing id `i` pushes in phase 2: the size of
its registry entry when that entry is a dict or a list. -/
def pushBound2 (registry : List (Nat × Nat)) (store : Store) (i : Nat) : Nat :=
  match lookupReg registry i with
  | none => 0
  | some n =>
    match (store n).dict with
    | some entries => entries.length
    | none =>
      match (store n).seq with
      | some (.list, elems) => elems.length
      | _ => 0

/-- Fuel that always suffices for phase 2. -/
def fuel2Bound (registry : List (Nat × Nat)) (store : Store) (next : Nat) : Nat :=
  1 + Finset.sum (Finset.range next) fun i => 1 + pushBound2 registry store i

/-- The first BFS of `prepare_for_serialization`, seeded with the root. -/
def runPhase1 (store : Store) (next root : Nat) : Option (Except Err WalkState) :=
  phase1 (fuel1Bound store next) ⟨[root], [], [], store, next, []⟩

/-- The second BFS of `prepare_for_serialization`: restart from the root
with a cleared visited set over the registry and heap left by phase 1.
Fuel exhaustion and exceptions of phase 1 are passed through. -/
def runPhase2 (store : Store) (next root : Nat) : Option (Except Err WalkState) :=
  match runPhase1 store next root with
  | some (.ok s1) =>
    phase2 (fuel2Bound s1.registry s1.store s1.next)
      ⟨[root], [], s1.registry, s1.store, s1.next, []⟩
  | r => r

/-- `JsonPreSerializer.prepare_for_serialization`: run phase 1 from the
root, reseed the queue, clear the visited set, run phase 2, and return
the registry entry of the root together with the final heap. -/
def prepare_for_serialization (store : Store) (next : Nat) (root : Nat) :
    Option (Except Err (Nat × Store)) :=
  match runPhase2 store next root with
  | none => none
  | some (.error e) => some (.error e)
  | some (.ok s2) =>
    match lookupReg s2.registry root with
    | none => some (.error .keyError)
    | some out => some (.ok (out, s2.store))

/-- Whether a run completed without an exception. -/
def runOk (r : Option (Except Err (Nat × Store))) : Bool :=
  match r with
  | some (.ok _) => true
  | _ => false

/-- The exception of a run, if one was raised. -/
def runErr (r : Option (Except Err (Nat × Store))) : Option Err :=
  match r with
  | some (.error e) => some e
  | _ => none

/-- The root's normalized address of a completed run. -/
def runOut (r : Option (Except Err (Nat × Store))) : Nat :=
  match r with
  | some (.ok p) => p.1
  | _ => 0

/-- The final heap of a completed run, read at one address. -/
def runStoreAt (r : Option (Except Err (Nat × Store))) (j : Nat) : Obj :=
  match r with
  | some (.ok p) => p.2 j
  | _ => Obj.mkNull

/-- Whether a phase run completed normally. -/
def phaseOk (r : Option (Except Err WalkState)) : Bool :=
  match r with
  | some (.ok _) => true
  | _ => false

/-- The exception a phase run raised, if any. -/
def phaseErrOf (r : Option (Except Err WalkState)) : Option Err :=
  match r with
  | some (.error e) => some e
  | _ => none

/-! ## Well-formedness of input stores -/

/-- Every address an object refers to, through any capability. -/
def objIds (o : Obj) : List Nat :=
  o.enum.toList ++
  (match o.dict with | some l => l.map Prod.snd | none => []) ++
  (match o.seq with | some p => p.2 | none => []) ++
  (match o.model_dump with | some l => l.map Prod.snd | none => []) ++
  (match o.dictMethod with | some l => l.map Prod.snd | none => []) ++
  (match o.slots with | some l => l.map Prod.snd | none => []) ++
  (match o.dictAttr with | some l => l.map Prod.snd | none => []) ++
  (match o.items with
   | some (.callable l) => l.map Prod.snd
   | some (.dictVal l) => l.map Prod.snd
   | some (.rawPairs l) => l.map Prod.snd
   | some .notIterable => []
   | none => [])

/-- A finite input graph: every live address is below `next` and every
object refers only to live addresses. -/
def WFStore (store : Store) (next : Nat) : Prop :=
  ∀ j ∈ List.range next, ∀ c ∈ objIds (store j), c < next

/-- No enumerated constant's underlying value is itself a keyed mapping
or a sequence instance; this is the aliasing pattern under which the
walker misbehaves. -/
def goodEnums (store : Store) (next : Nat) : Prop :=
  ∀ j ∈ List.range next, ∀ v, (store j).enum = some v →
    (store v).dict = none ∧ (store v).seq = none

/-- A key that does not begin with an underscore (non-string keys do not
begin with anything). -/
def keyClean : Key → Bool
  | .str s => !startsWithUnderscore s
  | .intKey _ => true

/-- Every key of an entry list is clean. -/
def cleanKeys (l : List (Key × Nat)) : Prop :=
  ∀ p ∈ l, keyClean p.1 = true

/-- Every `model_dump` and legacy `dict()` capability in the store
produces only clean keys; the source copies these mappings without
filtering them. -/
def cleanDumpKeys (store : Store) (next : Nat) : Prop :=
  ∀ j ∈ List.range next,
    (∀ l, (store j).model_dump = some l → cleanKeys l) ∧
    (∀ l, (store j).dictMethod = some l → cleanKeys l)

/-! ## Concrete input graphs used to separate the spec from the code -/

/-- Two Enum members (addresses 3 and 4) share the dict value
`D = {"k": X}` at address 2, where `X = [1]`; the root list holds both
members.  Phase 2 processes one member first, rewrites `D` in place, and
then fails looking up the fresh copy of `X` when it reaches the second
member. -/
def exSharedEnumStore : Store := fun j =>
  if j = 0 then Obj.mkInt 1
  else if j = 1 then Obj.mkList [0]
  else if j = 2 then Obj.mkDict [(Key.str "k", 1)]
  else if j = 3 then Obj.mkEnum 2
  else if j = 4 then Obj.mkEnum 2
  else if j = 5 then Obj.mkList [3, 4]
  else Obj.mkNull

/-- A variant of the shared-Enum-value graph with a dict root, used to
show a failing phase-2 registry lookup after a completed phase 1. -/
def exSharedEnumStore2 : Store := fun j =>
  if j = 0 then Obj.mkInt 7
  else if j = 1 then Obj.mkList [0]
  else if j = 2 then Obj.mkDict [(Key.str "q", 1)]
  else if j = 3 then Obj.mkEnum 2
  else if j = 4 then Obj.mkEnum 2
  else if j = 5 then Obj.mkDict [(Key.str "r1", 3), (Key.str "r2", 4)]
  else Obj.mkNull

/-- The object `G` (address 2, an Enum whose value is the Enum `H` at
address 1, whose value is `7` at address 0) is shared by two parent
slots: `D = {"k": G}` (address 3) and `D2 = {"k2": G}` (address 6).
`D` is additionally the shared value of the Enum members at addresses
4 and 5.  The run completes, but the two output slots for `G` hold
different objects. -/
def exSharedSlotStore : Store := fun j =>
  if j = 0 then Obj.mkInt 7
  else if j = 1 then Obj.mkEnum 0
  else if j = 2 then Obj.mkEnum 1
  else if j = 3 then Obj.mkDict [(Key.str "k", 2)]
  else if j = 4 then Obj.mkEnum 3
  else if j = 5 then Obj.mkEnum 3
  else if j = 6 then Obj.mkDict [(Key.str "k2", 2)]
  else if j = 7 then Obj.mkList [4, 5, 6]
  else Obj.mkNull

/-- An Enum member (address 3) whose value is the dict `D = {"k": X}`
(address 2) with `X = [1]` (address 1); the root list holds the member.
Phase 2 rewrites `D` — an original input object — in place. -/
def exEnumMutationStore : Store := fun j =>
  if j = 0 then Obj.mkInt 1
  else if j = 1 then Obj.mkList [0]
  else if j = 2 then Obj.mkDict [(Key.str "k", 1)]
  else if j = 3 then Obj.mkEnum 2
  else if j = 4 then Obj.mkList [3]
  else Obj.mkNull

/-- The root dict `{"a": M}` where `M` (address 1) exposes `model_dump`
returning `{"_x": 5}`: the underscore key survives into the output. -/
def exDumpUnderscoreStore : Store := fun j =>
  if j = 0 then Obj.mkInt 5
  else if j = 1 then { model_dump := some [(Key.str "_x", 0)] }
  else if j = 2 then Obj.mkDict [(Key.str "a", 1)]
  else Obj.mkNull

/-- The key/value pairs carried by an `__items__` payload (empty for the
non-iterable shape). -/
def itemsPairs : ItemsVal → List (Key × Nat)
  | .callable pairs => pairs
  | .dictVal pairs => pairs
  | .rawPairs pairs => pairs
  | .notIterable => []

/-- Whether a key is a string. -/
def keyIsString : Key → Bool
  | .str _ => true
  | .intKey _ => false

/-- Every key of an entry list is a string. -/
def stringKeyed (l : List (Key × Nat)) : Prop :=
  ∀ p ∈ l, keyIsString p.1 = true

/-- A value carrying the redaction marker that is simultaneously a keyed
mapping and exposes a model dump. -/
def exSensitiveMultiShape : Obj :=
  { sensitive := true, dict := some [(Key.str "a", 0)], model_dump := some [(Key.str "b", 1)] }

/-- An enumerated constant that is simultaneously a keyed mapping and a
timestamp. -/
def exEnumMultiShape : Obj :=
  { enum := some 5, dict := some [(Key.str "c", 2)],
    datetime := some ⟨1970, 1, 1, 0, 0, 0, 0, none⟩ }

/-- An object that matches none of the eleven shape rules and therefore
passes through unchanged. -/
def matchesNoRule (o : Obj) : Prop :=
  o.sensitive = false ∧ o.enum = none ∧ o.dict = none ∧ o.seq = none ∧
    o.model_dump = none ∧ o.dictMethod = none ∧ o.slots = none ∧
    o.dictAttr = none ∧ o.items = none ∧ o.datetime = none

/-! ## Invariants and termination measures for the two phases -/

/-- The children a dict or sequence object holds (empty for leaves).
These are the ids phase 1 enqueues for container nodes and the slots
phase 2 rewrites. -/
def nodeChildIds (o : Obj) : List Nat :=
  match o.dict with
  | some entries => entries.map Prod.snd
  | none =>
    match o.seq with
    | some p => p.2
    | none => []

/-- Whether phase 2 rewrites this object in place: a dict instance, or a
list instance. -/
def isRewriteTarget (o : Obj) : Bool :=
  o.dict.isSome ||
    (match o.seq with
     | some (.list, _) => true
     | _ => false)

/-- Whether an object is a bare string, as the fresh `"<redacted>"` and
`strftime` results are. -/
def isFreshStr (o : Obj) : Bool :=
  (match o.scalar with
   | .str _ => true
   | _ => false) && o.dict.isNone && o.seq.isNone

/-- The phase-2 in-place rewrite of one object: dict values and list
elements replaced by their registry entries (identity if a lookup fails,
which does not happen on the runs this is used for). -/
def rewriteObj (reg : List (Nat × Nat)) (o : Obj) : Obj :=
  match o.dict with
  | some entries =>
    match rewriteEntries reg entries with
    | some entries2 => { o with dict := some entries2 }
    | none => o
  | none =>
    match o.seq with
    | some (.list, elems) =>
      match rewriteElems reg elems with
      | some elems2 => { o with seq := some (.list, elems2) }
      | none => o
    | _ => o

/-- What one registry binding `(i, n)` means: `n` is the interpretation
of `shallow_normalize` on the object at `i` — the node itself for
pass-through, the Enum payload, or a fresh address at or above `next0`
holding exactly the produced copy. -/
def EntryBinding (next0 : Nat) (st : Store) (nx : Nat) (p : Nat × Nat) : Prop :=
  ∃ norm, shallow_normalize (st p.1) = .ok norm ∧
    match norm with
    | .passthrough => p.2 = p.1
    | .enumVal v => p.2 = v
    | .redacted => next0 ≤ p.2 ∧ p.2 < nx ∧ st p.2 = Obj.mkStr redactedString
    | .datetimeStr str => next0 ≤ p.2 ∧ p.2 < nx ∧ st p.2 = Obj.mkStr str
    | .dictCopy l => next0 ≤ p.2 ∧ p.2 < nx ∧ st p.2 = Obj.mkDict l
    | .listCopy l => next0 ≤ p.2 ∧ p.2 < nx ∧ st p.2 = Obj.mkList l

/-- The phase-1 loop invariant over the walk state, relative to the
initial store `store0` and allocation bound `next0`. -/
structure Inv1 (store0 : Store) (next0 : Nat) (s : WalkState) : Prop where
  keysVisited : s.registry.map Prod.fst = s.visited
  visitedNodup : s.visited.Nodup
  traceVisited : s.trace.reverse = s.visited
  nextGe : next0 ≤ s.next
  storeLow : ∀ j, j < next0 → s.store j = store0 j
  storeHigh : ∀ j, s.next ≤ j → s.store j = store0 j
  freshShape : ∀ j, next0 ≤ j → j < s.next →
    (∃ str, s.store j = Obj.mkStr str) ∨ (∃ l, s.store j = Obj.mkDict l) ∨
    (∃ l, s.store j = Obj.mkList l)
  wfChild : ∀ j, j < s.next → ∀ c ∈ objIds (s.store j), c < s.next
  stackOk : ∀ j ∈ s.stack,
    j < next0 ∨ (next0 ≤ j ∧ j < s.next ∧ isFreshStr (s.store j) = true)
  visitedOk : ∀ j ∈ s.visited,
    j < next0 ∨ (next0 ≤ j ∧ j < s.next ∧ isFreshStr (s.store j) = true)
  regValLt : ∀ p ∈ s.registry, p.2 < s.next
  regEntry : ∀ p ∈ s.registry, EntryBinding next0 s.store s.next p
  regChildren : ∀ p ∈ s.registry, ∀ c ∈ nodeChildIds (s.store p.2),
    c ∈ s.visited ∨ c ∈ s.stack
  regFreshInj : ∀ p ∈ s.registry, ∀ q ∈ s.registry, next0 ≤ p.2 →
    isRewriteTarget (s.store p.2) = true → p.2 = q.2 → p.1 = q.1

/-- The part of the phase-1 termination measure that does not depend on
the stack: budget for unvisited original ids plus budget for unvisited
fresh string objects. -/
def weight1 (store0 : Store) (next0 : Nat) (st : Store) (nx : Nat) (v : List Nat) : Nat :=
  Finset.sum ((Finset.range next0).filter fun i => i ∉ v)
    (fun i => 3 + pushBound store0 i) +
  3 * ((Finset.Ico next0 nx).filter fun f => isFreshStr (st f) = true ∧ f ∉ v).card

/-- The phase-1 termination measure: it strictly decreases at every loop
iteration. -/
def mu1 (store0 : Store) (next0 : Nat) (s : WalkState) : Nat :=
  s.stack.length + weight1 store0 next0 s.store s.next s.visited

/-- The phase-2 termination measure, relative to the fixed registry and
the allocation bound `next1` reached by phase 1.  `pushBound2` reads the
current store, but in-place rewrites preserve container sizes, so the
weights are stable. -/
def mu2 (reg : List (Nat × Nat)) (next1 : Nat) (s : WalkState) : Nat :=
  s.stack.length + Finset.sum ((Finset.range next1).filter fun i => i ∉ s.visited)
    (fun i => 1 + pushBound2 reg s.store i)

/-- The phase-2 loop invariant needed for termination alone, without any
assumption about Enum aliasing. -/
structure Inv2 (reg : List (Nat × Nat)) (next1 : Nat) (s : WalkState) : Prop where
  regEq : s.registry = reg
  nextEq : s.next = next1
  visitedNodup : s.visited.Nodup
  traceVisited : s.trace.reverse = s.visited
  stackLt : ∀ j ∈ s.stack, j < next1
  wf2 : ∀ j, j < next1 → ∀ c ∈ objIds (s.store j), c < next1
  regValLt2 : ∀ p ∈ reg, p.2 < next1

/-- Whether phase 2 has already rewritten the object at `j` given the
visited set `v`: `j` is a rewritable registry value of some visited id. -/
def WrittenTarget (s1 : WalkState) (v : List Nat) (j : Nat) : Prop :=
  isRewriteTarget (s1.store j) = true ∧ ∃ i ∈ v, lookupReg s1.registry i = some j

/-- The phase-2 loop invariant under the no-container-Enum assumption,
relative to the final phase-1 state `s1`: the registry and counter are
untouched, all traversal stays inside the registry keys, and the store
is the phase-1 store except that the registry value of every visited id
has been rewritten exactly once. -/
structure Inv2Good (s1 : WalkState) (s : WalkState) : Prop where
  regEq : s.registry = s1.registry
  nextEq : s.next = s1.next
  visitedNodup : s.visited.Nodup
  traceVisited : s.trace.reverse = s.visited
  visitedKeys : ∀ j ∈ s.visited, j ∈ s1.visited
  stackKeys : ∀ j ∈ s.stack, j ∈ s1.visited
  storeStable : ∀ j, ¬ WrittenTarget s1 s.visited j → s.store j = s1.store j
  storeRewritten : ∀ j, WrittenTarget s1 s.visited j →
    s.store j = rewriteObj s1.registry (s1.store j)

/-! # Theorems -/

theorem updateStore_same (store : Store) (i : Nat) (o : Obj) :
    updateStore store i o i = o := by
  simp [updateStore]

theorem updateStore_ne (store : Store) (i j : Nat) (o : Obj) (h : j ≠ i) :
    updateStore store i o j = store j := by
  simp [updateStore, h]

theorem filterUnderscoreKeys_sublist {l l2 : List (Key × Nat)}
    (h : filterUnderscoreKeys l = .ok l2) : l2.Sublist l := by
  induction l generalizing l2 with
  | nil =>
    simp only [filterUnderscoreKeys, Except.ok.injEq] at h
    simp [← h]
  | cons p rest ih =>
    obtain ⟨k, v⟩ := p
    simp only [filterUnderscoreKeys] at h
    cases hk : keyStartsWithUnderscore k with
    | error e => rw [hk] at h; cases h
    | ok b =>
      rw [hk] at h
      cases hr : filterUnderscoreKeys rest with
      | error e => rw [hr] at h; cases h
      | ok tail =>
        rw [hr] at h
        cases b with
        | true =>
          simp only [if_true, Except.ok.injEq] at h
          subst h
          exact List.Sublist.cons _ (ih hr)
        | false =>
          simp only [Bool.false_eq_true, if_false, Except.ok.injEq] at h
          subst h
          exact List.Sublist.cons₂ _ (ih hr)

theorem filterUnderscoreKeys_clean {l l2 : List (Key × Nat)}
    (h : filterUnderscoreKeys l = .ok l2) : cleanKeys l2 := by
  induction l generalizing l2 with
  | nil =>
    simp only [filterUnderscoreKeys, Except.ok.injEq] at h
    intro p hp
    rw [← h] at hp
    cases hp
  | cons p rest ih =>
    obtain ⟨k, v⟩ := p
    simp only [filterUnderscoreKeys] at h
    cases hk : keyStartsWithUnderscore k with
    | error e => rw [hk] at h; cases h
    | ok b =>
      rw [hk] at h
      cases hr : filterUnderscoreKeys rest with
      | error e => rw [hr] at h; cases h
      | ok tail =>
        rw [hr] at h
        cases b with
        | true =>
          simp only [if_true, Except.ok.injEq] at h
          subst h
          exact ih hr
        | false =>
          simp only [Bool.false_eq_true, if_false, Except.ok.injEq] at h
          intro q hq
          rw [← h] at hq
          cases hq with
          | head =>
            cases k with
            | str s =>
              simp only [keyStartsWithUnderscore, Except.ok.injEq] at hk
              simp [keyClean, ← hk]
            | intKey n => cases hk
          | tail _ hq2 => exact ih hr q hq2

theorem filterUnderscoreKeys_total {l : List (Key × Nat)} (h : stringKeyed l) :
    ∃ l2, filterUnderscoreKeys l = .ok l2 := by
  induction l with
  | nil => exact ⟨[], rfl⟩
  | cons p rest ih =>
    obtain ⟨k, v⟩ := p
    obtain ⟨tail, htail⟩ := ih fun q hq => h q (List.mem_cons_of_mem _ hq)
    have hk := h (k, v) (List.mem_cons_self _ _)
    cases k with
    | str s =>
      simp only [filterUnderscoreKeys, keyStartsWithUnderscore, htail]
      cases startsWithUnderscore s with
      | true => exact ⟨tail, rfl⟩
      | false => exact ⟨(Key.str s, v) :: tail, rfl⟩
    | intKey n => simp [keyIsString] at hk

theorem iterateItems_of_ne_notIterable {it : ItemsVal} (h : it ≠ .notIterable) :
    iterateItems (get_iterable it) = .ok (itemsPairs it) := by
  cases it with
  | callable pairs => rfl
  | dictVal pairs => rfl
  | rawPairs pairs => rfl
  | notIterable => exact absurd rfl h

theorem rewriteEntries_keys {reg : List (Nat × Nat)} {l l2 : List (Key × Nat)}
    (h : rewriteEntries reg l = some l2) : l2.map Prod.fst = l.map Prod.fst := by
  induction l generalizing l2 with
  | nil =>
    simp only [rewriteEntries, Option.some.injEq] at h
    rw [← h]
  | cons p rest ih =>
    obtain ⟨k, v⟩ := p
    simp only [rewriteEntries] at h
    cases hv : lookupReg reg v with
    | none => rw [hv] at h; cases h
    | some n =>
      rw [hv] at h
      cases hr : rewriteEntries reg rest with
      | none => rw [hr] at h; cases h
      | some tail =>
        rw [hr] at h
        simp only [Option.some.injEq] at h
        rw [← h]
        simp [ih hr]

theorem rewriteElems_length {reg : List (Nat × Nat)} {l l2 : List Nat}
    (h : rewriteElems reg l = some l2) : l2.length = l.length := by
  induction l generalizing l2 with
  | nil =>
    simp only [rewriteElems, Option.some.injEq] at h
    rw [← h]
  | cons v rest ih =>
    simp only [rewriteElems] at h
    cases hv : lookupReg reg v with
    | none => rw [hv] at h; cases h
    | some n =>
      rw [hv] at h
      cases hr : rewriteElems reg rest with
      | none => rw [hr] at h; cases h
      | some tail =>
        rw [hr] at h
        simp only [Option.some.injEq] at h
        rw [← h]
        simp [ih hr]

/-! ## Claim C1 -/

/-- C1 counterexample: on the finite graph `exSharedEnumStore` — a root
list holding two Enum members that share one dict value — the walker
itself raises a `KeyError` from a phase-2 registry lookup, so the claim
that no exception is raised by the walker itself is false. -/
theorem C1_counterexample :
    runErr (prepare_for_serialization exSharedEnumStore 6 5) = some Err.keyError := by
  decide

/-! ## Claim C4 -/

/-- C4 counterexample: on `exSharedEnumStore2` phase 1 completes and
fully populates the registry, yet a registry access performed during
phase 2 fails with a `KeyError`: the second Enum member's registry entry
is the dict already rewritten when the first member was processed, so
its values are fresh phase-1 copies that have no registry entry. -/
theorem C4_counterexample :
    phaseOk (runPhase1 exSharedEnumStore2 6 5) = true ∧
    phaseErrOf (runPhase2 exSharedEnumStore2 6 5) = some Err.keyError := by
  constructor
  · decide
  · decide

/-! ## Claim C3 -/

/-- C3 counterexample: in `exSharedSlotStore` the object at address 2 is
reachable through the two parent slots `"k"` of the dict at address 3
and `"k2"` of the dict at address 6.  The run completes and both dicts
are in the output (the root sequence is `[3, 3, 9]` where 9 is the copy
of 6), but the slot `"k"` holds address 0 while the slot `"k2"` holds
address 1 — two different objects for the same shared child. -/
theorem C3_counterexample :
    exSharedSlotStore 3 = Obj.mkDict [(Key.str "k", 2)] ∧
    exSharedSlotStore 6 = Obj.mkDict [(Key.str "k2", 2)] ∧
    runOk (prepare_for_serialization exSharedSlotStore 8 7) = true ∧
    runOut (prepare_for_serialization exSharedSlotStore 8 7) = 8 ∧
    runStoreAt (prepare_for_serialization exSharedSlotStore 8 7) 8 = Obj.mkList [3, 3, 9] ∧
    runStoreAt (prepare_for_serialization exSharedSlotStore 8 7) 3 =
      Obj.mkDict [(Key.str "k", 0)] ∧
    runStoreAt (prepare_for_serialization exSharedSlotStore 8 7) 9 =
      Obj.mkDict [(Key.str "k2", 1)] := by
  refine ⟨by decide, by decide, by decide, by decide, by decide, by decide, by decide⟩

/-! ## Claim C8 -/

/-- C8 counterexample: in `exEnumMutationStore` the Enum member at
address 3 has the original dict at address 2 as its value.  After the
call, that input dict no longer holds its original entry `("k", 1)`; it
was rewritten in place to point at the fresh copy at address 6. -/
theorem C8_counterexample :
    exEnumMutationStore 2 = Obj.mkDict [(Key.str "k", 1)] ∧
    runOk (prepare_for_serialization exEnumMutationStore 5 4) = true ∧
    runStoreAt (prepare_for_serialization exEnumMutationStore 5 4) 2 =
      Obj.mkDict [(Key.str "k", 6)] := by
  refine ⟨by decide, by decide, by decide⟩

/-! ## Claim C5 -/

/-- C5 counterexample: in `exDumpUnderscoreStore` the object at address 1
exposes `model_dump` returning `{"_x": 5}`.  The run completes, the
output root is the dict at address 3 whose slot `"a"` holds the mapping
at address 4, and that mapping still contains the key `"_x"`, which
begins with an underscore: the `model_dump` rule copies its mapping
without filtering private keys. -/
theorem C5_counterexample :
    runOk (prepare_for_serialization exDumpUnderscoreStore 3 2) = true ∧
    runOut (prepare_for_serialization exDumpUnderscoreStore 3 2) = 3 ∧
    runStoreAt (prepare_for_serialization exDumpUnderscoreStore 3 2) 3 =
      Obj.mkDict [(Key.str "a", 4)] ∧
    runStoreAt (prepare_for_serialization exDumpUnderscoreStore 3 2) 4 =
      Obj.mkDict [(Key.str "_x", 0)] ∧
    keyClean (Key.str "_x") = false := by
  refine ⟨by decide, by decide, by decide, by decide, by decide⟩

/-! ## Claim C6 -/

/-- C6 counterexample: `shallow_normalize` does raise on some inputs that
match a rule: a keyed mapping whose key is not a string makes the
underscore filter call `startswith` on a non-string, an
`AttributeError`. -/
theorem C6_counterexample :
    shallow_normalize (Obj.mkDict [(Key.intKey 1, 0)]) = .error .attributeError := by
  decide

/-- C6 amended: a value matching none of the shape rules is returned
unchanged without raising, and every value matching a rule produces a
result without raising provided its keyed mapping, attribute view and
items accessor carry only string keys and its items accessor is
iterable; outside that proviso the dict, attribute-view and items rules
raise `AttributeError` or `TypeError` (as the counterexample shows). -/
theorem C6_amended_theorem (o : Obj)
    (hdict : ∀ l, o.dict = some l → stringKeyed l)
    (hattr : ∀ l, o.dictAttr = some l → stringKeyed l)
    (hitems : ∀ it, o.items = some it → it ≠ ItemsVal.notIterable ∧ stringKeyed (itemsPairs it)) :
    (matchesNoRule o → shallow_normalize o = .ok .passthrough) ∧
    ∃ r, shallow_normalize o = .ok r := by
  constructor
  · rintro ⟨h1, h2, h3, h4, h5, h6, h7, h8, h9, h10⟩
    simp [shallow_normalize, h1, h2, h3, h4, h5, h6, h7, h8, h9, h10]
  · by_cases hs : o.sensitive = true
    · exact ⟨.redacted, by simp [shallow_normalize, hs]⟩
    · replace hs : o.sensitive = false := by simpa using hs
      cases he : o.enum with
      | some v => exact ⟨.enumVal v, by simp [shallow_normalize, hs, he]⟩
      | none =>
      cases hd : o.dict with
      | some l =>
        obtain ⟨l2, hl2⟩ := filterUnderscoreKeys_total (hdict l hd)
        exact ⟨.dictCopy l2, by simp [shallow_normalize, hs, he, hd, hl2]⟩
      | none =>
      cases hq : o.seq with
      | some p =>
        obtain ⟨kind, elems⟩ := p
        exact ⟨.listCopy elems, by simp [shallow_normalize, hs, he, hd, hq]⟩
      | none =>
      cases hm : o.model_dump with
      | some l => exact ⟨.dictCopy l, by simp [shallow_normalize, hs, he, hd, hq, hm]⟩
      | none =>
      cases hdm : o.dictMethod with
      | some l => exact ⟨.dictCopy l, by simp [shallow_normalize, hs, he, hd, hq, hm, hdm]⟩
      | none =>
      cases hsl : o.slots with
      | some l =>
        exact ⟨.dictCopy (filterSlots l), by simp [shallow_normalize, hs, he, hd, hq, hm, hdm, hsl]⟩
      | none =>
      cases ha : o.dictAttr with
      | some l =>
        obtain ⟨l2, hl2⟩ := filterUnderscoreKeys_total (hattr l ha)
        exact ⟨.dictCopy l2, by simp [shallow_normalize, hs, he, hd, hq, hm, hdm, hsl, ha, hl2]⟩
      | none =>
      cases hi : o.items with
      | some it =>
        obtain ⟨hne, hstr⟩ := hitems it hi
        obtain ⟨l2, hl2⟩ := filterUnderscoreKeys_total hstr
        have hiter := iterateItems_of_ne_notIterable hne
        exact ⟨.dictCopy l2,
          by simp [shallow_normalize, hs, he, hd, hq, hm, hdm, hsl, ha, hi, hiter, hl2]⟩
      | none =>
      cases hdt : o.datetime with
      | some d =>
        exact ⟨.datetimeStr (DateUtils.datetime_to_string d (some .iso8061Format)),
          by simp [shallow_normalize, hs, he, hd, hq, hm, hdm, hsl, ha, hi, hdt]⟩
      | none =>
        exact ⟨.passthrough, by simp [shallow_normalize, hs, he, hd, hq, hm, hdm, hsl, ha, hi, hdt]⟩

/-- C6 amended witness: the amended theorem applied to a concrete keyed
mapping with string keys. -/
theorem C6_amended_witness :
    (∀ l, (Obj.mkDict [(Key.str "a", 0), (Key.str "_b", 1)]).dict = some l → stringKeyed l) ∧
    ((matchesNoRule (Obj.mkDict [(Key.str "a", 0), (Key.str "_b", 1)]) →
      shallow_normalize (Obj.mkDict [(Key.str "a", 0), (Key.str "_b", 1)]) = .ok .passthrough) ∧
     ∃ r, shallow_normalize (Obj.mkDict [(Key.str "a", 0), (Key.str "_b", 1)]) = .ok r) := by
  constructor
  · intro l hl
    cases hl
    intro p hp
    fin_cases hp <;> decide
  · exact C6_amended_theorem _
      (fun l hl => by cases hl; intro p hp; fin_cases hp <;> decide)
      (fun l hl => by cases hl)
      (fun it hit => by cases hit)

/-! ## Claim C7 -/

/-- C7 counterexample: a naive timestamp (one without `tzinfo`, as
`datetime(1970, 1, 1)` is) normalizes to a string with no timezone
offset at all, because the `%z` directive renders as the empty string
for naive datetimes; the output does not match the claimed pattern
`YYYY-MM-DDTHH:MM:SS.ssssss±HHMM`. -/
theorem C7_counterexample :
    shallow_normalize (Obj.mkDatetime ⟨1970, 1, 1, 0, 0, 0, 0, none⟩) =
      .ok (.datetimeStr "1970-01-01T00:00:00.000000") ∧
    hasIsoOffsetPattern "1970-01-01T00:00:00.000000" = false := by
  constructor
  · decide
  · decide

/-- C7 amended: a timezone-aware timestamp normalizes to its ISO-8601
core followed by the explicit `±HHMM` offset of its zone; a naive one
carries no offset.  In particular the aware UTC epoch normalizes to
exactly `"1970-01-01T00:00:00.000000+0000"`, which matches the claimed
pattern. -/
theorem C7_amended_theorem (d : DateTimeV) (off : Int) (h : d.tz = some off) :
    shallow_normalize (Obj.mkDatetime d) =
      .ok (.datetimeStr (dateTimePart "T" d ++ formatTz (some off))) ∧
    shallow_normalize (Obj.mkDatetime ⟨1970, 1, 1, 0, 0, 0, 0, some 0⟩) =
      .ok (.datetimeStr "1970-01-01T00:00:00.000000+0000") ∧
    hasIsoOffsetPattern "1970-01-01T00:00:00.000000+0000" = true := by
  refine ⟨?_, by decide, by decide⟩
  simp [shallow_normalize, Obj.mkDatetime, DateUtils.datetime_to_string, strftime, h]

/-- C7 amended witness: the amended theorem at the aware UTC epoch. -/
theorem C7_amended_witness :
    (⟨1970, 1, 1, 0, 0, 0, 0, some 0⟩ : DateTimeV).tz = some 0 ∧
    shallow_normalize (Obj.mkDatetime ⟨1970, 1, 1, 0, 0, 0, 0, some 0⟩) =
      .ok (.datetimeStr
        (dateTimePart "T" ⟨1970, 1, 1, 0, 0, 0, 0, some 0⟩ ++ formatTz (some 0))) :=
  ⟨rfl, (C7_amended_theorem ⟨1970, 1, 1, 0, 0, 0, 0, some 0⟩ 0 rfl).1⟩

/-! ## Claim C9 -/

/-- C9: `shallow_normalize` is a pure function whose shape rules apply in
strict priority order with first match winning: any value carrying the
`__sensitive__` marker yields the constant redaction placeholder no
matter what other capabilities it has, and any non-marked enumerated
constant yields its underlying value even if it also exposes later-rule
capabilities. -/
theorem C9_theorem (o : Obj) (v : Nat) :
    (o.sensitive = true → shallow_normalize o = .ok .redacted) ∧
    (o.sensitive = false → o.enum = some v → shallow_normalize o = .ok (.enumVal v)) := by
  constructor
  · intro h
    simp [shallow_normalize, h]
  · intro h1 h2
    simp [shallow_normalize, h1, h2]

/-- C9 witness: a sensitive value that is also a dict with a model dump,
and an enumerated constant that is also a dict with a timestamp. -/
theorem C9_witness :
    exSensitiveMultiShape.sensitive = true ∧
    shallow_normalize exSensitiveMultiShape = .ok .redacted ∧
    exEnumMultiShape.sensitive = false ∧
    exEnumMultiShape.enum = some 5 ∧
    shallow_normalize exEnumMultiShape = .ok (.enumVal 5) :=
  ⟨rfl,
   (C9_theorem exSensitiveMultiShape 0).1 rfl,
   rfl, rfl,
   (C9_theorem exEnumMultiShape 5).2 rfl rfl⟩

/-! ## Claim C10 -/

/-- C10: mapping keys are never normalized.  The dict rule emits a
sublist of the original entries — each surviving key is the original key
object, with its original value — and the phase-2 rewrite maps entry
values through the registry while leaving the key list exactly as it
was. -/
theorem C10_theorem (o : Obj) (l l2 : List (Key × Nat)) (reg : List (Nat × Nat))
    (entries entries2 : List (Key × Nat)) :
    (o.sensitive = false → o.enum = none → o.dict = some l →
      shallow_normalize o = .ok (.dictCopy l2) → l2.Sublist l) ∧
    (rewriteEntries reg entries = some entries2 →
      entries2.map Prod.fst = entries.map Prod.fst) := by
  constructor
  · intro h1 h2 h3 h4
    simp only [shallow_normalize, h1, h2, h3, Bool.false_eq_true, if_false] at h4
    cases hf : filterUnderscoreKeys l with
    | error e => rw [hf] at h4; cases h4
    | ok kept =>
      rw [hf] at h4
      simp only [Except.ok.injEq, NormRes.dictCopy.injEq] at h4
      subst h4
      exact filterUnderscoreKeys_sublist hf
  · exact rewriteEntries_keys

/-- C10 witness: the theorem at a concrete mapping with a private key and
a concrete phase-2 rewrite. -/
theorem C10_witness :
    (Obj.mkDict [(Key.str "a", 1), (Key.str "_b", 2)]).sensitive = false ∧
    (Obj.mkDict [(Key.str "a", 1), (Key.str "_b", 2)]).enum = none ∧
    (Obj.mkDict [(Key.str "a", 1), (Key.str "_b", 2)]).dict =
      some [(Key.str "a", 1), (Key.str "_b", 2)] ∧
    shallow_normalize (Obj.mkDict [(Key.str "a", 1), (Key.str "_b", 2)]) =
      .ok (.dictCopy [(Key.str "a", 1)]) ∧
    [(Key.str "a", 1)].Sublist [(Key.str "a", 1), (Key.str "_b", 2)] ∧
    rewriteEntries [(1, 5)] [(Key.str "a", 1)] = some [(Key.str "a", 5)] ∧
    [(Key.str "a", 5)].map Prod.fst = [(Key.str "a", 1)].map Prod.fst :=
  ⟨rfl, rfl, rfl, by decide,
   (C10_theorem (Obj.mkDict [(Key.str "a", 1), (Key.str "_b", 2)])
     [(Key.str "a", 1), (Key.str "_b", 2)] [(Key.str "a", 1)] [] [] []).1
     rfl rfl rfl (by decide),
   by decide,
   (C10_theorem Obj.mkNull [] [] [(1, 5)] [(Key.str "a", 1)] [(Key.str "a", 5)]).2
     (by decide)⟩

/-! ## Single-step characterizations of the two phases -/

theorem phase1_nil (fuel : Nat) (v : List Nat) (r : List (Nat × Nat)) (s : Store)
    (n : Nat) (t : List Nat) :
    phase1 fuel ⟨[], v, r, s, n, t⟩ = some (.ok ⟨[], v, r, s, n, t⟩) := by
  cases fuel <;> rfl

theorem phase1_cons_visited {i : Nat} {v : List Nat} (fuel : Nat) (rest : List Nat)
    (r : List (Nat × Nat)) (s : Store) (n : Nat) (t : List Nat) (h : i ∈ v) :
    phase1 (fuel + 1) ⟨i :: rest, v, r, s, n, t⟩ = phase1 fuel ⟨rest, v, r, s, n, t⟩ := by
  simp only [phase1, if_pos h]

theorem phase1_cons_error {i : Nat} {v : List Nat} {s : Store} {e : Err} (fuel : Nat)
    (rest : List Nat) (r : List (Nat × Nat)) (n : Nat) (t : List Nat)
    (h : i ∉ v) (hn : shallow_normalize (s i) = .error e) :
    phase1 (fuel + 1) ⟨i :: rest, v, r, s, n, t⟩ = some (.error e) := by
  simp only [phase1, if_neg h, hn]

theorem phase1_cons_new {i : Nat} {v : List Nat} {s : Store} {norm : NormRes} (fuel : Nat)
    (rest : List Nat) (r : List (Nat × Nat)) (n : Nat) (t : List Nat)
    (h : i ∉ v) (hn : shallow_normalize (s i) = .ok norm) :
    phase1 (fuel + 1) ⟨i :: rest, v, r, s, n, t⟩ =
      phase1 fuel
        ⟨(create_stack_elements (interpretNorm s n norm i).2.1
            (interpretNorm s n norm i).1).reverse ++ rest,
          i :: v, (i, (interpretNorm s n norm i).1) :: r,
          (interpretNorm s n norm i).2.1, (interpretNorm s n norm i).2.2, t ++ [i]⟩ := by
  simp only [phase1, if_neg h, hn]

theorem phase2_nil (fuel : Nat) (v : List Nat) (r : List (Nat × Nat)) (s : Store)
    (n : Nat) (t : List Nat) :
    phase2 fuel ⟨[], v, r, s, n, t⟩ = some (.ok ⟨[], v, r, s, n, t⟩) := by
  cases fuel <;> rfl

theorem phase2_cons_visited {i : Nat} {v : List Nat} (fuel : Nat) (rest : List Nat)
    (r : List (Nat × Nat)) (s : Store) (n : Nat) (t : List Nat) (h : i ∈ v) :
    phase2 (fuel + 1) ⟨i :: rest, v, r, s, n, t⟩ = phase2 fuel ⟨rest, v, r, s, n, t⟩ := by
  simp only [phase2, if_pos h]

theorem phase2_cons_missing {i : Nat} {v : List Nat} {r : List (Nat × Nat)} (fuel : Nat)
    (rest : List Nat) (s : Store) (n : Nat) (t : List Nat)
    (h : i ∉ v) (hl : lookupReg r i = none) :
    phase2 (fuel + 1) ⟨i :: rest, v, r, s, n, t⟩ = some (.error .keyError) := by
  simp only [phase2, if_neg h, hl]

theorem phase2_cons_dict {i m : Nat} {v : List Nat} {r : List (Nat × Nat)} {s : Store}
    {entries entries2 : List (Key × Nat)} (fuel : Nat) (rest : List Nat) (n : Nat)
    (t : List Nat) (h : i ∉ v) (hl : lookupReg r i = some m)
    (hd : (s m).dict = some entries) (hr : rewriteEntries r entries = some entries2) :
    phase2 (fuel + 1) ⟨i :: rest, v, r, s, n, t⟩ =
      phase2 fuel ⟨(entries.map Prod.snd).reverse ++ rest, i :: v, r,
        updateStore s m { s m with dict := some entries2 }, n, t ++ [i]⟩ := by
  simp only [phase2, if_neg h, hl, hd, hr]

theorem phase2_cons_dict_fail {i m : Nat} {v : List Nat} {r : List (Nat × Nat)} {s : Store}
    {entries : List (Key × Nat)} (fuel : Nat) (rest : List Nat) (n : Nat)
    (t : List Nat) (h : i ∉ v) (hl : lookupReg r i = some m)
    (hd : (s m).dict = some entries) (hr : rewriteEntries r entries = none) :
    phase2 (fuel + 1) ⟨i :: rest, v, r, s, n, t⟩ = some (.error .keyError) := by
  simp only [phase2, if_neg h, hl, hd, hr]

theorem phase2_cons_list {i m : Nat} {v : List Nat} {r : List (Nat × Nat)} {s : Store}
    {elems elems2 : List Nat} (fuel : Nat) (rest : List Nat) (n : Nat)
    (t : List Nat) (h : i ∉ v) (hl : lookupReg r i = some m)
    (hd : (s m).dict = none) (hsq : (s m).seq = some (.list, elems))
    (hr : rewriteElems r elems = some elems2) :
    phase2 (fuel + 1) ⟨i :: rest, v, r, s, n, t⟩ =
      phase2 fuel ⟨elems.reverse ++ rest, i :: v, r,
        updateStore s m { s m with seq := some (.list, elems2) }, n, t ++ [i]⟩ := by
  simp only [phase2, if_neg h, hl, hd, hsq, hr]

theorem phase2_cons_list_fail {i m : Nat} {v : List Nat} {r : List (Nat × Nat)} {s : Store}
    {elems : List Nat} (fuel : Nat) (rest : List Nat) (n : Nat)
    (t : List Nat) (h : i ∉ v) (hl : lookupReg r i = some m)
    (hd : (s m).dict = none) (hsq : (s m).seq = some (.list, elems))
    (hr : rewriteElems r elems = none) :
    phase2 (fuel + 1) ⟨i :: rest, v, r, s, n, t⟩ = some (.error .keyError) := by
  simp only [phase2, if_neg h, hl, hd, hsq, hr]

theorem phase2_cons_other {i m : Nat} {v : List Nat} {r : List (Nat × Nat)} {s : Store}
    (fuel : Nat) (rest : List Nat) (n : Nat) (t : List Nat)
    (h : i ∉ v) (hl : lookupReg r i = some m) (hd : (s m).dict = none)
    (hsq : ∀ elems, (s m).seq ≠ some (.list, elems)) :
    phase2 (fuel + 1) ⟨i :: rest, v, r, s, n, t⟩ =
      phase2 fuel ⟨rest, i :: v, r, s, n, t ++ [i]⟩ := by
  simp only [phase2, if_neg h, hl, hd]

/-! ## Claim C2 -/

/-- C2: for a self-referencing one-element sequence — `store root` is a
list whose only element is `root` itself — `prepare_for_serialization`
terminates successfully, and the output node (the fresh copy allocated
at address `next`) is a list whose single element is the output node
itself: the cycle is closed through the copy, not expanded. -/
theorem C2_theorem (store : Store) (next root : Nat)
    (hroot : store root = Obj.mkList [root]) (hlt : root < next) :
    runOk (prepare_for_serialization store next root) = true ∧
    runOut (prepare_for_serialization store next root) = next ∧
    runStoreAt (prepare_for_serialization store next root) next = Obj.mkList [next] := by
  have hnorm : shallow_normalize (store root) = .ok (.listCopy [root]) := by
    rw [hroot]; rfl
  have hfuel1 : 2 ≤ fuel1Bound store next := by
    have hmem : root ∈ Finset.range next := Finset.mem_range.mpr hlt
    have hle : 3 + pushBound store root ≤
        Finset.sum (Finset.range next) (fun i => 3 + pushBound store i) := by
      simpa using Finset.single_le_sum (f := fun i => 3 + pushBound store i)
        (fun i _ => Nat.zero_le _) hmem
    unfold fuel1Bound
    omega
  obtain ⟨f1, hf1⟩ : ∃ f1, fuel1Bound store next = f1 + 2 :=
    ⟨fuel1Bound store next - 2, by omega⟩
  have hcse : create_stack_elements (updateStore store next (Obj.mkList [root])) next =
      [root] := by
    simp [create_stack_elements, updateStore_same, Obj.mkList]
  have hp1 : runPhase1 store next root =
      some (.ok ⟨[], [root], [(root, next)],
        updateStore store next (Obj.mkList [root]), next + 1, [root]⟩) := by
    rw [runPhase1, hf1]
    rw [phase1_cons_new (f1 + 1) [] [] next [] (by simp) hnorm]
    simp only [interpretNorm]
    rw [hcse]
    simp only [List.reverse_singleton, List.append_nil, List.nil_append]
    rw [phase1_cons_visited f1 [] [(root, next)] _ (next + 1) _ (by simp)]
    exact phase1_nil f1 _ _ _ _ _
  have hfuel2 : 2 ≤ fuel2Bound [(root, next)]
      (updateStore store next (Obj.mkList [root])) (next + 1) := by
    have hmem : 0 ∈ Finset.range (next + 1) := Finset.mem_range.mpr (Nat.succ_pos _)
    have hle : 1 + pushBound2 [(root, next)]
        (updateStore store next (Obj.mkList [root])) 0 ≤
        Finset.sum (Finset.range (next + 1)) (fun i => 1 + pushBound2 [(root, next)]
          (updateStore store next (Obj.mkList [root])) i) := by
      simpa using Finset.single_le_sum
        (f := fun i => 1 + pushBound2 [(root, next)]
          (updateStore store next (Obj.mkList [root])) i)
        (fun i _ => Nat.zero_le _) hmem
    unfold fuel2Bound
    omega
  obtain ⟨f2, hf2⟩ : ∃ f2, fuel2Bound [(root, next)]
      (updateStore store next (Obj.mkList [root])) (next + 1) = f2 + 2 :=
    ⟨fuel2Bound [(root, next)] (updateStore store next (Obj.mkList [root])) (next + 1) - 2,
      by omega⟩
  have hlook : lookupReg [(root, next)] root = some next := by simp [lookupReg]
  have hsn : updateStore store next (Obj.mkList [root]) next = Obj.mkList [root] :=
    updateStore_same _ _ _
  have hrewrite : rewriteElems [(root, next)] [root] = some [next] := by
    simp [rewriteElems, lookupReg]
  have hobj : ({ updateStore store next (Obj.mkList [root]) next with
      seq := some (.list, [next]) } : Obj) = Obj.mkList [next] := by
    rw [hsn]; rfl
  have hdictnone : (updateStore store next (Obj.mkList [root]) next).dict = none := by
    rw [hsn]; rfl
  have hseqlist : (updateStore store next (Obj.mkList [root]) next).seq =
      some (.list, [root]) := by
    rw [hsn]; rfl
  have hp2 : runPhase2 store next root =
      some (.ok ⟨[], [root], [(root, next)],
        updateStore (updateStore store next (Obj.mkList [root])) next (Obj.mkList [next]),
        next + 1, [root]⟩) := by
    rw [runPhase2, hp1]
    show phase2 _ _ = _
    rw [hf2]
    rw [phase2_cons_list (f2 + 1) [] (next + 1) [] (by simp) hlook
      hdictnone hseqlist hrewrite]
    rw [hobj]
    simp only [List.reverse_singleton, List.append_nil, List.nil_append]
    rw [phase2_cons_visited f2 [] [(root, next)] _ (next + 1) _ (by simp)]
    exact phase2_nil f2 _ _ _ _ _
  have hprep : prepare_for_serialization store next root =
      some (.ok (next,
        updateStore (updateStore store next (Obj.mkList [root])) next (Obj.mkList [next]))) := by
    rw [prepare_for_serialization, hp2]
    simp [hlook]
  refine ⟨?_, ?_, ?_⟩
  · rw [hprep]; rfl
  · rw [hprep]; rfl
  · rw [hprep]
    show updateStore _ next (Obj.mkList [next]) next = Obj.mkList [next]
    exact updateStore_same _ _ _

/-- C2 witness: the theorem at the concrete one-node self-loop. -/
theorem C2_witness :
    (fun j => if j = 0 then Obj.mkList [0] else Obj.mkNull : Store) 0 = Obj.mkList [0] ∧
    (0 : Nat) < 1 ∧
    runOk (prepare_for_serialization
      (fun j => if j = 0 then Obj.mkList [0] else Obj.mkNull) 1 0) = true ∧
    runOut (prepare_for_serialization
      (fun j => if j = 0 then Obj.mkList [0] else Obj.mkNull) 1 0) = 1 ∧
    runStoreAt (prepare_for_serialization
      (fun j => if j = 0 then Obj.mkList [0] else Obj.mkNull) 1 0) 1 = Obj.mkList [1] := by
  refine ⟨by decide, by decide, ?_⟩
  have h := C2_theorem (fun j => if j = 0 then Obj.mkList [0] else Obj.mkNull) 1 0
    (by decide) (by decide)
  exact ⟨h.1, h.2.1, h.2.2⟩

/-! ## Inversion of the normalizer -/

theorem shallow_normalize_inv {o : Obj} {norm : NormRes}
    (h : shallow_normalize o = .ok norm) :
    (o.sensitive = true ∧ norm = .redacted) ∨
    (o.sensitive = false ∧ ∃ v, o.enum = some v ∧ norm = .enumVal v) ∨
    (o.sensitive = false ∧ o.enum = none ∧ ∃ l l2, o.dict = some l ∧
      filterUnderscoreKeys l = .ok l2 ∧ norm = .dictCopy l2) ∨
    (o.sensitive = false ∧ o.enum = none ∧ o.dict = none ∧ ∃ k elems,
      o.seq = some (k, elems) ∧ norm = .listCopy elems) ∨
    (o.sensitive = false ∧ o.enum = none ∧ o.dict = none ∧ o.seq = none ∧
      ∃ l, o.model_dump = some l ∧ norm = .dictCopy l) ∨
    (o.sensitive = false ∧ o.enum = none ∧ o.dict = none ∧ o.seq = none ∧
      o.model_dump = none ∧ ∃ l, o.dictMethod = some l ∧ norm = .dictCopy l) ∨
    (o.sensitive = false ∧ o.enum = none ∧ o.dict = none ∧ o.seq = none ∧
      o.model_dump = none ∧ o.dictMethod = none ∧ ∃ l, o.slots = some l ∧
      norm = .dictCopy (filterSlots l)) ∨
    (o.sensitive = false ∧ o.enum = none ∧ o.dict = none ∧ o.seq = none ∧
      o.model_dump = none ∧ o.dictMethod = none ∧ o.slots = none ∧ ∃ l l2,
      o.dictAttr = some l ∧ filterUnderscoreKeys l = .ok l2 ∧ norm = .dictCopy l2) ∨
    (o.sensitive = false ∧ o.enum = none ∧ o.dict = none ∧ o.seq = none ∧
      o.model_dump = none ∧ o.dictMethod = none ∧ o.slots = none ∧ o.dictAttr = none ∧
      ∃ it pairs l2, o.items = some it ∧ iterateItems (get_iterable it) = .ok pairs ∧
      filterUnderscoreKeys pairs = .ok l2 ∧ norm = .dictCopy l2) ∨
    (o.sensitive = false ∧ o.enum = none ∧ o.dict = none ∧ o.seq = none ∧
      o.model_dump = none ∧ o.dictMethod = none ∧ o.slots = none ∧ o.dictAttr = none ∧
      o.items = none ∧ ∃ d, o.datetime = some d ∧
      norm = .datetimeStr (DateUtils.datetime_to_string d (some .iso8061Format))) ∨
    (matchesNoRule o ∧ norm = .passthrough) := by
  by_cases hs : o.sensitive = true
  · simp only [shallow_normalize, hs, if_true, Except.ok.injEq] at h
    exact Or.inl ⟨hs, h.symm⟩
  replace hs : o.sensitive = false := by simpa using hs
  simp only [shallow_normalize, hs, Bool.false_eq_true, if_false] at h
  cases he : o.enum with
  | some v =>
    simp only [he] at h
    simp only [Except.ok.injEq] at h
    exact Or.inr (Or.inl ⟨hs, v, rfl, h.symm⟩)
  | none =>
  simp only [he] at h
  cases hd : o.dict with
  | some l =>
    simp only [hd] at h
    cases hf : filterUnderscoreKeys l with
    | error e => simp only [hf] at h; cases h
    | ok l2 =>
      simp only [hf] at h
      simp only [Except.ok.injEq] at h
      exact Or.inr (Or.inr (Or.inl ⟨hs, rfl, l, l2, rfl, hf, h.symm⟩))
  | none =>
  simp only [hd] at h
  cases hq : o.seq with
  | some p =>
    obtain ⟨k, elems⟩ := p
    simp only [hq] at h
    simp only [Except.ok.injEq] at h
    exact Or.inr (Or.inr (Or.inr (Or.inl ⟨hs, rfl, rfl, k, elems, rfl, h.symm⟩)))
  | none =>
  simp only [hq] at h
  cases hm : o.model_dump with
  | some l =>
    simp only [hm] at h
    simp only [Except.ok.injEq] at h
    exact Or.inr (Or.inr (Or.inr (Or.inr (Or.inl ⟨hs, rfl, rfl, rfl, l, rfl, h.symm⟩))))
  | none =>
  simp only [hm] at h
  cases hdm : o.dictMethod with
  | some l =>
    simp only [hdm] at h
    simp only [Except.ok.injEq] at h
    exact Or.inr (Or.inr (Or.inr (Or.inr (Or.inr (Or.inl
      ⟨hs, rfl, rfl, rfl, rfl, l, rfl, h.symm⟩)))))
  | none =>
  simp only [hdm] at h
  cases hsl : o.slots with
  | some l =>
    simp only [hsl] at h
    simp only [Except.ok.injEq] at h
    exact Or.inr (Or.inr (Or.inr (Or.inr (Or.inr (Or.inr (Or.inl
      ⟨hs, rfl, rfl, rfl, rfl, rfl, l, rfl, h.symm⟩))))))
  | none =>
  simp only [hsl] at h
  cases ha : o.dictAttr with
  | some l =>
    simp only [ha] at h
    cases hf : filterUnderscoreKeys l with
    | error e => simp only [hf] at h; cases h
    | ok l2 =>
      simp only [hf] at h
      simp only [Except.ok.injEq] at h
      exact Or.inr (Or.inr (Or.inr (Or.inr (Or.inr (Or.inr (Or.inr (Or.inl
        ⟨hs, rfl, rfl, rfl, rfl, rfl, rfl, l, l2, rfl, hf, h.symm⟩)))))))
  | none =>
  simp only [ha] at h
  cases hi : o.items with
  | some it =>
    simp only [hi] at h
    cases hit : iterateItems (get_iterable it) with
    | error e => simp only [hit] at h; cases h
    | ok pairs =>
      simp only [hit] at h
      cases hf : filterUnderscoreKeys pairs with
      | error e => simp only [hf] at h; cases h
      | ok l2 =>
        simp only [hf] at h
        simp only [Except.ok.injEq] at h
        exact Or.inr (Or.inr (Or.inr (Or.inr (Or.inr (Or.inr (Or.inr (Or.inr (Or.inl
          ⟨hs, rfl, rfl, rfl, rfl, rfl, rfl, rfl, it, pairs, l2, rfl, hit, hf, h.symm⟩))))))))
  | none =>
  simp only [hi] at h
  cases hdt : o.datetime with
  | some d =>
    simp only [hdt] at h
    simp only [Except.ok.injEq] at h
    exact Or.inr (Or.inr (Or.inr (Or.inr (Or.inr (Or.inr (Or.inr (Or.inr (Or.inr (Or.inl
      ⟨hs, rfl, rfl, rfl, rfl, rfl, rfl, rfl, rfl, d, rfl, h.symm⟩)))))))))
  | none =>
    simp only [hdt] at h
    simp only [Except.ok.injEq] at h
    exact Or.inr (Or.inr (Or.inr (Or.inr (Or.inr (Or.inr (Or.inr (Or.inr (Or.inr (Or.inr
      ⟨⟨hs, he, hd, hq, hm, hdm, hsl, ha, hi, hdt⟩, h.symm⟩)))))))))

theorem shallow_normalize_mkStr (s : String) :
    shallow_normalize (Obj.mkStr s) = .ok .passthrough := rfl

theorem mem_objIds_enum {o : Obj} {v : Nat} (h : o.enum = some v) : v ∈ objIds o := by
  simp [objIds, h]

theorem mem_objIds_dict {o : Obj} {l : List (Key × Nat)} {c : Nat}
    (h : o.dict = some l) (hc : c ∈ l.map Prod.snd) : c ∈ objIds o := by
  simp only [objIds, h, List.mem_append]
  tauto

theorem mem_objIds_seq {o : Obj} {p : SeqKind × List Nat} {c : Nat}
    (h : o.seq = some p) (hc : c ∈ p.2) : c ∈ objIds o := by
  simp only [objIds, h, List.mem_append]
  tauto

theorem mem_objIds_model_dump {o : Obj} {l : List (Key × Nat)} {c : Nat}
    (h : o.model_dump = some l) (hc : c ∈ l.map Prod.snd) : c ∈ objIds o := by
  simp only [objIds, h, List.mem_append]
  tauto

theorem mem_objIds_dictMethod {o : Obj} {l : List (Key × Nat)} {c : Nat}
    (h : o.dictMethod = some l) (hc : c ∈ l.map Prod.snd) : c ∈ objIds o := by
  simp only [objIds, h, List.mem_append]
  tauto

theorem mem_objIds_slots {o : Obj} {l : List (String × Nat)} {c : Nat}
    (h : o.slots = some l) (hc : c ∈ l.map Prod.snd) : c ∈ objIds o := by
  simp only [objIds, h, List.mem_append]
  tauto

theorem mem_objIds_dictAttr {o : Obj} {l : List (Key × Nat)} {c : Nat}
    (h : o.dictAttr = some l) (hc : c ∈ l.map Prod.snd) : c ∈ objIds o := by
  simp only [objIds, h, List.mem_append]
  tauto

theorem mem_objIds_items {o : Obj} {it : ItemsVal} {c : Nat}
    (h : o.items = some it) (hc : c ∈ (itemsPairs it).map Prod.snd) : c ∈ objIds o := by
  cases it with
  | callable pairs =>
    simp only [itemsPairs] at hc
    simp only [objIds, h, List.mem_append]
    tauto
  | dictVal pairs =>
    simp only [itemsPairs] at hc
    simp only [objIds, h, List.mem_append]
    tauto
  | rawPairs pairs =>
    simp only [itemsPairs] at hc
    simp only [objIds, h, List.mem_append]
    tauto
  | notIterable =>
    simp [itemsPairs] at hc

theorem iterateItems_get_eq {it : ItemsVal} {pairs : List (Key × Nat)}
    (h : iterateItems (get_iterable it) = .ok pairs) : pairs = itemsPairs it := by
  cases it <;> simp only [get_iterable, iterateItems, itemsPairs, Except.ok.injEq] at h <;>
    first
    | exact h.symm
    | cases h

theorem filterSlots_snd_sub {l : List (String × Nat)} {c : Nat}
    (hc : c ∈ (filterSlots l).map Prod.snd) : c ∈ l.map Prod.snd := by
  simp only [filterSlots, List.map_map, List.mem_map] at hc
  obtain ⟨p, hp, hpc⟩ := hc
  exact List.mem_map.mpr ⟨p, List.mem_of_mem_filter hp, hpc⟩

theorem sublist_snd_mem {l l2 : List (Key × Nat)} {c : Nat}
    (hs : l2.Sublist l) (hc : c ∈ l2.map Prod.snd) : c ∈ l.map Prod.snd := by
  obtain ⟨p, hp, hpc⟩ := List.mem_map.mp hc
  exact List.mem_map.mpr ⟨p, hs.mem hp, hpc⟩

/-- The produced Enum payload is the source object's `.value`. -/
theorem norm_enumVal_src {o : Obj} {v : Nat}
    (h : shallow_normalize o = .ok (.enumVal v)) : o.enum = some v := by
  rcases shallow_normalize_inv h with
    ⟨_, h2⟩ | ⟨_, w, hw, h2⟩ | ⟨_, _, l, l2, _, _, h2⟩ | ⟨_, _, _, k, el, _, h2⟩ |
    ⟨_, _, _, _, l, _, h2⟩ | ⟨_, _, _, _, _, l, _, h2⟩ | ⟨_, _, _, _, _, _, l, _, h2⟩ |
    ⟨_, _, _, _, _, _, _, l, l2, _, _, h2⟩ | ⟨_, _, _, _, _, _, _, _, it, pr, l2, _, _, _, h2⟩ |
    ⟨_, _, _, _, _, _, _, _, _, d, _, h2⟩ | ⟨_, h2⟩ <;> first
    | (cases h2; assumption)
    | cases h2

/-- A pass-through result implies the node is neither a dict nor a
sequence instance. -/
theorem norm_passthrough_shape {o : Obj}
    (h : shallow_normalize o = .ok .passthrough) : o.dict = none ∧ o.seq = none := by
  rcases shallow_normalize_inv h with
    ⟨_, h2⟩ | ⟨_, w, hw, h2⟩ | ⟨_, _, l, l2, _, _, h2⟩ | ⟨_, _, _, k, el, _, h2⟩ |
    ⟨_, _, _, _, l, _, h2⟩ | ⟨_, _, _, _, _, l, _, h2⟩ | ⟨_, _, _, _, _, _, l, _, h2⟩ |
    ⟨_, _, _, _, _, _, _, l, l2, _, _, h2⟩ | ⟨_, _, _, _, _, _, _, _, it, pr, l2, _, _, _, h2⟩ |
    ⟨_, _, _, _, _, _, _, _, _, d, _, h2⟩ | ⟨hnr, h2⟩ <;> try cases h2
  exact ⟨hnr.2.2.1, hnr.2.2.2.1⟩

/-- Every child address of a dict copy comes from the source object. -/
theorem norm_dictCopy_sub {o : Obj} {l : List (Key × Nat)}
    (h : shallow_normalize o = .ok (.dictCopy l)) :
    ∀ c ∈ l.map Prod.snd, c ∈ objIds o := by
  intro c hc
  rcases shallow_normalize_inv h with
    ⟨_, h2⟩ | ⟨_, w, hw, h2⟩ | ⟨_, _, l0, l2, hl0, hf, h2⟩ | ⟨_, _, _, k, el, _, h2⟩ |
    ⟨_, _, _, _, l0, hl0, h2⟩ | ⟨_, _, _, _, _, l0, hl0, h2⟩ | ⟨_, _, _, _, _, _, l0, hl0, h2⟩ |
    ⟨_, _, _, _, _, _, _, l0, l2, hl0, hf, h2⟩ |
    ⟨_, _, _, _, _, _, _, _, it, pr, l2, hit, hpr, hf, h2⟩ |
    ⟨_, _, _, _, _, _, _, _, _, d, _, h2⟩ | ⟨_, h2⟩
  · cases h2
  · cases h2
  · cases h2
    exact mem_objIds_dict hl0 (sublist_snd_mem (filterUnderscoreKeys_sublist hf) hc)
  · cases h2
  · cases h2
    exact mem_objIds_model_dump hl0 hc
  · cases h2
    exact mem_objIds_dictMethod hl0 hc
  · cases h2
    exact mem_objIds_slots hl0 (filterSlots_snd_sub hc)
  · cases h2
    exact mem_objIds_dictAttr hl0 (sublist_snd_mem (filterUnderscoreKeys_sublist hf) hc)
  · cases h2
    exact mem_objIds_items hit
      (iterateItems_get_eq hpr ▸ sublist_snd_mem (filterUnderscoreKeys_sublist hf) hc)
  · cases h2
  · cases h2

/-- Every element of a list copy comes from the source object. -/
theorem norm_listCopy_sub {o : Obj} {l : List Nat}
    (h : shallow_normalize o = .ok (.listCopy l)) :
    ∀ c ∈ l, c ∈ objIds o := by
  intro c hc
  rcases shallow_normalize_inv h with
    ⟨_, h2⟩ | ⟨_, w, hw, h2⟩ | ⟨_, _, l0, l2, hl0, hf, h2⟩ | ⟨_, _, _, k, el, hsq, h2⟩ |
    ⟨_, _, _, _, l0, hl0, h2⟩ | ⟨_, _, _, _, _, l0, hl0, h2⟩ | ⟨_, _, _, _, _, _, l0, hl0, h2⟩ |
    ⟨_, _, _, _, _, _, _, l0, l2, hl0, hf, h2⟩ |
    ⟨_, _, _, _, _, _, _, _, it, pr, l2, hit, hpr, hf, h2⟩ |
    ⟨_, _, _, _, _, _, _, _, _, d, _, h2⟩ | ⟨_, h2⟩ <;> try cases h2
  exact mem_objIds_seq hsq hc

theorem lookupReg_mem {r : List (Nat × Nat)} {i n : Nat}
    (h : lookupReg r i = some n) : (i, n) ∈ r := by
  induction r with
  | nil => cases h
  | cons p rest ih =>
    obtain ⟨k, v⟩ := p
    simp only [lookupReg] at h
    by_cases hik : i = k
    · rw [if_pos hik] at h
      cases h
      rw [hik]
      exact List.mem_cons_self _ _
    · rw [if_neg hik] at h
      exact List.mem_cons_of_mem _ (ih h)

theorem lookupReg_some_of_key {r : List (Nat × Nat)} {i : Nat}
    (h : i ∈ r.map Prod.fst) : ∃ n, lookupReg r i = some n := by
  induction r with
  | nil => cases h
  | cons p rest ih =>
    obtain ⟨k, v⟩ := p
    by_cases hik : i = k
    · exact ⟨v, by simp [lookupReg, hik]⟩
    · have h2 : i ∈ rest.map Prod.fst := by
        simp only [List.map_cons, List.mem_cons] at h
        tauto
      obtain ⟨n, hn⟩ := ih h2
      exact ⟨n, by simp [lookupReg, hik, hn]⟩

theorem rewriteEntries_total {reg : List (Nat × Nat)} {l : List (Key × Nat)}
    (h : ∀ p ∈ l, ∃ n, lookupReg reg p.2 = some n) :
    ∃ l2, rewriteEntries reg l = some l2 := by
  induction l with
  | nil => exact ⟨[], rfl⟩
  | cons p rest ih =>
    obtain ⟨k, v⟩ := p
    obtain ⟨n, hn⟩ := h (k, v) (List.mem_cons_self _ _)
    obtain ⟨tail, htail⟩ := ih fun q hq => h q (List.mem_cons_of_mem _ hq)
    exact ⟨(k, n) :: tail, by simp [rewriteEntries, hn, htail]⟩

theorem rewriteElems_total {reg : List (Nat × Nat)} {l : List Nat}
    (h : ∀ c ∈ l, ∃ n, lookupReg reg c = some n) :
    ∃ l2, rewriteElems reg l = some l2 := by
  induction l with
  | nil => exact ⟨[], rfl⟩
  | cons v rest ih =>
    obtain ⟨n, hn⟩ := h v (List.mem_cons_self _ _)
    obtain ⟨tail, htail⟩ := ih fun c hc => h c (List.mem_cons_of_mem _ hc)
    exact ⟨n :: tail, by simp [rewriteElems, hn, htail]⟩

theorem rewriteEntries_length {reg : List (Nat × Nat)} {l l2 : List (Key × Nat)}
    (h : rewriteEntries reg l = some l2) : l2.length = l.length := by
  have hk := rewriteEntries_keys h
  have h2 := congrArg List.length hk
  simpa using h2

theorem rewriteEntries_forall2 {reg : List (Nat × Nat)} {l l2 : List (Key × Nat)}
    (h : rewriteEntries reg l = some l2) :
    List.Forall₂ (fun p q => p.1 = q.1 ∧ lookupReg reg p.2 = some q.2) l l2 := by
  induction l generalizing l2 with
  | nil =>
    simp only [rewriteEntries, Option.some.injEq] at h
    rw [← h]
    exact List.Forall₂.nil
  | cons p rest ih =>
    obtain ⟨k, v⟩ := p
    simp only [rewriteEntries] at h
    cases hv : lookupReg reg v with
    | none => rw [hv] at h; cases h
    | some n =>
      rw [hv] at h
      cases hr : rewriteEntries reg rest with
      | none => rw [hr] at h; cases h
      | some tail =>
        rw [hr] at h
        simp only [Option.some.injEq] at h
        rw [← h]
        exact List.Forall₂.cons ⟨rfl, hv⟩ (ih hr)

theorem rewriteElems_forall2 {reg : List (Nat × Nat)} {l l2 : List Nat}
    (h : rewriteElems reg l = some l2) :
    List.Forall₂ (fun a b => lookupReg reg a = some b) l l2 := by
  induction l generalizing l2 with
  | nil =>
    simp only [rewriteElems, Option.some.injEq] at h
    rw [← h]
    exact List.Forall₂.nil
  | cons v rest ih =>
    simp only [rewriteElems] at h
    cases hv : lookupReg reg v with
    | none => rw [hv] at h; cases h
    | some n =>
      rw [hv] at h
      cases hr : rewriteElems reg rest with
      | none => rw [hr] at h; cases h
      | some tail =>
        rw [hr] at h
        simp only [Option.some.injEq] at h
        rw [← h]
        exact List.Forall₂.cons hv (ih hr)

/-! ## Measure algebra -/

theorem sum_filter_unvisit {n i : Nat} {v : List Nat} (w : Nat → Nat)
    (hi : i < n) (hvi : i ∉ v) :
    Finset.sum ((Finset.range n).filter fun j => j ∉ i :: v) w + w i =
      Finset.sum ((Finset.range n).filter fun j => j ∉ v) w := by
  have hset : (Finset.range n).filter (fun j => j ∉ v) =
      insert i ((Finset.range n).filter fun j => j ∉ i :: v) := by
    ext j
    simp only [Finset.mem_filter, Finset.mem_range, Finset.mem_insert, List.mem_cons]
    constructor
    · rintro ⟨hj, hjv⟩
      by_cases hji : j = i
      · exact Or.inl hji
      · exact Or.inr ⟨hj, fun hc => hc.elim hji hjv⟩
    · rintro (hji | ⟨hj, hjc⟩)
      · exact ⟨hji ▸ hi, hji ▸ hvi⟩
      · exact ⟨hj, fun hc => hjc (Or.inr hc)⟩
  have hni : i ∉ (Finset.range n).filter fun j => j ∉ i :: v := by
    simp [Finset.mem_filter]
  rw [hset, Finset.sum_insert hni]
  exact Nat.add_comm _ _

theorem sum_filter_irrelevant {n i : Nat} {v : List Nat} (w : Nat → Nat) (hi : n ≤ i) :
    Finset.sum ((Finset.range n).filter fun j => j ∉ i :: v) w =
      Finset.sum ((Finset.range n).filter fun j => j ∉ v) w := by
  apply Finset.sum_congr _ (fun _ _ => rfl)
  ext j
  simp only [Finset.mem_filter, Finset.mem_range, List.mem_cons]
  constructor
  · rintro ⟨hj, hjc⟩
    exact ⟨hj, fun hc => hjc (Or.inr hc)⟩
  · rintro ⟨hj, hjv⟩
    refine ⟨hj, ?_⟩
    rintro (hji | hc)
    · omega
    · exact hjv hc

theorem freshSet_unvisit_low {next0 nx i : Nat} {st : Store} {v : List Nat}
    (hi : i < next0) :
    ((Finset.Ico next0 nx).filter fun f => isFreshStr (st f) = true ∧ f ∉ i :: v) =
      ((Finset.Ico next0 nx).filter fun f => isFreshStr (st f) = true ∧ f ∉ v) := by
  ext f
  simp only [Finset.mem_filter, Finset.mem_Ico, List.mem_cons]
  constructor
  · rintro ⟨hf, hstr, hfc⟩
    exact ⟨hf, hstr, fun hc => hfc (Or.inr hc)⟩
  · rintro ⟨hf, hstr, hfv⟩
    refine ⟨hf, hstr, ?_⟩
    rintro (hfi | hc)
    · omega
    · exact hfv hc

theorem freshSet_unvisit_fresh {next0 nx i : Nat} {st : Store} {v : List Nat}
    (h1 : next0 ≤ i) (h2 : i < nx) (hstr : isFreshStr (st i) = true) (hvi : i ∉ v) :
    ((Finset.Ico next0 nx).filter fun f => isFreshStr (st f) = true ∧ f ∉ v).card =
      ((Finset.Ico next0 nx).filter fun f => isFreshStr (st f) = true ∧ f ∉ i :: v).card
        + 1 := by
  have hset : ((Finset.Ico next0 nx).filter fun f => isFreshStr (st f) = true ∧ f ∉ v) =
      insert i ((Finset.Ico next0 nx).filter fun f =>
        isFreshStr (st f) = true ∧ f ∉ i :: v) := by
    ext f
    simp only [Finset.mem_filter, Finset.mem_Ico, Finset.mem_insert, List.mem_cons]
    constructor
    · rintro ⟨hf, hfs, hfv⟩
      by_cases hfi : f = i
      · exact Or.inl hfi
      · exact Or.inr ⟨hf, hfs, fun hc => hc.elim hfi hfv⟩
    · rintro (hfi | ⟨hf, hfs, hfc⟩)
      · subst hfi
        exact ⟨⟨h1, h2⟩, hstr, hvi⟩
      · exact ⟨hf, hfs, fun hc => hfc (Or.inr hc)⟩
  have hni : i ∉ (Finset.Ico next0 nx).filter fun f =>
      isFreshStr (st f) = true ∧ f ∉ i :: v := by
    simp [Finset.mem_filter]
  rw [hset, Finset.card_insert_of_not_mem hni]

theorem freshSet_alloc {next0 nx : Nat} {st : Store} {v : List Nat} {o : Obj}
    (hnx : next0 ≤ nx) (hvnx : nx ∉ v) :
    ((Finset.Ico next0 (nx + 1)).filter fun f =>
        isFreshStr (updateStore st nx o f) = true ∧ f ∉ v).card =
      ((Finset.Ico next0 nx).filter fun f => isFreshStr (st f) = true ∧ f ∉ v).card
        + (if isFreshStr o = true then 1 else 0) := by
  have hico : Finset.Ico next0 (nx + 1) = insert nx (Finset.Ico next0 nx) := by
    ext j
    simp only [Finset.mem_Ico, Finset.mem_insert]
    omega
  rw [hico, Finset.filter_insert]
  have hcong : ((Finset.Ico next0 nx).filter fun f =>
      isFreshStr (updateStore st nx o f) = true ∧ f ∉ v) =
      ((Finset.Ico next0 nx).filter fun f => isFreshStr (st f) = true ∧ f ∉ v) := by
    apply Finset.filter_congr
    intro f hf
    have hfne : f ≠ nx := by
      have := Finset.mem_Ico.mp hf
      omega
    rw [updateStore_ne _ _ _ _ hfne]
  by_cases ho : isFreshStr o = true
  · rw [if_pos ⟨by rw [updateStore_same]; exact ho, hvnx⟩, if_pos ho]
    rw [Finset.card_insert_of_not_mem (by simp [Finset.mem_filter]), hcong]
  · rw [if_neg (by rw [updateStore_same]; tauto), if_neg ho, hcong]
    omega

theorem nodeChildIds_sub_cse (st : Store) (n : Nat) :
    ∀ c ∈ nodeChildIds (st n), c ∈ create_stack_elements st n := by
  intro c hc
  unfold nodeChildIds at hc
  unfold create_stack_elements
  cases hd : (st n).dict with
  | some entries => rw [hd] at hc; exact hc
  | none =>
    rw [hd] at hc
    cases hq : (st n).seq with
    | some p => rw [hq] at hc; exact hc
    | none => rw [hq] at hc; cases hc

theorem shallow_normalize_error_kind {o : Obj} {e : Err}
    (h : shallow_normalize o = .error e) : e ≠ .keyError := by
  have hfk : ∀ (l : List (Key × Nat)) e2, filterUnderscoreKeys l = .error e2 →
      e2 = .attributeError := by
    intro l
    induction l with
    | nil => intro e2 h2; cases h2
    | cons p rest ih =>
      intro e2 h2
      obtain ⟨k, v⟩ := p
      simp only [filterUnderscoreKeys] at h2
      cases hk : keyStartsWithUnderscore k with
      | error e3 =>
        rw [hk] at h2
        cases k with
        | str s => cases hk
        | intKey m =>
          simp only [keyStartsWithUnderscore, Except.error.injEq] at hk
          cases h2
          exact hk.symm
      | ok b =>
        rw [hk] at h2
        cases hr : filterUnderscoreKeys rest with
        | error e3 =>
          rw [hr] at h2
          cases b with
          | true => simp only [if_true] at h2; cases h2; exact ih _ hr
          | false => simp only [Bool.false_eq_true, if_false] at h2; cases h2; exact ih _ hr
        | ok tail =>
          rw [hr] at h2
          cases b with
          | true => simp only [if_true] at h2; cases h2
          | false => simp only [Bool.false_eq_true, if_false] at h2; cases h2
  by_cases hs : o.sensitive = true
  · simp only [shallow_normalize, hs, if_true] at h; cases h
  replace hs : o.sensitive = false := by simpa using hs
  simp only [shallow_normalize, hs, Bool.false_eq_true, if_false] at h
  cases he : o.enum with
  | some v => simp only [he] at h; cases h
  | none =>
  simp only [he] at h
  cases hd : o.dict with
  | some l =>
    simp only [hd] at h
    cases hf : filterUnderscoreKeys l with
    | error e2 =>
      rw [hf] at h
      cases h
      rw [hfk l _ hf]
      intro hc
      cases hc
    | ok l2 => rw [hf] at h; cases h
  | none =>
  simp only [hd] at h
  cases hq : o.seq with
  | some p => obtain ⟨k, elems⟩ := p; simp only [hq] at h; cases h
  | none =>
  simp only [hq] at h
  cases hm : o.model_dump with
  | some l => simp only [hm] at h; cases h
  | none =>
  simp only [hm] at h
  cases hdm : o.dictMethod with
  | some l => simp only [hdm] at h; cases h
  | none =>
  simp only [hdm] at h
  cases hsl : o.slots with
  | some l => simp only [hsl] at h; cases h
  | none =>
  simp only [hsl] at h
  cases ha : o.dictAttr with
  | some l =>
    simp only [ha] at h
    cases hf : filterUnderscoreKeys l with
    | error e2 =>
      rw [hf] at h
      cases h
      rw [hfk l _ hf]
      intro hc
      cases hc
    | ok l2 => rw [hf] at h; cases h
  | none =>
  simp only [ha] at h
  cases hi : o.items with
  | some it =>
    simp only [hi] at h
    cases it with
    | notIterable =>
      simp only [get_iterable, iterateItems] at h
      cases h
      intro hc
      cases hc
    | callable pairs =>
      simp only [get_iterable, iterateItems] at h
      cases hf : filterUnderscoreKeys pairs with
      | error e2 =>
        rw [hf] at h
        cases h
        rw [hfk pairs _ hf]
        intro hc
        cases hc
      | ok l2 => rw [hf] at h; cases h
    | dictVal pairs =>
      simp only [get_iterable, iterateItems] at h
      cases hf : filterUnderscoreKeys pairs with
      | error e2 =>
        rw [hf] at h
        cases h
        rw [hfk pairs _ hf]
        intro hc
        cases hc
      | ok l2 => rw [hf] at h; cases h
    | rawPairs pairs =>
      simp only [get_iterable, iterateItems] at h
      cases hf : filterUnderscoreKeys pairs with
      | error e2 =>
        rw [hf] at h
        cases h
        rw [hfk pairs _ hf]
        intro hc
        cases hc
      | ok l2 => rw [hf] at h; cases h
  | none =>
  simp only [hi] at h
  cases hdt : o.datetime with
  | some d => simp only [hdt] at h; cases h
  | none => simp only [hdt] at h; cases h

theorem isFreshStr_mkStr (s : String) : isFreshStr (Obj.mkStr s) = true := rfl

theorem isFreshStr_mkDict (l : List (Key × Nat)) : isFreshStr (Obj.mkDict l) = false := rfl

theorem isFreshStr_mkList (l : List Nat) : isFreshStr (Obj.mkList l) = false := rfl

theorem objIds_mkStr (s : String) : objIds (Obj.mkStr s) = [] := rfl

theorem objIds_mkDict (l : List (Key × Nat)) : objIds (Obj.mkDict l) = l.map Prod.snd := by
  simp [objIds, Obj.mkDict]

theorem objIds_mkList (l : List Nat) : objIds (Obj.mkList l) = l := by
  simp [objIds, Obj.mkList]

theorem nodeChildIds_mkStr (s : String) : nodeChildIds (Obj.mkStr s) = [] := rfl

theorem nodeChildIds_mkDict (l : List (Key × Nat)) :
    nodeChildIds (Obj.mkDict l) = l.map Prod.snd := rfl

theorem nodeChildIds_mkList (l : List Nat) : nodeChildIds (Obj.mkList l) = l := rfl

theorem isRewriteTarget_mkStr (s : String) : isRewriteTarget (Obj.mkStr s) = false := rfl

theorem isRewriteTarget_none {o : Obj} (hd : o.dict = none) (hq : o.seq = none) :
    isRewriteTarget o = false := by
  simp [isRewriteTarget, hd, hq]

theorem EntryBinding_alloc {next0 : Nat} {st : Store} {nx : Nat} {o : Obj}
    {p : Nat × Nat} (h : EntryBinding next0 st nx p) (h1 : p.1 < nx) (h2 : p.2 < nx) :
    EntryBinding next0 (updateStore st nx o) (nx + 1) p := by
  obtain ⟨norm, hn, hm⟩ := h
  refine ⟨norm, ?_, ?_⟩
  · rw [updateStore_ne _ _ _ _ (by omega)]
    exact hn
  · cases norm with
    | passthrough => exact hm
    | enumVal w => exact hm
    | redacted =>
      obtain ⟨a, b, c⟩ := hm
      exact ⟨a, by omega, by rw [updateStore_ne _ _ _ _ (by omega)]; exact c⟩
    | datetimeStr str =>
      obtain ⟨a, b, c⟩ := hm
      exact ⟨a, by omega, by rw [updateStore_ne _ _ _ _ (by omega)]; exact c⟩
    | dictCopy l =>
      obtain ⟨a, b, c⟩ := hm
      exact ⟨a, by omega, by rw [updateStore_ne _ _ _ _ (by omega)]; exact c⟩
    | listCopy l =>
      obtain ⟨a, b, c⟩ := hm
      exact ⟨a, by omega, by rw [updateStore_ne _ _ _ _ (by omega)]; exact c⟩

theorem mu1_expand (store0 : Store) (next0 : Nat) (stack v : List Nat)
    (r : List (Nat × Nat)) (st : Store) (nx : Nat) (t : List Nat) :
    mu1 store0 next0 ⟨stack, v, r, st, nx, t⟩ =
      stack.length +
      (Finset.sum ((Finset.range next0).filter fun i => i ∉ v)
        (fun i => 3 + pushBound store0 i) +
       3 * ((Finset.Ico next0 nx).filter fun f =>
         isFreshStr (st f) = true ∧ f ∉ v).card) := rfl

theorem mu2_expand (reg : List (Nat × Nat)) (next1 : Nat) (stack v : List Nat)
    (r : List (Nat × Nat)) (st : Store) (nx : Nat) (t : List Nat) :
    mu2 reg next1 ⟨stack, v, r, st, nx, t⟩ =
      stack.length + Finset.sum ((Finset.range next1).filter fun i => i ∉ v)
        (fun i => 1 + pushBound2 reg st i) := rfl

/-- One unvisited phase-1 step preserves the invariant and strictly
decreases the measure. -/
theorem phase1_step_inv (store0 : Store) (next0 : Nat) (hwf : WFStore store0 next0)
    {i : Nat} {rest v : List Nat} {r : List (Nat × Nat)} {st : Store} {nx : Nat}
    {t : List Nat} {norm : NormRes}
    (hinv : Inv1 store0 next0 ⟨i :: rest, v, r, st, nx, t⟩)
    (hvis : i ∉ v) (hn : shallow_normalize (st i) = .ok norm) :
    Inv1 store0 next0
      ⟨(create_stack_elements (interpretNorm st nx norm i).2.1
          (interpretNorm st nx norm i).1).reverse ++ rest,
        i :: v, (i, (interpretNorm st nx norm i).1) :: r,
        (interpretNorm st nx norm i).2.1, (interpretNorm st nx norm i).2.2, t ++ [i]⟩ ∧
    mu1 store0 next0
      ⟨(create_stack_elements (interpretNorm st nx norm i).2.1
          (interpretNorm st nx norm i).1).reverse ++ rest,
        i :: v, (i, (interpretNorm st nx norm i).1) :: r,
        (interpretNorm st nx norm i).2.1, (interpretNorm st nx norm i).2.2, t ++ [i]⟩ <
      mu1 store0 next0 ⟨i :: rest, v, r, st, nx, t⟩ := by
  have hkeysVisited : r.map Prod.fst = v := hinv.keysVisited
  have hvisitedNodup : v.Nodup := hinv.visitedNodup
  have htraceVisited : t.reverse = v := hinv.traceVisited
  have hnextGe : next0 ≤ nx := hinv.nextGe
  have hstoreLow : ∀ j, j < next0 → st j = store0 j := hinv.storeLow
  have hstoreHigh : ∀ j, nx ≤ j → st j = store0 j := hinv.storeHigh
  have hfreshShape : ∀ j, next0 ≤ j → j < nx →
      (∃ str, st j = Obj.mkStr str) ∨ (∃ l, st j = Obj.mkDict l) ∨
      (∃ l, st j = Obj.mkList l) := hinv.freshShape
  have hwfChild : ∀ j, j < nx → ∀ c ∈ objIds (st j), c < nx := hinv.wfChild
  have hstackOk : ∀ j ∈ i :: rest,
      j < next0 ∨ (next0 ≤ j ∧ j < nx ∧ isFreshStr (st j) = true) := hinv.stackOk
  have hvisitedOk : ∀ j ∈ v,
      j < next0 ∨ (next0 ≤ j ∧ j < nx ∧ isFreshStr (st j) = true) := hinv.visitedOk
  have hregValLt : ∀ p ∈ r, p.2 < nx := hinv.regValLt
  have hregEntry : ∀ p ∈ r, EntryBinding next0 st nx p := hinv.regEntry
  have hregChildren : ∀ p ∈ r, ∀ c ∈ nodeChildIds (st p.2),
      c ∈ v ∨ c ∈ i :: rest := hinv.regChildren
  have hregFreshInj : ∀ p ∈ r, ∀ q ∈ r, next0 ≤ p.2 →
      isRewriteTarget (st p.2) = true → p.2 = q.2 → p.1 = q.1 := hinv.regFreshInj
  have hiok := hstackOk i (List.mem_cons_self _ _)
  have hkeysLt : ∀ p ∈ r, p.1 < nx := by
    intro p hp
    have hpk : p.1 ∈ r.map Prod.fst := List.mem_map.mpr ⟨p, hp, rfl⟩
    rw [hkeysVisited] at hpk
    rcases hvisitedOk p.1 hpk with h1 | ⟨h1, h2, h3⟩
    · have := hnextGe
      omega
    · exact h2
  have hfresh_pass : (next0 ≤ i ∧ i < nx ∧ isFreshStr (st i) = true) →
      norm = .passthrough := by
    rintro ⟨h1, h2, h3⟩
    rcases hfreshShape i h1 h2 with ⟨s0, hs0⟩ | ⟨l0, hl0⟩ | ⟨l0, hl0⟩
    · rw [hs0, shallow_normalize_mkStr] at hn
      cases hn
      rfl
    · rw [hl0, isFreshStr_mkDict] at h3
      cases h3
    · rw [hl0, isFreshStr_mkList] at h3
      cases h3
  have hvisLt : ∀ j ∈ v, j < nx := by
    intro j hj
    rcases hvisitedOk j hj with h1 | ⟨h1, h2, h3⟩
    · have := hnextGe
      omega
    · exact h2
  cases norm with
  | enumVal w =>
    simp only [interpretNorm]
    have hi0 : i < next0 := by
      rcases hiok with h | hf
      · exact h
      · cases hfresh_pass hf
    have hsti : st i = store0 i := hstoreLow i hi0
    have henum : (st i).enum = some w := norm_enumVal_src hn
    have hw0 : w < next0 := by
      refine hwf i (List.mem_range.mpr hi0) w ?_
      rw [← hsti]
      exact mem_objIds_enum henum
    have hwnx : w < nx := lt_of_lt_of_le hw0 hnextGe
    have hstw : st w = store0 w := hstoreLow w hw0
    have hpush_lt : ∀ c ∈ create_stack_elements st w, c < next0 := by
      intro c hc
      unfold create_stack_elements at hc
      cases hd : (st w).dict with
      | some entries =>
        rw [hd] at hc
        refine hwf w (List.mem_range.mpr hw0) c ?_
        rw [← hstw]
        exact mem_objIds_dict hd hc
      | none =>
        rw [hd] at hc
        cases hq : (st w).seq with
        | some p =>
          rw [hq] at hc
          refine hwf w (List.mem_range.mpr hw0) c ?_
          rw [← hstw]
          exact mem_objIds_seq hq hc
        | none =>
          rw [hq] at hc
          rcases List.mem_singleton.mp hc with rfl
          exact hw0
    have hpb : pushBound store0 i = (create_stack_elements st w).length := by
      unfold pushBound create_stack_elements
      rw [← hsti]
      simp only [hn]
      rw [hstw]
      cases (store0 w).dict with
      | some entries => simp
      | none =>
        cases hqq : (store0 w).seq with
        | some p =>
          obtain ⟨k2, el2⟩ := p
          rfl
        | none => rfl
    refine ⟨?_, ?_⟩
    · exact {
        keysVisited := by
          simp only [List.map_cons]
          rw [hkeysVisited]
        visitedNodup := List.Nodup.cons hvis hvisitedNodup
        traceVisited := by
          rw [List.reverse_append, List.reverse_singleton, List.singleton_append,
            htraceVisited]
        nextGe := hnextGe
        storeLow := hstoreLow
        storeHigh := hstoreHigh
        wfChild := hwfChild
        freshShape := hfreshShape
        stackOk := by
          intro j hj
          rcases List.mem_append.mp hj with hj2 | hj2
          · exact Or.inl (hpush_lt j (List.mem_reverse.mp hj2))
          · exact hstackOk j (List.mem_cons_of_mem _ hj2)
        visitedOk := by
          intro j hj
          rcases List.mem_cons.mp hj with rfl | hj2
          · exact hiok
          · exact hvisitedOk j hj2
        regValLt := by
          intro p hp
          rcases List.mem_cons.mp hp with rfl | hp2
          · exact hwnx
          · exact hregValLt p hp2
        regEntry := by
          intro p hp
          rcases List.mem_cons.mp hp with rfl | hp2
          · exact ⟨.enumVal w, hn, rfl⟩
          · exact hregEntry p hp2
        regChildren := by
          intro p hp c hc
          rcases List.mem_cons.mp hp with rfl | hp2
          · right
            exact List.mem_append.mpr (Or.inl (List.mem_reverse.mpr
              (nodeChildIds_sub_cse st w c hc)))
          · rcases hregChildren p hp2 c hc with h1 | h1
            · exact Or.inl (List.mem_cons_of_mem _ h1)
            · rcases List.mem_cons.mp h1 with rfl | h2
              · exact Or.inl (List.mem_cons_self _ _)
              · exact Or.inr (List.mem_append.mpr (Or.inr h2))
        regFreshInj := by
          intro p hp q hq hple htarget hpq
          rcases List.mem_cons.mp hp with rfl | hp2
          · exact absurd (show next0 ≤ w from hple) (by omega)
          · rcases List.mem_cons.mp hq with rfl | hq2
            · exact absurd ((show p.2 = w from hpq) ▸ hple) (by omega)
            · exact hregFreshInj p hp2 q hq2 hple htarget hpq
      }
    · have hmw := sum_filter_unvisit (fun j => 3 + pushBound store0 j) hi0 hvis
      simp only [] at hmw
      have hfw := @freshSet_unvisit_low next0 nx i st v hi0
      rw [mu1_expand, mu1_expand]
      rw [hfw]
      simp only [List.length_append, List.length_reverse, List.length_cons, List.length_nil]
      omega
  | passthrough =>
    simp only [interpretNorm]
    have hshape := norm_passthrough_shape hn
    have hcse : create_stack_elements st i = [i] := by
      unfold create_stack_elements
      rw [hshape.1, hshape.2]
    refine ⟨?_, ?_⟩
    · exact {
        keysVisited := by
          simp only [List.map_cons]
          rw [hkeysVisited]
        visitedNodup := List.Nodup.cons hvis hvisitedNodup
        traceVisited := by
          rw [List.reverse_append, List.reverse_singleton, List.singleton_append,
            htraceVisited]
        nextGe := hnextGe
        storeLow := hstoreLow
        storeHigh := hstoreHigh
        wfChild := hwfChild
        freshShape := hfreshShape
        stackOk := by
          intro j hj
          rcases List.mem_append.mp hj with hj2 | hj2
          · rw [hcse] at hj2
            rcases List.mem_singleton.mp (List.mem_reverse.mp hj2) with rfl
            exact hiok
          · exact hstackOk j (List.mem_cons_of_mem _ hj2)
        visitedOk := by
          intro j hj
          rcases List.mem_cons.mp hj with rfl | hj2
          · exact hiok
          · exact hvisitedOk j hj2
        regValLt := by
          intro p hp
          rcases List.mem_cons.mp hp with rfl | hp2
          · rcases hiok with h1 | ⟨h1, h2, h3⟩
            · exact lt_of_lt_of_le h1 hnextGe
            · exact h2
          · exact hregValLt p hp2
        regEntry := by
          intro p hp
          rcases List.mem_cons.mp hp with rfl | hp2
          · exact ⟨.passthrough, hn, rfl⟩
          · exact hregEntry p hp2
        regChildren := by
          intro p hp c hc
          rcases List.mem_cons.mp hp with rfl | hp2
          · exfalso
            unfold nodeChildIds at hc
            rw [hshape.1, hshape.2] at hc
            cases hc
          · rcases hregChildren p hp2 c hc with h1 | h1
            · exact Or.inl (List.mem_cons_of_mem _ h1)
            · rcases List.mem_cons.mp h1 with rfl | h2
              · exact Or.inl (List.mem_cons_self _ _)
              · exact Or.inr (List.mem_append.mpr (Or.inr h2))
        regFreshInj := by
          intro p hp q hq hple htarget hpq
          rcases List.mem_cons.mp hp with rfl | hp2
          · rw [isRewriteTarget_none hshape.1 hshape.2] at htarget
            cases htarget
          · rcases List.mem_cons.mp hq with rfl | hq2
            · exfalso
              have hpq2 : p.2 = i := hpq
              rw [hpq2, isRewriteTarget_none hshape.1 hshape.2] at htarget
              cases htarget
            · exact hregFreshInj p hp2 q hq2 hple htarget hpq
      }
    · rcases hiok with hi0 | ⟨h1, h2, h3⟩
      · have hmw := sum_filter_unvisit (fun j => 3 + pushBound store0 j) hi0 hvis
        simp only [] at hmw
        have hfw := @freshSet_unvisit_low next0 nx i st v hi0
        have hpb : pushBound store0 i = 1 := by
          unfold pushBound
          rw [← hstoreLow i hi0, hn]
        rw [mu1_expand, mu1_expand]
        rw [hfw, hcse]
        simp only [List.length_append, List.length_reverse, List.length_cons,
          List.length_singleton, List.length_nil]
        omega
      · have hmw := sum_filter_irrelevant (n := next0) (v := v)
          (fun j => 3 + pushBound store0 j) h1
        have hfw := @freshSet_unvisit_fresh next0 nx i st v h1 h2 h3 hvis
        rw [mu1_expand, mu1_expand]
        rw [hmw, hcse]
        simp only [List.length_append, List.length_reverse, List.length_cons,
          List.length_singleton, List.length_nil]
        omega
  | redacted =>
    simp only [interpretNorm]
    have hi0 : i < next0 := by
      rcases hiok with h | hf
      · exact h
      · cases hfresh_pass hf
    have hinx : i < nx := lt_of_lt_of_le hi0 hnextGe
    have hnnx : nx ∉ i :: v := by
      intro hc
      rcases List.mem_cons.mp hc with rfl | hc2
      · omega
      · have := hvisLt nx hc2
        omega
    have hcse : create_stack_elements (updateStore st nx (Obj.mkStr redactedString)) nx =
        [nx] := by
      unfold create_stack_elements
      rw [updateStore_same]
      rfl
    refine ⟨?_, ?_⟩
    · exact {
        keysVisited := by
          simp only []
          simp only [List.map_cons]
          rw [hkeysVisited]
        visitedNodup := List.Nodup.cons hvis hvisitedNodup
        traceVisited := by
          simp only []
          rw [List.reverse_append, List.reverse_singleton, List.singleton_append,
            htraceVisited]
        nextGe := by
          simp only []
          have := hnextGe
          omega
        storeLow := by
          simp only []
          intro j hj
          rw [updateStore_ne _ _ _ _ (by have := hnextGe; omega)]
          exact hstoreLow j hj
        storeHigh := by
          simp only []
          intro j hj
          rw [updateStore_ne _ _ _ _ (by omega)]
          exact hstoreHigh j (by omega)
        freshShape := by
          simp only []
          intro j h1 h2
          by_cases hj : j = nx
          · subst hj
            rw [updateStore_same]
            exact Or.inl ⟨redactedString, rfl⟩
          · rw [updateStore_ne _ _ _ _ hj]
            exact hfreshShape j h1 (by omega)
        wfChild := by
          simp only []
          intro j hj c hc
          by_cases hjx : j = nx
          · subst hjx
            rw [updateStore_same, objIds_mkStr] at hc
            cases hc
          · rw [updateStore_ne _ _ _ _ hjx] at hc
            have := hwfChild j (by omega) c hc
            omega
        stackOk := by
          simp only []
          intro j hj
          rcases List.mem_append.mp hj with hj2 | hj2
          · rw [hcse] at hj2
            rcases List.mem_singleton.mp (List.mem_reverse.mp hj2) with rfl
            right
            refine ⟨hnextGe, by omega, ?_⟩
            rw [updateStore_same]
            exact isFreshStr_mkStr _
          · rcases hstackOk j (List.mem_cons_of_mem _ hj2) with h1 | ⟨h1, h2, h3⟩
            · exact Or.inl h1
            · right
              refine ⟨h1, by omega, ?_⟩
              rw [updateStore_ne _ _ _ _ (by omega)]
              exact h3
        visitedOk := by
          simp only []
          intro j hj
          rcases List.mem_cons.mp hj with rfl | hj2
          · exact Or.inl hi0
          · rcases hvisitedOk j hj2 with h1 | ⟨h1, h2, h3⟩
            · exact Or.inl h1
            · right
              refine ⟨h1, by omega, ?_⟩
              rw [updateStore_ne _ _ _ _ (by omega)]
              exact h3
        regValLt := by
          simp only []
          intro p hp
          rcases List.mem_cons.mp hp with rfl | hp2
          · omega
          · have := hregValLt p hp2
            omega
        regEntry := by
          simp only []
          intro p hp
          rcases List.mem_cons.mp hp with rfl | hp2
          · refine ⟨.redacted, ?_, hnextGe, by omega, updateStore_same _ _ _⟩
            rw [updateStore_ne _ _ _ _ (by omega)]
            exact hn
          · exact EntryBinding_alloc (hregEntry p hp2) (hkeysLt p hp2)
              (hregValLt p hp2)
        regChildren := by
          simp only []
          intro p hp c hc
          rcases List.mem_cons.mp hp with rfl | hp2
          · exfalso
            rw [updateStore_same, nodeChildIds_mkStr] at hc
            cases hc
          · rw [updateStore_ne _ _ _ _ (by have := hregValLt p hp2; omega)] at hc
            rcases hregChildren p hp2 c hc with h1 | h1
            · exact Or.inl (List.mem_cons_of_mem _ h1)
            · rcases List.mem_cons.mp h1 with rfl | h2
              · exact Or.inl (List.mem_cons_self _ _)
              · exact Or.inr (List.mem_append.mpr (Or.inr h2))
        regFreshInj := by
          simp only []
          intro p hp q hq hple htarget hpq
          rcases List.mem_cons.mp hp with rfl | hp2
          · rw [updateStore_same, isRewriteTarget_mkStr] at htarget
            cases htarget
          · rcases List.mem_cons.mp hq with rfl | hq2
            · exact absurd (show p.2 = nx from hpq)
                (by have := hregValLt p hp2; omega)
            · refine hregFreshInj p hp2 q hq2 hple ?_ hpq
              rw [updateStore_ne _ _ _ _ (by have := hregValLt p hp2; omega)]
                at htarget
              exact htarget
      }
    · have hmw := sum_filter_unvisit (fun j => 3 + pushBound store0 j) hi0 hvis
      simp only [] at hmw
      have hfa := @freshSet_alloc next0 nx st (i :: v) (Obj.mkStr redactedString) hnextGe hnnx
      have hfw := @freshSet_unvisit_low next0 nx i st v hi0
      have hpb : pushBound store0 i = 1 := by
        unfold pushBound
        rw [← hstoreLow i hi0, hn]
      rw [mu1_expand, mu1_expand]
      rw [hfa, hfw, hcse]
      simp only [List.length_append, List.length_reverse, List.length_cons,
        List.length_singleton, List.length_nil, isFreshStr_mkStr, if_true]
      omega
  | datetimeStr str =>
    simp only [interpretNorm]
    have hi0 : i < next0 := by
      rcases hiok with h | hf
      · exact h
      · cases hfresh_pass hf
    have hinx : i < nx := lt_of_lt_of_le hi0 hnextGe
    have hnnx : nx ∉ i :: v := by
      intro hc
      rcases List.mem_cons.mp hc with rfl | hc2
      · omega
      · have := hvisLt nx hc2
        omega
    have hcse : create_stack_elements (updateStore st nx (Obj.mkStr str)) nx = [nx] := by
      unfold create_stack_elements
      rw [updateStore_same]
      rfl
    refine ⟨?_, ?_⟩
    · exact {
        keysVisited := by
          simp only []
          simp only [List.map_cons]
          rw [hkeysVisited]
        visitedNodup := List.Nodup.cons hvis hvisitedNodup
        traceVisited := by
          simp only []
          rw [List.reverse_append, List.reverse_singleton, List.singleton_append,
            htraceVisited]
        nextGe := by
          simp only []
          have := hnextGe
          omega
        storeLow := by
          simp only []
          intro j hj
          rw [updateStore_ne _ _ _ _ (by have := hnextGe; omega)]
          exact hstoreLow j hj
        storeHigh := by
          simp only []
          intro j hj
          rw [updateStore_ne _ _ _ _ (by omega)]
          exact hstoreHigh j (by omega)
        freshShape := by
          simp only []
          intro j h1 h2
          by_cases hj : j = nx
          · subst hj
            rw [updateStore_same]
            exact Or.inl ⟨str, rfl⟩
          · rw [updateStore_ne _ _ _ _ hj]
            exact hfreshShape j h1 (by omega)
        wfChild := by
          simp only []
          intro j hj c hc
          by_cases hjx : j = nx
          · subst hjx
            rw [updateStore_same, objIds_mkStr] at hc
            cases hc
          · rw [updateStore_ne _ _ _ _ hjx] at hc
            have := hwfChild j (by omega) c hc
            omega
        stackOk := by
          simp only []
          intro j hj
          rcases List.mem_append.mp hj with hj2 | hj2
          · rw [hcse] at hj2
            rcases List.mem_singleton.mp (List.mem_reverse.mp hj2) with rfl
            right
            refine ⟨hnextGe, by omega, ?_⟩
            rw [updateStore_same]
            exact isFreshStr_mkStr _
          · rcases hstackOk j (List.mem_cons_of_mem _ hj2) with h1 | ⟨h1, h2, h3⟩
            · exact Or.inl h1
            · right
              refine ⟨h1, by omega, ?_⟩
              rw [updateStore_ne _ _ _ _ (by omega)]
              exact h3
        visitedOk := by
          simp only []
          intro j hj
          rcases List.mem_cons.mp hj with rfl | hj2
          · exact Or.inl hi0
          · rcases hvisitedOk j hj2 with h1 | ⟨h1, h2, h3⟩
            · exact Or.inl h1
            · right
              refine ⟨h1, by omega, ?_⟩
              rw [updateStore_ne _ _ _ _ (by omega)]
              exact h3
        regValLt := by
          simp only []
          intro p hp
          rcases List.mem_cons.mp hp with rfl | hp2
          · omega
          · have := hregValLt p hp2
            omega
        regEntry := by
          simp only []
          intro p hp
          rcases List.mem_cons.mp hp with rfl | hp2
          · refine ⟨.datetimeStr str, ?_, hnextGe, by omega, updateStore_same _ _ _⟩
            rw [updateStore_ne _ _ _ _ (by omega)]
            exact hn
          · exact EntryBinding_alloc (hregEntry p hp2) (hkeysLt p hp2)
              (hregValLt p hp2)
        regChildren := by
          simp only []
          intro p hp c hc
          rcases List.mem_cons.mp hp with rfl | hp2
          · exfalso
            rw [updateStore_same, nodeChildIds_mkStr] at hc
            cases hc
          · rw [updateStore_ne _ _ _ _ (by have := hregValLt p hp2; omega)] at hc
            rcases hregChildren p hp2 c hc with h1 | h1
            · exact Or.inl (List.mem_cons_of_mem _ h1)
            · rcases List.mem_cons.mp h1 with rfl | h2
              · exact Or.inl (List.mem_cons_self _ _)
              · exact Or.inr (List.mem_append.mpr (Or.inr h2))
        regFreshInj := by
          simp only []
          intro p hp q hq hple htarget hpq
          rcases List.mem_cons.mp hp with rfl | hp2
          · rw [updateStore_same, isRewriteTarget_mkStr] at htarget
            cases htarget
          · rcases List.mem_cons.mp hq with rfl | hq2
            · exact absurd (show p.2 = nx from hpq)
                (by have := hregValLt p hp2; omega)
            · refine hregFreshInj p hp2 q hq2 hple ?_ hpq
              rw [updateStore_ne _ _ _ _ (by have := hregValLt p hp2; omega)]
                at htarget
              exact htarget
      }
    · have hmw := sum_filter_unvisit (fun j => 3 + pushBound store0 j) hi0 hvis
      simp only [] at hmw
      have hfa := @freshSet_alloc next0 nx st (i :: v) (Obj.mkStr str) hnextGe hnnx
      have hfw := @freshSet_unvisit_low next0 nx i st v hi0
      have hpb : pushBound store0 i = 1 := by
        unfold pushBound
        rw [← hstoreLow i hi0, hn]
      rw [mu1_expand, mu1_expand]
      rw [hfa, hfw, hcse]
      simp only [List.length_append, List.length_reverse, List.length_cons,
        List.length_singleton, List.length_nil, isFreshStr_mkStr, if_true]
      omega
  | dictCopy l =>
    simp only [interpretNorm]
    have hi0 : i < next0 := by
      rcases hiok with h | hf
      · exact h
      · cases hfresh_pass hf
    have hinx : i < nx := lt_of_lt_of_le hi0 hnextGe
    have hnnx : nx ∉ i :: v := by
      intro hc
      rcases List.mem_cons.mp hc with rfl | hc2
      · omega
      · have := hvisLt nx hc2
        omega
    have hcse : create_stack_elements (updateStore st nx (Obj.mkDict l)) nx =
        l.map Prod.snd := by
      unfold create_stack_elements
      rw [updateStore_same]
      rfl
    have hchild_lt : ∀ c ∈ l.map Prod.snd, c < next0 := by
      intro c hc
      refine hwf i (List.mem_range.mpr hi0) c ?_
      rw [← hstoreLow i hi0]
      exact norm_dictCopy_sub hn c hc
    refine ⟨?_, ?_⟩
    · exact {
        keysVisited := by
          simp only []
          simp only [List.map_cons]
          rw [hkeysVisited]
        visitedNodup := List.Nodup.cons hvis hvisitedNodup
        traceVisited := by
          simp only []
          rw [List.reverse_append, List.reverse_singleton, List.singleton_append,
            htraceVisited]
        nextGe := by
          simp only []
          have := hnextGe
          omega
        storeLow := by
          simp only []
          intro j hj
          rw [updateStore_ne _ _ _ _ (by have := hnextGe; omega)]
          exact hstoreLow j hj
        storeHigh := by
          simp only []
          intro j hj
          rw [updateStore_ne _ _ _ _ (by omega)]
          exact hstoreHigh j (by omega)
        freshShape := by
          simp only []
          intro j h1 h2
          by_cases hj : j = nx
          · subst hj
            rw [updateStore_same]
            exact Or.inr (Or.inl ⟨l, rfl⟩)
          · rw [updateStore_ne _ _ _ _ hj]
            exact hfreshShape j h1 (by omega)
        wfChild := by
          simp only []
          intro j hj c hc
          by_cases hjx : j = nx
          · subst hjx
            rw [updateStore_same, objIds_mkDict] at hc
            have := hchild_lt c hc
            have := hnextGe
            omega
          · rw [updateStore_ne _ _ _ _ hjx] at hc
            have := hwfChild j (by omega) c hc
            omega
        stackOk := by
          simp only []
          intro j hj
          rcases List.mem_append.mp hj with hj2 | hj2
          · rw [hcse] at hj2
            exact Or.inl (hchild_lt j (List.mem_reverse.mp hj2))
          · rcases hstackOk j (List.mem_cons_of_mem _ hj2) with h1 | ⟨h1, h2, h3⟩
            · exact Or.inl h1
            · right
              refine ⟨h1, by omega, ?_⟩
              rw [updateStore_ne _ _ _ _ (by omega)]
              exact h3
        visitedOk := by
          simp only []
          intro j hj
          rcases List.mem_cons.mp hj with rfl | hj2
          · exact Or.inl hi0
          · rcases hvisitedOk j hj2 with h1 | ⟨h1, h2, h3⟩
            · exact Or.inl h1
            · right
              refine ⟨h1, by omega, ?_⟩
              rw [updateStore_ne _ _ _ _ (by omega)]
              exact h3
        regValLt := by
          simp only []
          intro p hp
          rcases List.mem_cons.mp hp with rfl | hp2
          · omega
          · have := hregValLt p hp2
            omega
        regEntry := by
          simp only []
          intro p hp
          rcases List.mem_cons.mp hp with rfl | hp2
          · refine ⟨.dictCopy l, ?_, hnextGe, by omega, updateStore_same _ _ _⟩
            rw [updateStore_ne _ _ _ _ (by omega)]
            exact hn
          · exact EntryBinding_alloc (hregEntry p hp2) (hkeysLt p hp2)
              (hregValLt p hp2)
        regChildren := by
          simp only []
          intro p hp c hc
          rcases List.mem_cons.mp hp with rfl | hp2
          · rw [updateStore_same, nodeChildIds_mkDict] at hc
            right
            rw [← hcse] at hc
            exact List.mem_append.mpr (Or.inl (List.mem_reverse.mpr hc))
          · rw [updateStore_ne _ _ _ _ (by have := hregValLt p hp2; omega)] at hc
            rcases hregChildren p hp2 c hc with h1 | h1
            · exact Or.inl (List.mem_cons_of_mem _ h1)
            · rcases List.mem_cons.mp h1 with rfl | h2
              · exact Or.inl (List.mem_cons_self _ _)
              · exact Or.inr (List.mem_append.mpr (Or.inr h2))
        regFreshInj := by
          simp only []
          intro p hp q hq hple htarget hpq
          rcases List.mem_cons.mp hp with rfl | hp2
          · rcases List.mem_cons.mp hq with rfl | hq2
            · rfl
            · exact absurd (show (nx : Nat) = q.2 from hpq)
                (by have := hregValLt q hq2; omega)
          · rcases List.mem_cons.mp hq with rfl | hq2
            · exact absurd (show p.2 = nx from hpq)
                (by have := hregValLt p hp2; omega)
            · refine hregFreshInj p hp2 q hq2 hple ?_ hpq
              rw [updateStore_ne _ _ _ _ (by have := hregValLt p hp2; omega)]
                at htarget
              exact htarget
      }
    · have hmw := sum_filter_unvisit (fun j => 3 + pushBound store0 j) hi0 hvis
      simp only [] at hmw
      have hfa := @freshSet_alloc next0 nx st (i :: v) (Obj.mkDict l) hnextGe hnnx
      have hfw := @freshSet_unvisit_low next0 nx i st v hi0
      have hpb : pushBound store0 i = l.length := by
        unfold pushBound
        rw [← hstoreLow i hi0, hn]
      rw [mu1_expand, mu1_expand]
      rw [hfa, hfw, hcse]
      simp only [List.length_append, List.length_reverse, List.length_cons,
        List.length_map, isFreshStr_mkDict, Bool.false_eq_true, if_false]
      omega
  | listCopy l =>
    simp only [interpretNorm]
    have hi0 : i < next0 := by
      rcases hiok with h | hf
      · exact h
      · cases hfresh_pass hf
    have hinx : i < nx := lt_of_lt_of_le hi0 hnextGe
    have hnnx : nx ∉ i :: v := by
      intro hc
      rcases List.mem_cons.mp hc with rfl | hc2
      · omega
      · have := hvisLt nx hc2
        omega
    have hcse : create_stack_elements (updateStore st nx (Obj.mkList l)) nx = l := by
      unfold create_stack_elements
      rw [updateStore_same]
      rfl
    have hchild_lt : ∀ c ∈ l, c < next0 := by
      intro c hc
      refine hwf i (List.mem_range.mpr hi0) c ?_
      rw [← hstoreLow i hi0]
      exact norm_listCopy_sub hn c hc
    refine ⟨?_, ?_⟩
    · exact {
        keysVisited := by
          simp only []
          simp only [List.map_cons]
          rw [hkeysVisited]
        visitedNodup := List.Nodup.cons hvis hvisitedNodup
        traceVisited := by
          simp only []
          rw [List.reverse_append, List.reverse_singleton, List.singleton_append,
            htraceVisited]
        nextGe := by
          simp only []
          have := hnextGe
          omega
        storeLow := by
          simp only []
          intro j hj
          rw [updateStore_ne _ _ _ _ (by have := hnextGe; omega)]
          exact hstoreLow j hj
        storeHigh := by
          simp only []
          intro j hj
          rw [updateStore_ne _ _ _ _ (by omega)]
          exact hstoreHigh j (by omega)
        freshShape := by
          simp only []
          intro j h1 h2
          by_cases hj : j = nx
          · subst hj
            rw [updateStore_same]
            exact Or.inr (Or.inr ⟨l, rfl⟩)
          · rw [updateStore_ne _ _ _ _ hj]
            exact hfreshShape j h1 (by omega)
        wfChild := by
          simp only []
          intro j hj c hc
          by_cases hjx : j = nx
          · subst hjx
            rw [updateStore_same, objIds_mkList] at hc
            have := hchild_lt c hc
            have := hnextGe
            omega
          · rw [updateStore_ne _ _ _ _ hjx] at hc
            have := hwfChild j (by omega) c hc
            omega
        stackOk := by
          simp only []
          intro j hj
          rcases List.mem_append.mp hj with hj2 | hj2
          · rw [hcse] at hj2
            exact Or.inl (hchild_lt j (List.mem_reverse.mp hj2))
          · rcases hstackOk j (List.mem_cons_of_mem _ hj2) with h1 | ⟨h1, h2, h3⟩
            · exact Or.inl h1
            · right
              refine ⟨h1, by omega, ?_⟩
              rw [updateStore_ne _ _ _ _ (by omega)]
              exact h3
        visitedOk := by
          simp only []
          intro j hj
          rcases List.mem_cons.mp hj with rfl | hj2
          · exact Or.inl hi0
          · rcases hvisitedOk j hj2 with h1 | ⟨h1, h2, h3⟩
            · exact Or.inl h1
            · right
              refine ⟨h1, by omega, ?_⟩
              rw [updateStore_ne _ _ _ _ (by omega)]
              exact h3
        regValLt := by
          simp only []
          intro p hp
          rcases List.mem_cons.mp hp with rfl | hp2
          · omega
          · have := hregValLt p hp2
            omega
        regEntry := by
          simp only []
          intro p hp
          rcases List.mem_cons.mp hp with rfl | hp2
          · refine ⟨.listCopy l, ?_, hnextGe, by omega, updateStore_same _ _ _⟩
            rw [updateStore_ne _ _ _ _ (by omega)]
            exact hn
          · exact EntryBinding_alloc (hregEntry p hp2) (hkeysLt p hp2)
              (hregValLt p hp2)
        regChildren := by
          simp only []
          intro p hp c hc
          rcases List.mem_cons.mp hp with rfl | hp2
          · rw [updateStore_same, nodeChildIds_mkList] at hc
            right
            rw [← hcse] at hc
            exact List.mem_append.mpr (Or.inl (List.mem_reverse.mpr hc))
          · rw [updateStore_ne _ _ _ _ (by have := hregValLt p hp2; omega)] at hc
            rcases hregChildren p hp2 c hc with h1 | h1
            · exact Or.inl (List.mem_cons_of_mem _ h1)
            · rcases List.mem_cons.mp h1 with rfl | h2
              · exact Or.inl (List.mem_cons_self _ _)
              · exact Or.inr (List.mem_append.mpr (Or.inr h2))
        regFreshInj := by
          simp only []
          intro p hp q hq hple htarget hpq
          rcases List.mem_cons.mp hp with rfl | hp2
          · rcases List.mem_cons.mp hq with rfl | hq2
            · rfl
            · exact absurd (show (nx : Nat) = q.2 from hpq)
                (by have := hregValLt q hq2; omega)
          · rcases List.mem_cons.mp hq with rfl | hq2
            · exact absurd (show p.2 = nx from hpq)
                (by have := hregValLt p hp2; omega)
            · refine hregFreshInj p hp2 q hq2 hple ?_ hpq
              rw [updateStore_ne _ _ _ _ (by have := hregValLt p hp2; omega)]
                at htarget
              exact htarget
      }
    · have hmw := sum_filter_unvisit (fun j => 3 + pushBound store0 j) hi0 hvis
      simp only [] at hmw
      have hfa := @freshSet_alloc next0 nx st (i :: v) (Obj.mkList l) hnextGe hnnx
      have hfw := @freshSet_unvisit_low next0 nx i st v hi0
      have hpb : pushBound store0 i = l.length := by
        unfold pushBound
        rw [← hstoreLow i hi0, hn]
      rw [mu1_expand, mu1_expand]
      rw [hfa, hfw, hcse]
      simp only [List.length_append, List.length_reverse, List.length_cons,
        isFreshStr_mkList, Bool.false_eq_true, if_false]
      omega

theorem interpretNorm_next_ge (st : Store) (nx : Nat) (norm : NormRes) (i : Nat) :
    nx ≤ (interpretNorm st nx norm i).2.2 := by
  cases norm <;> simp [interpretNorm]

theorem phase1_sound (store0 : Store) (next0 : Nat) (hwf : WFStore store0 next0) :
    ∀ (fuel : Nat) (s : WalkState), Inv1 store0 next0 s →
      mu1 store0 next0 s ≤ fuel →
      ∃ res, phase1 fuel s = some res ∧
        (∀ e, res = Except.error e → e ≠ Err.keyError) ∧
        (∀ s1, res = Except.ok s1 → Inv1 store0 next0 s1 ∧ s1.stack = [] ∧
          s.next ≤ s1.next ∧
          (∀ j ∈ s.visited, j ∈ s1.visited) ∧ (∀ j ∈ s.stack, j ∈ s1.visited) ∧
          (∀ p ∈ s.registry, p ∈ s1.registry)) := by
  intro fuel
  induction fuel with
  | zero =>
    rintro ⟨stack, v, r, st, nx, t⟩ hinv hfuel
    cases stack with
    | nil =>
      refine ⟨.ok ⟨[], v, r, st, nx, t⟩, phase1_nil 0 v r st nx t, ?_, ?_⟩
      · intro e he
        cases he
      · intro s1 hs1
        cases hs1
        refine ⟨hinv, rfl, le_refl _, fun j hj => hj, ?_, fun p hp => hp⟩
        intro j hj
        cases hj
    | cons i rest =>
      exfalso
      rw [mu1_expand] at hfuel
      simp only [List.length_cons] at hfuel
      omega
  | succ f ih =>
    rintro ⟨stack, v, r, st, nx, t⟩ hinv hfuel
    cases stack with
    | nil =>
      refine ⟨.ok ⟨[], v, r, st, nx, t⟩, phase1_nil (f + 1) v r st nx t, ?_, ?_⟩
      · intro e he
        cases he
      · intro s1 hs1
        cases hs1
        refine ⟨hinv, rfl, le_refl _, fun j hj => hj, ?_, fun p hp => hp⟩
        intro j hj
        cases hj
    | cons i rest =>
      by_cases hvis : i ∈ v
      · rw [phase1_cons_visited f rest r st nx t hvis]
        have hinv2 : Inv1 store0 next0 ⟨rest, v, r, st, nx, t⟩ := by
          refine ⟨hinv.keysVisited, hinv.visitedNodup, hinv.traceVisited,
            hinv.nextGe, hinv.storeLow, hinv.storeHigh, hinv.freshShape,
            hinv.wfChild, ?_, hinv.visitedOk, hinv.regValLt, hinv.regEntry,
            ?_, hinv.regFreshInj⟩
          · intro j hj
            exact hinv.stackOk j (List.mem_cons_of_mem _ hj)
          · intro p hp c hc
            rcases hinv.regChildren p hp c hc with h1 | h1
            · exact Or.inl h1
            · rcases List.mem_cons.mp h1 with rfl | h2
              · exact Or.inl hvis
              · exact Or.inr h2
        have hmm : mu1 store0 next0 ⟨i :: rest, v, r, st, nx, t⟩ =
            mu1 store0 next0 ⟨rest, v, r, st, nx, t⟩ + 1 := by
          rw [mu1_expand, mu1_expand]
          simp only [List.length_cons]
          omega
        obtain ⟨res, hres, herr, hok⟩ :=
          ih ⟨rest, v, r, st, nx, t⟩ hinv2 (by omega)
        refine ⟨res, hres, herr, ?_⟩
        intro s1 hs1
        obtain ⟨ha, hb, hc2, hd, he, hreg⟩ := hok s1 hs1
        refine ⟨ha, hb, hc2, hd, ?_, hreg⟩
        intro j hj
        rcases List.mem_cons.mp hj with rfl | hj2
        · exact hd j hvis
        · exact he j hj2
      · cases hn : shallow_normalize (st i) with
        | error e =>
          rw [phase1_cons_error f rest r nx t hvis hn]
          refine ⟨.error e, rfl, ?_, ?_⟩
          · intro e2 he2
            cases he2
            exact shallow_normalize_error_kind hn
          · intro s1 hs1
            cases hs1
        | ok norm =>
          rw [phase1_cons_new f rest r nx t hvis hn]
          obtain ⟨hinv2, hmu⟩ := phase1_step_inv store0 next0 hwf hinv hvis hn
          obtain ⟨res, hres, herr, hok⟩ := ih _ hinv2 (by omega)
          refine ⟨res, hres, herr, ?_⟩
          intro s1 hs1
          obtain ⟨ha, hb, hc2, hd, he, hreg⟩ := hok s1 hs1
          have hnge : nx ≤ (interpretNorm st nx norm i).2.2 :=
            interpretNorm_next_ge st nx norm i
          refine ⟨ha, hb, le_trans hnge hc2, ?_, ?_, ?_⟩
          · intro j hj
            exact hd j (List.mem_cons_of_mem _ hj)
          · intro j hj
            rcases List.mem_cons.mp hj with rfl | hj2
            · exact hd j (List.mem_cons_self _ _)
            · exact he j (List.mem_append.mpr (Or.inr hj2))
          · intro p hp
            exact hreg _ (List.mem_cons_of_mem _ hp)

theorem mem_objIds_set_dict {o : Obj} {l : List (Key × Nat)} {c : Nat}
    (h : c ∈ objIds { o with dict := some l }) :
    c ∈ l.map Prod.snd ∨ c ∈ objIds o := by
  simp only [objIds, List.mem_append] at h ⊢
  tauto

theorem mem_objIds_set_seq {o : Obj} {k : SeqKind} {l : List Nat} {c : Nat}
    (h : c ∈ objIds { o with seq := some (k, l) }) :
    c ∈ l ∨ c ∈ objIds o := by
  simp only [objIds, List.mem_append] at h ⊢
  tauto

theorem rewriteEntries_vals {reg : List (Nat × Nat)} {l l2 : List (Key × Nat)}
    (h : rewriteEntries reg l = some l2) :
    ∀ c ∈ l2.map Prod.snd, ∃ a, lookupReg reg a = some c := by
  induction l generalizing l2 with
  | nil =>
    simp only [rewriteEntries, Option.some.injEq] at h
    rw [← h]
    intro c hc
    cases hc
  | cons p rest ih =>
    obtain ⟨k, v⟩ := p
    simp only [rewriteEntries] at h
    cases hv : lookupReg reg v with
    | none => rw [hv] at h; cases h
    | some n =>
      rw [hv] at h
      cases hr : rewriteEntries reg rest with
      | none => rw [hr] at h; cases h
      | some tail =>
        rw [hr] at h
        simp only [Option.some.injEq] at h
        rw [← h]
        intro c hc
        simp only [List.map_cons, List.mem_cons] at hc
        rcases hc with rfl | hc2
        · exact ⟨v, hv⟩
        · exact ih hr c hc2

theorem rewriteElems_vals {reg : List (Nat × Nat)} {l l2 : List Nat}
    (h : rewriteElems reg l = some l2) :
    ∀ c ∈ l2, ∃ a, lookupReg reg a = some c := by
  induction l generalizing l2 with
  | nil =>
    simp only [rewriteElems, Option.some.injEq] at h
    rw [← h]
    intro c hc
    cases hc
  | cons v rest ih =>
    simp only [rewriteElems] at h
    cases hv : lookupReg reg v with
    | none => rw [hv] at h; cases h
    | some n =>
      rw [hv] at h
      cases hr : rewriteElems reg rest with
      | none => rw [hr] at h; cases h
      | some tail =>
        rw [hr] at h
        simp only [Option.some.injEq] at h
        rw [← h]
        intro c hc
        rcases List.mem_cons.mp hc with rfl | hc2
        · exact ⟨v, hv⟩
        · exact ih hr c hc2

theorem pushBound2_update_dict {reg : List (Nat × Nat)} {st : Store} {m : Nat}
    {entries entries2 : List (Key × Nat)}
    (hd : (st m).dict = some entries) (hr : rewriteEntries reg entries = some entries2) :
    ∀ j, pushBound2 reg (updateStore st m { st m with dict := some entries2 }) j =
      pushBound2 reg st j := by
  intro j
  simp only [pushBound2]
  cases hl : lookupReg reg j with
  | none => rfl
  | some n =>
    simp only []
    by_cases hnm : n = m
    · subst hnm
      rw [updateStore_same]
      simp only [hd]
      exact rewriteEntries_length hr
    · rw [updateStore_ne _ _ _ _ hnm]

theorem pushBound2_update_list {reg : List (Nat × Nat)} {st : Store} {m : Nat}
    {elems elems2 : List Nat}
    (hd : (st m).dict = none) (hsq : (st m).seq = some (.list, elems))
    (hr : rewriteElems reg elems = some elems2) :
    ∀ j, pushBound2 reg (updateStore st m { st m with seq := some (.list, elems2) }) j =
      pushBound2 reg st j := by
  intro j
  simp only [pushBound2]
  cases hl : lookupReg reg j with
  | none => rfl
  | some n =>
    simp only []
    by_cases hnm : n = m
    · subst hnm
      rw [updateStore_same]
      simp only [hd, hsq]
      exact rewriteElems_length hr
    · rw [updateStore_ne _ _ _ _ hnm]

theorem phase2_sound (reg : List (Nat × Nat)) (next1 : Nat) :
    ∀ (fuel : Nat) (s : WalkState), Inv2 reg next1 s → mu2 reg next1 s ≤ fuel →
      ∃ res, phase2 fuel s = some res ∧
        (∀ e, res = Except.error e → e = Err.keyError) ∧
        (∀ s2, res = Except.ok s2 → Inv2 reg next1 s2 ∧ s2.stack = []) := by
  intro fuel
  induction fuel with
  | zero =>
    rintro ⟨stack, v, r, st, nx, t⟩ hinv hfuel
    have hre : reg = r := hinv.regEq.symm
    have hne : next1 = nx := hinv.nextEq.symm
    subst hre
    subst hne
    cases stack with
    | nil =>
      refine ⟨.ok ⟨[], v, reg, st, next1, t⟩, phase2_nil 0 v reg st next1 t, ?_, ?_⟩
      · intro e he
        cases he
      · intro s2 hs2
        cases hs2
        exact ⟨hinv, rfl⟩
    | cons i rest =>
      exfalso
      rw [mu2_expand] at hfuel
      simp only [List.length_cons] at hfuel
      omega
  | succ f ih =>
    rintro ⟨stack, v, r, st, nx, t⟩ hinv hfuel
    have hre : reg = r := hinv.regEq.symm
    have hne : next1 = nx := hinv.nextEq.symm
    subst hre
    subst hne
    have hnodup : v.Nodup := hinv.visitedNodup
    have htv : t.reverse = v := hinv.traceVisited
    have hstackLt : ∀ j ∈ stack, j < next1 := hinv.stackLt
    have hwf2 : ∀ j, j < next1 → ∀ c ∈ objIds (st j), c < next1 := hinv.wf2
    have hregValLt2 : ∀ p ∈ reg, p.2 < next1 := hinv.regValLt2
    cases stack with
    | nil =>
      refine ⟨.ok ⟨[], v, reg, st, next1, t⟩, phase2_nil (f + 1) v reg st next1 t, ?_, ?_⟩
      · intro e he
        cases he
      · intro s2 hs2
        cases hs2
        exact ⟨hinv, rfl⟩
    | cons i rest =>
      have hi1 : i < next1 := hstackLt i (List.mem_cons_self _ _)
      by_cases hvis : i ∈ v
      · rw [phase2_cons_visited f rest reg st next1 t hvis]
        have hinv2 : Inv2 reg next1 ⟨rest, v, reg, st, next1, t⟩ :=
          ⟨rfl, rfl, hnodup, htv,
            fun j hj => hstackLt j (List.mem_cons_of_mem _ hj), hwf2, hregValLt2⟩
        have hmm : mu2 reg next1 ⟨i :: rest, v, reg, st, next1, t⟩ =
            mu2 reg next1 ⟨rest, v, reg, st, next1, t⟩ + 1 := by
          rw [mu2_expand, mu2_expand]
          simp only [List.length_cons]
          omega
        exact ih _ hinv2 (by omega)
      · cases hl : lookupReg reg i with
        | none =>
          rw [phase2_cons_missing f rest st next1 t hvis hl]
          refine ⟨.error .keyError, rfl, ?_, ?_⟩
          · intro e he
            cases he
            rfl
          · intro s2 hs2
            cases hs2
        | some m =>
          have hm : m < next1 := hregValLt2 _ (lookupReg_mem hl)
          have hmw := sum_filter_unvisit (fun j => 1 + pushBound2 reg st j) hi1 hvis
          simp only [] at hmw
          cases hd : (st m).dict with
          | some entries =>
            cases hr : rewriteEntries reg entries with
            | none =>
              rw [phase2_cons_dict_fail f rest next1 t hvis hl hd hr]
              refine ⟨.error .keyError, rfl, ?_, ?_⟩
              · intro e he
                cases he
                rfl
              · intro s2 hs2
                cases hs2
            | some entries2 =>
              rw [phase2_cons_dict f rest next1 t hvis hl hd hr]
              have hpb2 := pushBound2_update_dict hd hr
              have hpbi : pushBound2 reg st i = entries.length := by
                simp only [pushBound2, hl, hd]
              have hinv2 : Inv2 reg next1 ⟨(entries.map Prod.snd).reverse ++ rest,
                  i :: v, reg, updateStore st m { st m with dict := some entries2 },
                  next1, t ++ [i]⟩ := by
                refine ⟨rfl, rfl, List.Nodup.cons hvis hnodup, ?_, ?_, ?_, hregValLt2⟩
                · rw [List.reverse_append, List.reverse_singleton,
                    List.singleton_append, htv]
                · intro j hj
                  rcases List.mem_append.mp hj with h1 | h1
                  · exact hwf2 m hm j (mem_objIds_dict hd (List.mem_reverse.mp h1))
                  · exact hstackLt j (List.mem_cons_of_mem _ h1)
                · intro j hj c hc
                  simp only [] at hc
                  by_cases hjm : j = m
                  · subst hjm
                    rw [updateStore_same] at hc
                    rcases mem_objIds_set_dict hc with h1 | h1
                    · obtain ⟨a, ha⟩ := rewriteEntries_vals hr c h1
                      exact hregValLt2 _ (lookupReg_mem ha)
                    · exact hwf2 j hj c h1
                  · rw [updateStore_ne _ _ _ _ hjm] at hc
                    exact hwf2 j hj c hc
              refine ih _ hinv2 ?_
              rw [mu2_expand] at hfuel ⊢
              have hsum : Finset.sum ((Finset.range next1).filter fun j => j ∉ i :: v)
                  (fun j => 1 + pushBound2 reg
                    (updateStore st m { st m with dict := some entries2 }) j) =
                  Finset.sum ((Finset.range next1).filter fun j => j ∉ i :: v)
                    (fun j => 1 + pushBound2 reg st j) :=
                Finset.sum_congr rfl (fun j _ => by rw [hpb2 j])
              rw [hsum]
              simp only [List.length_append, List.length_reverse, List.length_map,
                List.length_cons] at hfuel ⊢
              omega
          | none =>
            by_cases hlist : ∃ elems, (st m).seq = some (.list, elems)
            · obtain ⟨elems, hsq⟩ := hlist
              cases hr : rewriteElems reg elems with
              | none =>
                rw [phase2_cons_list_fail f rest next1 t hvis hl hd hsq hr]
                refine ⟨.error .keyError, rfl, ?_, ?_⟩
                · intro e he
                  cases he
                  rfl
                · intro s2 hs2
                  cases hs2
              | some elems2 =>
                rw [phase2_cons_list f rest next1 t hvis hl hd hsq hr]
                have hpb2 := pushBound2_update_list hd hsq hr
                have hpbi : pushBound2 reg st i = elems.length := by
                  simp only [pushBound2, hl, hd, hsq]
                have hinv2 : Inv2 reg next1 ⟨elems.reverse ++ rest,
                    i :: v, reg, updateStore st m { st m with seq := some (.list, elems2) },
                    next1, t ++ [i]⟩ := by
                  refine ⟨rfl, rfl, List.Nodup.cons hvis hnodup, ?_, ?_, ?_, hregValLt2⟩
                  · rw [List.reverse_append, List.reverse_singleton,
                      List.singleton_append, htv]
                  · intro j hj
                    rcases List.mem_append.mp hj with h1 | h1
                    · exact hwf2 m hm j (mem_objIds_seq hsq (List.mem_reverse.mp h1))
                    · exact hstackLt j (List.mem_cons_of_mem _ h1)
                  · intro j hj c hc
                    simp only [] at hc
                    by_cases hjm : j = m
                    · subst hjm
                      rw [updateStore_same] at hc
                      rcases mem_objIds_set_seq hc with h1 | h1
                      · obtain ⟨a, ha⟩ := rewriteElems_vals hr c h1
                        exact hregValLt2 _ (lookupReg_mem ha)
                      · exact hwf2 j hj c h1
                    · rw [updateStore_ne _ _ _ _ hjm] at hc
                      exact hwf2 j hj c hc
                refine ih _ hinv2 ?_
                rw [mu2_expand] at hfuel ⊢
                have hsum : Finset.sum ((Finset.range next1).filter fun j => j ∉ i :: v)
                    (fun j => 1 + pushBound2 reg
                      (updateStore st m { st m with seq := some (.list, elems2) }) j) =
                    Finset.sum ((Finset.range next1).filter fun j => j ∉ i :: v)
                      (fun j => 1 + pushBound2 reg st j) :=
                  Finset.sum_congr rfl (fun j _ => by rw [hpb2 j])
                rw [hsum]
                simp only [List.length_append, List.length_reverse,
                  List.length_cons] at hfuel ⊢
                omega
            · have hno : ∀ elems, (st m).seq ≠ some (.list, elems) :=
                fun elems hh => hlist ⟨elems, hh⟩
              rw [phase2_cons_other f rest next1 t hvis hl hd hno]
              have hinv2 : Inv2 reg next1 ⟨rest, i :: v, reg, st, next1, t ++ [i]⟩ := by
                refine ⟨rfl, rfl, List.Nodup.cons hvis hnodup, ?_, ?_, hwf2, hregValLt2⟩
                · rw [List.reverse_append, List.reverse_singleton,
                    List.singleton_append, htv]
                · intro j hj
                  exact hstackLt j (List.mem_cons_of_mem _ hj)
              refine ih _ hinv2 ?_
              rw [mu2_expand] at hfuel ⊢
              simp only [List.length_cons] at hfuel
              omega

theorem runPhase1_sound (store : Store) (next root : Nat) (hwf : WFStore store next)
    (hroot : root < next) :
    ∃ res, runPhase1 store next root = some res ∧
      (∀ e, res = Except.error e → e ≠ Err.keyError) ∧
      (∀ s1, res = Except.ok s1 → Inv1 store next s1 ∧ s1.stack = [] ∧
        next ≤ s1.next ∧ root ∈ s1.visited) := by
  have hinv0 : Inv1 store next ⟨[root], [], [], store, next, []⟩ := by
    refine ⟨rfl, List.nodup_nil, rfl, le_refl _, fun j _ => rfl, fun j _ => rfl,
      ?_, ?_, ?_, ?_, ?_, ?_, ?_, ?_⟩
    · intro j h1 h2
      simp only [] at h2
      omega
    · intro j hj c hc
      exact hwf j (List.mem_range.mpr hj) c hc
    · intro j hj
      rcases List.mem_singleton.mp hj with rfl
      exact Or.inl hroot
    · intro j hj
      cases hj
    · intro p hp
      cases hp
    · intro p hp
      cases hp
    · intro p hp c hc
      cases hp
    · intro p hp q hq
      cases hp
  have hmu0 : mu1 store next ⟨[root], [], [], store, next, []⟩ ≤ fuel1Bound store next := by
    rw [mu1_expand]
    have h1 : ((Finset.range next).filter fun i => i ∉ ([] : List Nat)) =
        Finset.range next := by
      apply Finset.filter_true_of_mem
      intro x _
      simp
    have h2 : ((Finset.Ico next next).filter fun f =>
        isFreshStr (store f) = true ∧ f ∉ ([] : List Nat)) = (∅ : Finset Nat) := by
      rw [Finset.Ico_self, Finset.filter_empty]
    rw [h1, h2]
    unfold fuel1Bound
    simp
  obtain ⟨res, hres, herr, hok⟩ :=
    phase1_sound store next hwf (fuel1Bound store next) _ hinv0 hmu0
  refine ⟨res, hres, herr, ?_⟩
  intro s1 hs1
  obtain ⟨ha, hb, hc2, _, he, _⟩ := hok s1 hs1
  exact ⟨ha, hb, hc2, he root (List.mem_cons_self _ _)⟩

theorem target_fresh {store0 : Store} {next0 : Nat} {s1 : WalkState}
    (hwf : WFStore store0 next0) (hgood : goodEnums store0 next0)
    (hinv1 : Inv1 store0 next0 s1) :
    ∀ p ∈ s1.registry, isRewriteTarget (s1.store p.2) = true → next0 ≤ p.2 := by
  intro p hp htar
  obtain ⟨norm, hn, hbind⟩ := hinv1.regEntry p hp
  have hp1v : p.1 ∈ s1.visited := by
    rw [← hinv1.keysVisited]
    exact List.mem_map.mpr ⟨p, hp, rfl⟩
  cases norm with
  | passthrough =>
    exfalso
    have hsh := norm_passthrough_shape hn
    have hpe : p.2 = p.1 := hbind
    rw [hpe] at htar
    unfold isRewriteTarget at htar
    rw [hsh.1, hsh.2] at htar
    simp at htar
  | enumVal w =>
    exfalso
    have hp1lt : p.1 < next0 := by
      rcases hinv1.visitedOk p.1 hp1v with h1 | ⟨h1, h2, h3⟩
      · exact h1
      · rcases hinv1.freshShape p.1 h1 h2 with ⟨str, hs⟩ | ⟨l, hs⟩ | ⟨l, hs⟩
        · rw [hs, shallow_normalize_mkStr] at hn
          cases hn
        · rw [hs, isFreshStr_mkDict] at h3
          cases h3
        · rw [hs, isFreshStr_mkList] at h3
          cases h3
    have hsrc : s1.store p.1 = store0 p.1 := hinv1.storeLow p.1 hp1lt
    have henum : (store0 p.1).enum = some w := by
      rw [← hsrc]
      exact norm_enumVal_src hn
    have hwlt : w < next0 :=
      hwf p.1 (List.mem_range.mpr hp1lt) w (mem_objIds_enum henum)
    have hgw := hgood p.1 (List.mem_range.mpr hp1lt) w henum
    have hpe : p.2 = w := hbind
    rw [hpe] at htar
    rw [hinv1.storeLow w hwlt] at htar
    unfold isRewriteTarget at htar
    rw [hgw.1, hgw.2] at htar
    simp at htar
  | redacted => exact hbind.1
  | datetimeStr str => exact hbind.1
  | dictCopy l => exact hbind.1
  | listCopy l => exact hbind.1

theorem visited_lookup {s1 : WalkState} {store0 : Store} {next0 : Nat}
    (hinv1 : Inv1 store0 next0 s1) :
    ∀ i ∈ s1.visited, ∃ m, lookupReg s1.registry i = some m := by
  intro i hi
  apply lookupReg_some_of_key
  rw [hinv1.keysVisited]
  exact hi

theorem visited_lt_next {s1 : WalkState} {store0 : Store} {next0 : Nat}
    (hinv1 : Inv1 store0 next0 s1) :
    ∀ i ∈ s1.visited, i < s1.next := by
  intro i hi
  rcases hinv1.visitedOk i hi with h1 | ⟨_, h2, _⟩
  · exact lt_of_lt_of_le h1 hinv1.nextGe
  · exact h2

theorem children_visited {s1 : WalkState} {store0 : Store} {next0 : Nat}
    (hinv1 : Inv1 store0 next0 s1) (hstk1 : s1.stack = []) :
    ∀ p ∈ s1.registry, ∀ c ∈ nodeChildIds (s1.store p.2), c ∈ s1.visited := by
  intro p hp c hc
  rcases hinv1.regChildren p hp c hc with h1 | h1
  · exact h1
  · rw [hstk1] at h1
    cases h1

theorem fresh_target_unique {store0 : Store} {next0 : Nat} {s1 : WalkState}
    (hwf : WFStore store0 next0) (hgood : goodEnums store0 next0)
    (hinv1 : Inv1 store0 next0 s1) {i m : Nat} {v : List Nat}
    (hvis : i ∉ v) (hl : lookupReg s1.registry i = some m) :
    ¬ WrittenTarget s1 v m := by
  rintro ⟨htar, i2, hi2, hl2⟩
  have hfresh : next0 ≤ m :=
    target_fresh hwf hgood hinv1 (i, m) (lookupReg_mem hl) htar
  have heq : i2 = i :=
    hinv1.regFreshInj (i2, m) (lookupReg_mem hl2) (i, m) (lookupReg_mem hl)
      hfresh htar rfl
  rw [heq] at hi2
  exact hvis hi2

theorem phase2_sound_good (store0 : Store) (next0 : Nat) (hwf : WFStore store0 next0)
    (hgood : goodEnums store0 next0) (s1 : WalkState)
    (hinv1 : Inv1 store0 next0 s1) (hstk1 : s1.stack = []) :
    ∀ (fuel : Nat) (s : WalkState), Inv2Good s1 s →
      mu2 s1.registry s1.next s ≤ fuel →
      ∃ s2, phase2 fuel s = some (Except.ok s2) ∧ Inv2Good s1 s2 ∧ s2.stack = [] := by
  intro fuel
  induction fuel with
  | zero =>
    rintro ⟨stack, v, r, st, nx, t⟩ hg hfuel
    have hro : r = s1.registry := hg.regEq
    have hnx : nx = s1.next := hg.nextEq
    subst hro
    subst hnx
    cases stack with
    | nil =>
      exact ⟨⟨[], v, s1.registry, st, s1.next, t⟩,
        phase2_nil 0 v s1.registry st s1.next t, hg, rfl⟩
    | cons i rest =>
      exfalso
      rw [mu2_expand] at hfuel
      simp only [List.length_cons] at hfuel
      omega
  | succ f ih =>
    rintro ⟨stack, v, r, st, nx, t⟩ hg hfuel
    have hro : r = s1.registry := hg.regEq
    have hnx : nx = s1.next := hg.nextEq
    subst hro
    subst hnx
    have hnodup : v.Nodup := hg.visitedNodup
    have htv : t.reverse = v := hg.traceVisited
    have hvk : ∀ j ∈ v, j ∈ s1.visited := hg.visitedKeys
    have hsk : ∀ j ∈ stack, j ∈ s1.visited := hg.stackKeys
    have hss : ∀ j, ¬ WrittenTarget s1 v j → st j = s1.store j := hg.storeStable
    have hsr : ∀ j, WrittenTarget s1 v j →
        st j = rewriteObj s1.registry (s1.store j) := hg.storeRewritten
    cases stack with
    | nil =>
      exact ⟨⟨[], v, s1.registry, st, s1.next, t⟩,
        phase2_nil (f + 1) v s1.registry st s1.next t, hg, rfl⟩
    | cons i rest =>
      have hiV : i ∈ s1.visited := hsk i (List.mem_cons_self _ _)
      have hi1 : i < s1.next := visited_lt_next hinv1 i hiV
      by_cases hvis : i ∈ v
      · rw [phase2_cons_visited f rest s1.registry st s1.next t hvis]
        have hg2 : Inv2Good s1 ⟨rest, v, s1.registry, st, s1.next, t⟩ :=
          ⟨rfl, rfl, hnodup, htv, hvk,
            fun j hj => hsk j (List.mem_cons_of_mem _ hj), hss, hsr⟩
        have hmm : mu2 s1.registry s1.next ⟨i :: rest, v, s1.registry, st, s1.next, t⟩ =
            mu2 s1.registry s1.next ⟨rest, v, s1.registry, st, s1.next, t⟩ + 1 := by
          rw [mu2_expand, mu2_expand]
          simp only [List.length_cons]
          omega
        exact ih _ hg2 (by omega)
      · obtain ⟨m, hl⟩ := visited_lookup hinv1 i hiV
        have hpm : (i, m) ∈ s1.registry := lookupReg_mem hl
        have hnw : ¬ WrittenTarget s1 v m :=
          fresh_target_unique hwf hgood hinv1 hvis hl
        have hmp : st m = s1.store m := hss m hnw
        have hmw := sum_filter_unvisit
          (fun j => 1 + pushBound2 s1.registry st j) hi1 hvis
        simp only [] at hmw
        cases hdd : (s1.store m).dict with
        | some entries =>
          have hd2 : (st m).dict = some entries := by
            rw [hmp]
            exact hdd
          have hchild : ∀ c ∈ entries.map Prod.snd, c ∈ s1.visited := by
            intro c hc
            apply children_visited hinv1 hstk1 (i, m) hpm
            simp only [nodeChildIds, hdd]
            exact hc
          have htotal : ∀ p ∈ entries, ∃ n2, lookupReg s1.registry p.2 = some n2 := by
            intro p hp2
            exact visited_lookup hinv1 p.2 (hchild p.2 (List.mem_map.mpr ⟨p, hp2, rfl⟩))
          obtain ⟨entries2, hr⟩ := rewriteEntries_total htotal
          rw [phase2_cons_dict f rest s1.next t hvis hl hd2 hr]
          have hpb2 := pushBound2_update_dict hd2 hr
          have hpbi : pushBound2 s1.registry st i = entries.length := by
            simp only [pushBound2, hl, hd2]
          have htarm : isRewriteTarget (s1.store m) = true := by
            unfold isRewriteTarget
            rw [hdd]
            simp
          have hg2 : Inv2Good s1 ⟨(entries.map Prod.snd).reverse ++ rest, i :: v,
              s1.registry, updateStore st m { st m with dict := some entries2 },
              s1.next, t ++ [i]⟩ := by
            refine ⟨rfl, rfl, List.Nodup.cons hvis hnodup, ?_, ?_, ?_, ?_, ?_⟩
            · rw [List.reverse_append, List.reverse_singleton,
                List.singleton_append, htv]
            · intro j hj
              rcases List.mem_cons.mp hj with rfl | hj2
              · exact hiV
              · exact hvk j hj2
            · intro j hj
              rcases List.mem_append.mp hj with h1 | h1
              · exact hchild j (List.mem_reverse.mp h1)
              · exact hsk j (List.mem_cons_of_mem _ h1)
            · intro j hnj
              simp only []
              have hjm : j ≠ m := by
                intro hje
                subst hje
                exact hnj ⟨htarm, i, List.mem_cons_self _ _, hl⟩
              rw [updateStore_ne _ _ _ _ hjm]
              apply hss
              rintro ⟨ht2, i2, hi2, hl2⟩
              exact hnj ⟨ht2, i2, List.mem_cons_of_mem _ hi2, hl2⟩
            · intro j hwj
              simp only []
              obtain ⟨htj, i2, hi2, hl2⟩ := hwj
              rcases List.mem_cons.mp hi2 with rfl | hi2v
              · have hjm : j = m := by
                  rw [hl] at hl2
                  exact (Option.some.inj hl2).symm
                subst hjm
                rw [updateStore_same, hmp]
                simp only [rewriteObj, hdd, hr]
              · have hwv : WrittenTarget s1 v j := ⟨htj, i2, hi2v, hl2⟩
                have hjm : j ≠ m := fun hje => (hje ▸ hnw) hwv
                rw [updateStore_ne _ _ _ _ hjm]
                exact hsr j hwv
          refine ih _ hg2 ?_
          rw [mu2_expand] at hfuel ⊢
          have hsum : Finset.sum ((Finset.range s1.next).filter fun j => j ∉ i :: v)
              (fun j => 1 + pushBound2 s1.registry
                (updateStore st m { st m with dict := some entries2 }) j) =
              Finset.sum ((Finset.range s1.next).filter fun j => j ∉ i :: v)
                (fun j => 1 + pushBound2 s1.registry st j) :=
            Finset.sum_congr rfl (fun j _ => by rw [hpb2 j])
          rw [hsum]
          simp only [List.length_append, List.length_reverse, List.length_map,
            List.length_cons] at hfuel ⊢
          omega
        | none =>
          by_cases hlist : ∃ elems, (s1.store m).seq = some (.list, elems)
          · obtain ⟨elems, hsq⟩ := hlist
            have hd2 : (st m).dict = none := by
              rw [hmp]
              exact hdd
            have hsq2 : (st m).seq = some (.list, elems) := by
              rw [hmp]
              exact hsq
            have hchild : ∀ c ∈ elems, c ∈ s1.visited := by
              intro c hc
              apply children_visited hinv1 hstk1 (i, m) hpm
              simp only [nodeChildIds, hdd, hsq]
              exact hc
            have htotal : ∀ c ∈ elems, ∃ n2, lookupReg s1.registry c = some n2 :=
              fun c hc => visited_lookup hinv1 c (hchild c hc)
            obtain ⟨elems2, hr⟩ := rewriteElems_total htotal
            rw [phase2_cons_list f rest s1.next t hvis hl hd2 hsq2 hr]
            have hpb2 := pushBound2_update_list hd2 hsq2 hr
            have hpbi : pushBound2 s1.registry st i = elems.length := by
              simp only [pushBound2, hl, hd2, hsq2]
            have htarm : isRewriteTarget (s1.store m) = true := by
              unfold isRewriteTarget
              rw [hsq]
              simp
            have hg2 : Inv2Good s1 ⟨elems.reverse ++ rest, i :: v,
                s1.registry, updateStore st m { st m with seq := some (.list, elems2) },
                s1.next, t ++ [i]⟩ := by
              refine ⟨rfl, rfl, List.Nodup.cons hvis hnodup, ?_, ?_, ?_, ?_, ?_⟩
              · rw [List.reverse_append, List.reverse_singleton,
                  List.singleton_append, htv]
              · intro j hj
                rcases List.mem_cons.mp hj with rfl | hj2
                · exact hiV
                · exact hvk j hj2
              · intro j hj
                rcases List.mem_append.mp hj with h1 | h1
                · exact hchild j (List.mem_reverse.mp h1)
                · exact hsk j (List.mem_cons_of_mem _ h1)
              · intro j hnj
                simp only []
                have hjm : j ≠ m := by
                  intro hje
                  subst hje
                  exact hnj ⟨htarm, i, List.mem_cons_self _ _, hl⟩
                rw [updateStore_ne _ _ _ _ hjm]
                apply hss
                rintro ⟨ht2, i2, hi2, hl2⟩
                exact hnj ⟨ht2, i2, List.mem_cons_of_mem _ hi2, hl2⟩
              · intro j hwj
                simp only []
                obtain ⟨htj, i2, hi2, hl2⟩ := hwj
                rcases List.mem_cons.mp hi2 with rfl | hi2v
                · have hjm : j = m := by
                    rw [hl] at hl2
                    exact (Option.some.inj hl2).symm
                  subst hjm
                  rw [updateStore_same, hmp]
                  simp only [rewriteObj, hdd, hsq, hr]
                · have hwv : WrittenTarget s1 v j := ⟨htj, i2, hi2v, hl2⟩
                  have hjm : j ≠ m := fun hje => (hje ▸ hnw) hwv
                  rw [updateStore_ne _ _ _ _ hjm]
                  exact hsr j hwv
            refine ih _ hg2 ?_
            rw [mu2_expand] at hfuel ⊢
            have hsum : Finset.sum ((Finset.range s1.next).filter fun j => j ∉ i :: v)
                (fun j => 1 + pushBound2 s1.registry
                  (updateStore st m { st m with seq := some (.list, elems2) }) j) =
                Finset.sum ((Finset.range s1.next).filter fun j => j ∉ i :: v)
                  (fun j => 1 + pushBound2 s1.registry st j) :=
              Finset.sum_congr rfl (fun j _ => by rw [hpb2 j])
            rw [hsum]
            simp only [List.length_append, List.length_reverse,
              List.length_cons] at hfuel ⊢
            omega
          · have hno2 : ∀ elems, (st m).seq ≠ some (.list, elems) := by
              intro elems hh
              rw [hmp] at hh
              exact hlist ⟨elems, hh⟩
            have hd2 : (st m).dict = none := by
              rw [hmp]
              exact hdd
            rw [phase2_cons_other f rest s1.next t hvis hl hd2 hno2]
            have hnotarm : isRewriteTarget (s1.store m) = false := by
              unfold isRewriteTarget
              rw [hdd]
              simp only [Option.isSome_none, Bool.false_or]
              cases hsq3 : (s1.store m).seq with
              | none => rfl
              | some p =>
                obtain ⟨k, elems⟩ := p
                cases k with
                | list => exact (hlist ⟨elems, hsq3⟩).elim
                | tuple => rfl
                | set => rfl
            have hg2 : Inv2Good s1 ⟨rest, i :: v, s1.registry, st, s1.next,
                t ++ [i]⟩ := by
              refine ⟨rfl, rfl, List.Nodup.cons hvis hnodup, ?_, ?_, ?_, ?_, ?_⟩
              · rw [List.reverse_append, List.reverse_singleton,
                  List.singleton_append, htv]
              · intro j hj
                rcases List.mem_cons.mp hj with rfl | hj2
                · exact hiV
                · exact hvk j hj2
              · intro j hj
                exact hsk j (List.mem_cons_of_mem _ hj)
              · intro j hnj
                apply hss
                rintro ⟨ht2, i2, hi2, hl2⟩
                exact hnj ⟨ht2, i2, List.mem_cons_of_mem _ hi2, hl2⟩
              · intro j hwj
                obtain ⟨htj, i2, hi2, hl2⟩ := hwj
                rcases List.mem_cons.mp hi2 with rfl | hi2v
                · have hjm : j = m := by
                    rw [hl] at hl2
                    exact (Option.some.inj hl2).symm
                  rw [hjm] at htj
                  rw [hnotarm] at htj
                  cases htj
                · exact hsr j ⟨htj, i2, hi2v, hl2⟩
            refine ih _ hg2 ?_
            rw [mu2_expand] at hfuel ⊢
            simp only [List.length_cons] at hfuel
            omega

theorem filterSlots_clean (l : List (String × Nat)) : cleanKeys (filterSlots l) := by
  intro p hp
  unfold filterSlots at hp
  obtain ⟨q, hq, rfl⟩ := List.mem_map.mp hp
  have hfq := (List.mem_filter.mp hq).2
  simp only [keyClean]
  simpa using hfq

theorem norm_dictCopy_clean {o : Obj} {l : List (Key × Nat)}
    (h : shallow_normalize o = .ok (.dictCopy l))
    (hmd : ∀ l0, o.model_dump = some l0 → cleanKeys l0)
    (hdm : ∀ l0, o.dictMethod = some l0 → cleanKeys l0) :
    cleanKeys l := by
  rcases shallow_normalize_inv h with
    ⟨_, h2⟩ | ⟨_, w, hw, h2⟩ | ⟨_, _, l0, l2, hl0, hf, h2⟩ | ⟨_, _, _, k, el, _, h2⟩ |
    ⟨_, _, _, _, l0, hl0, h2⟩ | ⟨_, _, _, _, _, l0, hl0, h2⟩ | ⟨_, _, _, _, _, _, l0, hl0, h2⟩ |
    ⟨_, _, _, _, _, _, _, l0, l2, hl0, hf, h2⟩ |
    ⟨_, _, _, _, _, _, _, _, it, pr, l2, hit, hpr, hf, h2⟩ |
    ⟨_, _, _, _, _, _, _, _, _, d, _, h2⟩ | ⟨_, h2⟩
  · cases h2
  · cases h2
  · cases h2
    exact filterUnderscoreKeys_clean hf
  · cases h2
  · cases h2
    exact hmd _ hl0
  · cases h2
    exact hdm _ hl0
  · cases h2
    exact filterSlots_clean l0
  · cases h2
    exact filterUnderscoreKeys_clean hf
  · cases h2
    exact filterUnderscoreKeys_clean hf
  · cases h2
  · cases h2

theorem cleanKeys_of_map_fst_eq {l l2 : List (Key × Nat)}
    (hk : l2.map Prod.fst = l.map Prod.fst) (hc : cleanKeys l) : cleanKeys l2 := by
  intro p hp
  have hmem : p.1 ∈ l2.map Prod.fst := List.mem_map.mpr ⟨p, hp, rfl⟩
  rw [hk] at hmem
  obtain ⟨q, hq, hqe⟩ := List.mem_map.mp hmem
  rw [← hqe]
  exact hc q hq

theorem runPhase2_sound_good (store : Store) (next root : Nat) (hwf : WFStore store next)
    (hroot : root < next) (hgood : goodEnums store next) (s1 : WalkState)
    (h1 : runPhase1 store next root = some (Except.ok s1)) :
    Inv1 store next s1 ∧ s1.stack = [] ∧ root ∈ s1.visited ∧
    ∃ s2, runPhase2 store next root = some (Except.ok s2) ∧ Inv2Good s1 s2 ∧
      s2.stack = [] := by
  obtain ⟨res, hres, herr, hok⟩ := runPhase1_sound store next root hwf hroot
  rw [h1] at hres
  have hres2 : res = Except.ok s1 := by
    cases hres
    rfl
  obtain ⟨hinv1, hstk1, hnext1, hrootv⟩ := hok s1 hres2
  refine ⟨hinv1, hstk1, hrootv, ?_⟩
  have hg0 : Inv2Good s1 ⟨[root], [], s1.registry, s1.store, s1.next, []⟩ := by
    refine ⟨rfl, rfl, List.nodup_nil, rfl, ?_, ?_, ?_, ?_⟩
    · intro j hj
      cases hj
    · intro j hj
      rcases List.mem_singleton.mp hj with rfl
      exact hrootv
    · intro j hj
      rfl
    · rintro j ⟨htj, i2, hi2, hl2⟩
      cases hi2
  have hmu0 : mu2 s1.registry s1.next ⟨[root], [], s1.registry, s1.store, s1.next, []⟩ ≤
      fuel2Bound s1.registry s1.store s1.next := by
    rw [mu2_expand]
    have hfe : ((Finset.range s1.next).filter fun i => i ∉ ([] : List Nat)) =
        Finset.range s1.next := by
      apply Finset.filter_true_of_mem
      intro x _
      simp
    rw [hfe]
    unfold fuel2Bound
    simp
  obtain ⟨s2, hs2, hg2, hstk2⟩ :=
    phase2_sound_good store next hwf hgood s1 hinv1 hstk1
      (fuel2Bound s1.registry s1.store s1.next) _ hg0 hmu0
  refine ⟨s2, ?_, hg2, hstk2⟩
  simp only [runPhase2, h1]
  exact hs2

theorem regKey_lt {store0 : Store} {next0 : Nat} {s1 : WalkState}
    (hinv1 : Inv1 store0 next0 s1) :
    ∀ p ∈ s1.registry, ∀ norm, shallow_normalize (s1.store p.1) = .ok norm →
      norm ≠ .passthrough → p.1 < next0 := by
  intro p hp norm hn hnp
  have hp1v : p.1 ∈ s1.visited := by
    rw [← hinv1.keysVisited]
    exact List.mem_map.mpr ⟨p, hp, rfl⟩
  rcases hinv1.visitedOk p.1 hp1v with h1 | ⟨h1, h2, h3⟩
  · exact h1
  · exfalso
    rcases hinv1.freshShape p.1 h1 h2 with ⟨str, hs⟩ | ⟨l, hs⟩ | ⟨l, hs⟩
    · rw [hs, shallow_normalize_mkStr] at hn
      cases hn
      exact hnp rfl
    · rw [hs, isFreshStr_mkDict] at h3
      cases h3
    · rw [hs, isFreshStr_mkList] at h3
      cases h3

theorem reg_dict_clean {store0 : Store} {next0 : Nat} {s1 : WalkState}
    (hwf : WFStore store0 next0) (hgood : goodEnums store0 next0)
    (hclean : cleanDumpKeys store0 next0) (hinv1 : Inv1 store0 next0 s1) :
    ∀ p ∈ s1.registry, ∀ l, (s1.store p.2).dict = some l → cleanKeys l := by
  intro p hp l hdl
  have htar : isRewriteTarget (s1.store p.2) = true := by
    unfold isRewriteTarget
    rw [hdl]
    simp
  have hfresh : next0 ≤ p.2 := target_fresh hwf hgood hinv1 p hp htar
  obtain ⟨norm, hn, hbind⟩ := hinv1.regEntry p hp
  cases norm with
  | passthrough =>
    have hsh := norm_passthrough_shape hn
    have hpe : p.2 = p.1 := hbind
    rw [hpe, hsh.1] at hdl
    cases hdl
  | enumVal w =>
    exfalso
    have hp1lt : p.1 < next0 :=
      regKey_lt hinv1 p hp _ hn (by intro hc; cases hc)
    have hsrc : s1.store p.1 = store0 p.1 := hinv1.storeLow p.1 hp1lt
    have henum : (store0 p.1).enum = some w := by
      rw [← hsrc]
      exact norm_enumVal_src hn
    have hwlt : w < next0 :=
      hwf p.1 (List.mem_range.mpr hp1lt) w (mem_objIds_enum henum)
    have hpe : p.2 = w := hbind
    omega
  | redacted =>
    rw [hbind.2.2] at hdl
    cases hdl
  | datetimeStr str =>
    rw [hbind.2.2] at hdl
    cases hdl
  | listCopy l2 =>
    rw [hbind.2.2] at hdl
    cases hdl
  | dictCopy l2 =>
    rw [hbind.2.2] at hdl
    have hll : l = l2 := by
      simp only [Obj.mkDict, Option.some.injEq] at hdl
      exact hdl.symm
    subst hll
    have hp1lt : p.1 < next0 :=
      regKey_lt hinv1 p hp _ hn (by intro hc; cases hc)
    have hsrc : s1.store p.1 = store0 p.1 := hinv1.storeLow p.1 hp1lt
    have hcl := hclean p.1 (List.mem_range.mpr hp1lt)
    refine norm_dictCopy_clean hn ?_ ?_
    · intro l0 hl0
      exact hcl.1 l0 (by rw [← hsrc]; exact hl0)
    · intro l0 hl0
      exact hcl.2 l0 (by rw [← hsrc]; exact hl0)

theorem rewriteObj_dict {reg : List (Nat × Nat)} {o : Obj} {l : List (Key × Nat)}
    (h : (rewriteObj reg o).dict = some l) :
    ∃ entries, o.dict = some entries ∧ l.map Prod.fst = entries.map Prod.fst := by
  cases hd : o.dict with
  | some entries =>
    cases hr : rewriteEntries reg entries with
    | some e2 =>
      have hro : rewriteObj reg o = { o with dict := some e2 } := by
        simp only [rewriteObj, hd, hr]
      rw [hro] at h
      simp only [Option.some.injEq] at h
      refine ⟨entries, rfl, ?_⟩
      rw [← h]
      exact rewriteEntries_keys hr
    | none =>
      have hro : rewriteObj reg o = o := by
        simp only [rewriteObj, hd, hr]
      rw [hro, hd] at h
      refine ⟨entries, rfl, ?_⟩
      rw [Option.some.inj h]
  | none =>
    exfalso
    have hro : (rewriteObj reg o).dict = none := by
      cases hsq : o.seq with
      | none => simp only [rewriteObj, hd, hsq]
      | some p =>
        obtain ⟨k, elems⟩ := p
        cases k with
        | list =>
          cases hr : rewriteElems reg elems with
          | some e2 => simp only [rewriteObj, hd, hsq, hr]
          | none => simp only [rewriteObj, hd, hsq, hr]
        | tuple => simp only [rewriteObj, hd, hsq]
        | set => simp only [rewriteObj, hd, hsq]
    rw [hro] at h
    cases h

/-! ## Claim C1 (amended) -/

/-- C1 (amended): for every finite well-formed input graph the walker
terminates — `prepare_for_serialization` returns a result rather than
diverging — and each distinct identity is dequeued as unvisited at most
once per phase (both traces are duplicate-free).  But the walker is not
exception-free: phase 1 can propagate an exception raised by
`shallow_normalize` (never a `KeyError`), and phase 2 itself can raise a
registry `KeyError`; every exception of the whole run is of one of these
two kinds. -/
theorem C1_amended_theorem (store : Store) (next root : Nat)
    (hwf : WFStore store next) (hroot : root < next) :
    prepare_for_serialization store next root ≠ none ∧
    (∀ s1, runPhase1 store next root = some (Except.ok s1) → s1.trace.Nodup) ∧
    (∀ e, phaseErrOf (runPhase1 store next root) = some e → e ≠ Err.keyError) ∧
    (∀ s2, runPhase2 store next root = some (Except.ok s2) → s2.trace.Nodup) ∧
    (∀ e, phaseErrOf (runPhase2 store next root) = some e →
      phaseErrOf (runPhase1 store next root) = some e ∨ e = Err.keyError) := by
  obtain ⟨res, hres, herr, hok⟩ := runPhase1_sound store next root hwf hroot
  cases res with
  | error e =>
    have hrp2 : runPhase2 store next root = some (Except.error e) := by
      simp only [runPhase2, hres]
    have hprep : prepare_for_serialization store next root =
        some (Except.error e) := by
      simp only [prepare_for_serialization, hrp2]
    refine ⟨?_, ?_, ?_, ?_, ?_⟩
    · rw [hprep]
      simp
    · intro s1 h
      rw [hres] at h
      simp at h
    · intro e2 h
      rw [hres] at h
      simp only [phaseErrOf] at h
      have he : e = e2 := Option.some.inj h
      subst he
      exact herr e rfl
    · intro s2 h
      rw [hrp2] at h
      simp at h
    · intro e2 h
      rw [hrp2] at h
      simp only [phaseErrOf] at h
      have he : e = e2 := Option.some.inj h
      subst he
      left
      rw [hres]
      rfl
  | ok s1 =>
    obtain ⟨hinv1, hstk1, hnext1, hrootv⟩ := hok s1 rfl
    have hinv20 : Inv2 s1.registry s1.next
        ⟨[root], [], s1.registry, s1.store, s1.next, []⟩ := by
      refine ⟨rfl, rfl, List.nodup_nil, rfl, ?_, hinv1.wfChild, hinv1.regValLt⟩
      intro j hj
      rcases List.mem_singleton.mp hj with rfl
      exact lt_of_lt_of_le hroot hnext1
    have hmu0 : mu2 s1.registry s1.next
        ⟨[root], [], s1.registry, s1.store, s1.next, []⟩ ≤
        fuel2Bound s1.registry s1.store s1.next := by
      rw [mu2_expand]
      have hfe : ((Finset.range s1.next).filter fun i => i ∉ ([] : List Nat)) =
          Finset.range s1.next := by
        apply Finset.filter_true_of_mem
        intro x _
        simp
      rw [hfe]
      unfold fuel2Bound
      simp
    obtain ⟨res2, hres2, herr2, hok2⟩ :=
      phase2_sound s1.registry s1.next
        (fuel2Bound s1.registry s1.store s1.next) _ hinv20 hmu0
    have hrp2 : runPhase2 store next root = some res2 := by
      simp only [runPhase2, hres]
      exact hres2
    have htr1 : s1.trace.Nodup := by
      have h2 : s1.trace.reverse.Nodup := by
        rw [hinv1.traceVisited]
        exact hinv1.visitedNodup
      exact List.nodup_reverse.mp h2
    refine ⟨?_, ?_, ?_, ?_, ?_⟩
    · cases res2 with
      | error e =>
        have hprep : prepare_for_serialization store next root =
            some (Except.error e) := by
          simp only [prepare_for_serialization, hrp2]
        rw [hprep]
        simp
      | ok s2 =>
        cases hlr : lookupReg s2.registry root with
        | none =>
          have hprep : prepare_for_serialization store next root =
              some (Except.error Err.keyError) := by
            simp only [prepare_for_serialization, hrp2, hlr]
          rw [hprep]
          simp
        | some out =>
          have hprep : prepare_for_serialization store next root =
              some (Except.ok (out, s2.store)) := by
            simp only [prepare_for_serialization, hrp2, hlr]
          rw [hprep]
          simp
    · intro s1b h
      rw [hres] at h
      have h2 : s1b = s1 := (Except.ok.inj (Option.some.inj h)).symm
      rw [h2]
      exact htr1
    · intro e2 h
      rw [hres] at h
      simp only [phaseErrOf] at h
      cases h
    · intro s2 h
      rw [hrp2] at h
      have hres2eq : res2 = Except.ok s2 := Option.some.inj h
      obtain ⟨hinv2f, _⟩ := hok2 s2 hres2eq
      have h2 : s2.trace.reverse.Nodup := by
        rw [hinv2f.traceVisited]
        exact hinv2f.visitedNodup
      exact List.nodup_reverse.mp h2
    · intro e2 h
      rw [hrp2] at h
      cases res2 with
      | ok s2 =>
        simp only [phaseErrOf] at h
        cases h
      | error e0 =>
        simp only [phaseErrOf] at h
        have he : e0 = e2 := Option.some.inj h
        subst he
        right
        exact herr2 e0 rfl

/-- Concrete instantiation of `C1_amended_theorem` on the one-node graph
whose root is a bare `None` leaf. -/
theorem C1_amended_witness :
    WFStore (fun _ => Obj.mkNull) 1 ∧ 0 < 1 ∧
    (prepare_for_serialization (fun _ => Obj.mkNull) 1 0 ≠ none ∧
    (∀ s1, runPhase1 (fun _ => Obj.mkNull) 1 0 = some (Except.ok s1) → s1.trace.Nodup) ∧
    (∀ e, phaseErrOf (runPhase1 (fun _ => Obj.mkNull) 1 0) = some e → e ≠ Err.keyError) ∧
    (∀ s2, runPhase2 (fun _ => Obj.mkNull) 1 0 = some (Except.ok s2) → s2.trace.Nodup) ∧
    (∀ e, phaseErrOf (runPhase2 (fun _ => Obj.mkNull) 1 0) = some e →
      phaseErrOf (runPhase1 (fun _ => Obj.mkNull) 1 0) = some e ∨ e = Err.keyError)) :=
  ⟨by unfold WFStore; decide, by decide,
    C1_amended_theorem (fun _ => Obj.mkNull) 1 0 (by unfold WFStore; decide) (by decide)⟩

/-! ## Claim C4 (amended) -/

/-- C4 (amended): if no enumerated constant's underlying value is itself a
keyed mapping or sequence instance, then after phase 1 completes every
registry access performed during phase 2 — the entry of each dequeued id
and the entry of every child of a fetched dict or list node — finds an
existing entry, the final root lookup succeeds as well, and the whole of
`prepare_for_serialization` completes without an exception.  (Without
that assumption phase 2 can raise `KeyError`, as `C4_counterexample`
shows.) -/
theorem C4_amended_theorem (store : Store) (next root : Nat)
    (hwf : WFStore store next) (hroot : root < next)
    (hgood : goodEnums store next) (s1 : WalkState)
    (h1 : runPhase1 store next root = some (Except.ok s1)) :
    runOk (prepare_for_serialization store next root) = true := by
  obtain ⟨hinv1, hstk1, hrootv, s2, hs2run, hg2, hstk2⟩ :=
    runPhase2_sound_good store next root hwf hroot hgood s1 h1
  obtain ⟨out, hlr⟩ := visited_lookup hinv1 root hrootv
  have hlr2 : lookupReg s2.registry root = some out := by
    rw [hg2.regEq]
    exact hlr
  have hprep : prepare_for_serialization store next root =
      some (Except.ok (out, s2.store)) := by
    simp only [prepare_for_serialization, hs2run, hlr2]
  rw [hprep]
  rfl

/-- Concrete instantiation of `C4_amended_theorem` on the one-node graph
whose root is a bare `None` leaf. -/
theorem C4_amended_witness :
    WFStore (fun _ => Obj.mkNull) 1 ∧ 0 < 1 ∧ goodEnums (fun _ => Obj.mkNull) 1 ∧
    runPhase1 (fun _ => Obj.mkNull) 1 0 =
      some (Except.ok ⟨[], [0], [(0, 0)], fun _ => Obj.mkNull, 1, [0]⟩) ∧
    runOk (prepare_for_serialization (fun _ => Obj.mkNull) 1 0) = true :=
  ⟨by unfold WFStore; decide, by decide,
   fun j hj v hv => Option.noConfusion hv,
   rfl,
   C4_amended_theorem (fun _ => Obj.mkNull) 1 0 (by unfold WFStore; decide) (by decide)
     (fun j hj v hv => Option.noConfusion hv) _ rfl⟩

/-! ## Claim C8 (amended) -/

/-- C8 (amended): if no enumerated constant's underlying value is itself a
keyed mapping or sequence instance, then a completed
`prepare_for_serialization` run leaves every original input object
unchanged: the returned heap agrees with the input store on every input
address, and only the fresh copies allocated by the walker (at or above
`next`) are ever mutated.  (Without that assumption phase 2 rewrites
original input containers in place, as `C8_counterexample` shows.) -/
theorem C8_amended_theorem (store : Store) (next root : Nat)
    (hwf : WFStore store next) (hroot : root < next)
    (hgood : goodEnums store next) :
    ∀ out st2, prepare_for_serialization store next root = some (Except.ok (out, st2)) →
      ∀ j, j < next → st2 j = store j := by
  intro out st2 hp j hj
  obtain ⟨res, hres, herr, hok⟩ := runPhase1_sound store next root hwf hroot
  cases res with
  | error e =>
    exfalso
    have hrp2 : runPhase2 store next root = some (Except.error e) := by
      simp only [runPhase2, hres]
    have hprep : prepare_for_serialization store next root =
        some (Except.error e) := by
      simp only [prepare_for_serialization, hrp2]
    rw [hprep] at hp
    simp at hp
  | ok s1 =>
    obtain ⟨hinv1, hstk1, hrootv, s2, hs2run, hg2, hstk2⟩ :=
      runPhase2_sound_good store next root hwf hroot hgood s1 hres
    cases hlr : lookupReg s2.registry root with
    | none =>
      exfalso
      have hprep : prepare_for_serialization store next root =
          some (Except.error Err.keyError) := by
        simp only [prepare_for_serialization, hs2run, hlr]
      rw [hprep] at hp
      simp at hp
    | some out2 =>
      have hprep : prepare_for_serialization store next root =
          some (Except.ok (out2, s2.store)) := by
        simp only [prepare_for_serialization, hs2run, hlr]
      rw [hprep] at hp
      have hst : s2.store = st2 :=
        congrArg Prod.snd (Except.ok.inj (Option.some.inj hp))
      rw [← hst]
      have hnw : ¬ WrittenTarget s1 s2.visited j := by
        rintro ⟨htj, i2, hi2, hl2⟩
        have hge : next ≤ j :=
          target_fresh hwf hgood hinv1 (i2, j) (lookupReg_mem hl2) htj
        omega
      have h4 : s2.store j = s1.store j := hg2.storeStable j hnw
      rw [h4]
      exact hinv1.storeLow j hj

/-- Concrete instantiation of `C8_amended_theorem` on the one-node graph
whose root is a bare `None` leaf. -/
theorem C8_amended_witness :
    WFStore (fun _ => Obj.mkNull) 1 ∧ 0 < 1 ∧ goodEnums (fun _ => Obj.mkNull) 1 ∧
    prepare_for_serialization (fun _ => Obj.mkNull) 1 0 =
      some (Except.ok (0, fun _ => Obj.mkNull)) ∧
    (fun _ => Obj.mkNull : Store) 0 = (fun _ => Obj.mkNull : Store) 0 :=
  ⟨by unfold WFStore; decide, by decide,
   fun j hj v hv => Option.noConfusion hv,
   rfl,
   C8_amended_theorem (fun _ => Obj.mkNull) 1 0 (by unfold WFStore; decide) (by decide)
     (fun j hj v hv => Option.noConfusion hv) 0 (fun _ => Obj.mkNull) rfl 0 (by decide)⟩

/-! ## Claim C3 (amended) -/

/-- C3 (amended): if no enumerated constant's underlying value is itself a
keyed mapping or sequence instance, then a completed run creates exactly
one registry entry per dequeued identity (the registry keys are
duplicate-free), and for every node processed by phase 2 each output
slot holds exactly the registry entry of the corresponding original
child — so two parent slots sharing the same child end up holding the
identical normalized object, not two copies.  (Without that assumption a
shared child can be copied twice, as `C3_counterexample` shows.) -/
theorem C3_amended_theorem (store : Store) (next root : Nat)
    (hwf : WFStore store next) (hroot : root < next)
    (hgood : goodEnums store next) :
    ∀ s1 s2, runPhase1 store next root = some (Except.ok s1) →
      runPhase2 store next root = some (Except.ok s2) →
      (s2.registry.map Prod.fst).Nodup ∧
      (∀ i m, i ∈ s2.visited → lookupReg s2.registry i = some m →
        (∀ entries, (s1.store m).dict = some entries →
          ∃ entries2, s2.store m = { s1.store m with dict := some entries2 } ∧
            List.Forall₂ (fun p q => p.1 = q.1 ∧ lookupReg s1.registry p.2 = some q.2)
              entries entries2) ∧
        (∀ elems, (s1.store m).seq = some (.list, elems) ∧ (s1.store m).dict = none →
          ∃ elems2, s2.store m = { s1.store m with seq := some (.list, elems2) } ∧
            List.Forall₂ (fun a b => lookupReg s1.registry a = some b) elems elems2)) := by
  intro s1 s2 h1 h2
  obtain ⟨hinv1, hstk1, hrootv, s2x, hs2run, hg2, hstk2⟩ :=
    runPhase2_sound_good store next root hwf hroot hgood s1 h1
  have hs2eq : s2x = s2 := Except.ok.inj (Option.some.inj (hs2run.symm.trans h2))
  subst hs2eq
  constructor
  · rw [hg2.regEq, hinv1.keysVisited]
    exact hinv1.visitedNodup
  · intro i m hiv hlm
    have hlm1 : lookupReg s1.registry i = some m := by
      rw [← hg2.regEq]
      exact hlm
    have hpm : (i, m) ∈ s1.registry := lookupReg_mem hlm1
    constructor
    · intro entries hde
      have htar : isRewriteTarget (s1.store m) = true := by
        unfold isRewriteTarget
        rw [hde]
        simp
      have hW : WrittenTarget s1 s2x.visited m := ⟨htar, i, hiv, hlm1⟩
      have hrw := hg2.storeRewritten m hW
      have hchild : ∀ c ∈ entries.map Prod.snd, c ∈ s1.visited := by
        intro c hc
        apply children_visited hinv1 hstk1 (i, m) hpm
        simp only [nodeChildIds, hde]
        exact hc
      have htotal : ∀ q ∈ entries, ∃ n2, lookupReg s1.registry q.2 = some n2 :=
        fun q hq => visited_lookup hinv1 q.2 (hchild q.2 (List.mem_map.mpr ⟨q, hq, rfl⟩))
      obtain ⟨entries2, hr⟩ := rewriteEntries_total htotal
      refine ⟨entries2, ?_, rewriteEntries_forall2 hr⟩
      rw [hrw]
      simp only [rewriteObj, hde, hr]
    · rintro elems ⟨hsq, hdn⟩
      have htar : isRewriteTarget (s1.store m) = true := by
        unfold isRewriteTarget
        rw [hsq]
        simp
      have hW : WrittenTarget s1 s2x.visited m := ⟨htar, i, hiv, hlm1⟩
      have hrw := hg2.storeRewritten m hW
      have hchild : ∀ c ∈ elems, c ∈ s1.visited := by
        intro c hc
        apply children_visited hinv1 hstk1 (i, m) hpm
        simp only [nodeChildIds, hdn, hsq]
        exact hc
      have htotal : ∀ c ∈ elems, ∃ n2, lookupReg s1.registry c = some n2 :=
        fun c hc => visited_lookup hinv1 c (hchild c hc)
      obtain ⟨elems2, hr⟩ := rewriteElems_total htotal
      refine ⟨elems2, ?_, rewriteElems_forall2 hr⟩
      rw [hrw]
      simp only [rewriteObj, hdn, hsq, hr]

/-- Concrete instantiation of `C3_amended_theorem` on the one-node graph
whose root is a bare `None` leaf. -/
theorem C3_amended_witness :
    WFStore (fun _ => Obj.mkNull) 1 ∧ 0 < 1 ∧ goodEnums (fun _ => Obj.mkNull) 1 ∧
    (([((0 : Nat), (0 : Nat))].map Prod.fst).Nodup ∧
      (∀ i m, i ∈ [(0 : Nat)] → lookupReg [(0, 0)] i = some m →
        (∀ entries, ((fun _ => Obj.mkNull : Store) m).dict = some entries →
          ∃ entries2, (fun _ => Obj.mkNull : Store) m =
            { (fun _ => Obj.mkNull : Store) m with dict := some entries2 } ∧
            List.Forall₂ (fun p q => p.1 = q.1 ∧ lookupReg [(0, 0)] p.2 = some q.2)
              entries entries2) ∧
        (∀ elems, ((fun _ => Obj.mkNull : Store) m).seq = some (.list, elems) ∧
            ((fun _ => Obj.mkNull : Store) m).dict = none →
          ∃ elems2, (fun _ => Obj.mkNull : Store) m =
            { (fun _ => Obj.mkNull : Store) m with seq := some (.list, elems2) } ∧
            List.Forall₂ (fun a b => lookupReg [(0, 0)] a = some b) elems elems2))) :=
  ⟨by unfold WFStore; decide, by decide,
   fun j hj v hv => Option.noConfusion hv,
   C3_amended_theorem (fun _ => Obj.mkNull) 1 0 (by unfold WFStore; decide) (by decide)
     (fun j hj v hv => Option.noConfusion hv)
     ⟨[], [0], [(0, 0)], fun _ => Obj.mkNull, 1, [0]⟩
     ⟨[], [0], [(0, 0)], fun _ => Obj.mkNull, 1, [0]⟩ rfl rfl⟩

/-! ## Claim C5 (amended) -/

/-- C5 (amended): the output can contain keys beginning with an
underscore, because the `model_dump` and legacy `dict()` results are
copied without filtering (`C5_counterexample`).  If every `model_dump`
and legacy `dict()` capability in the input produces only clean keys,
and no enumerated constant's value is a keyed mapping or sequence
instance, then no keyed mapping in the output of a completed run — the
object behind any registry entry, at any depth — contains a key that
begins with an underscore: the `dict`, slots, attribute-view and
items-accessor rules filter such keys, and phase 2 rewrites values but
never keys. -/
theorem C5_amended_theorem (store : Store) (next root : Nat)
    (hwf : WFStore store next) (hroot : root < next)
    (hgood : goodEnums store next) (hclean : cleanDumpKeys store next) :
    ∀ s1 s2, runPhase1 store next root = some (Except.ok s1) →
      runPhase2 store next root = some (Except.ok s2) →
      ∀ p ∈ s2.registry, ∀ l, (s2.store p.2).dict = some l → cleanKeys l := by
  intro s1 s2 h1 h2 p hp l hdl
  obtain ⟨hinv1, hstk1, hrootv, s2x, hs2run, hg2, hstk2⟩ :=
    runPhase2_sound_good store next root hwf hroot hgood s1 h1
  have hs2eq : s2x = s2 := Except.ok.inj (Option.some.inj (hs2run.symm.trans h2))
  subst hs2eq
  have hp1 : p ∈ s1.registry := by
    rw [← hg2.regEq]
    exact hp
  by_cases hW : WrittenTarget s1 s2x.visited p.2
  · have hrw := hg2.storeRewritten p.2 hW
    rw [hrw] at hdl
    obtain ⟨entries, hde, hkeys⟩ := rewriteObj_dict hdl
    exact cleanKeys_of_map_fst_eq hkeys
      (reg_dict_clean hwf hgood hclean hinv1 p hp1 entries hde)
  · have hst := hg2.storeStable p.2 hW
    rw [hst] at hdl
    exact reg_dict_clean hwf hgood hclean hinv1 p hp1 l hdl

/-- Concrete instantiation of `C5_amended_theorem` on the one-node graph
whose root is a bare `None` leaf. -/
theorem C5_amended_witness :
    WFStore (fun _ => Obj.mkNull) 1 ∧ 0 < 1 ∧ goodEnums (fun _ => Obj.mkNull) 1 ∧
    cleanDumpKeys (fun _ => Obj.mkNull) 1 ∧
    (∀ p ∈ [((0 : Nat), (0 : Nat))], ∀ l,
      ((fun _ => Obj.mkNull : Store) p.2).dict = some l → cleanKeys l) :=
  ⟨by unfold WFStore; decide, by decide,
   fun j hj v hv => Option.noConfusion hv,
   fun j hj => ⟨fun l hl => Option.noConfusion hl, fun l hl => Option.noConfusion hl⟩,
   C5_amended_theorem (fun _ => Obj.mkNull) 1 0 (by unfold WFStore; decide) (by decide)
     (fun j hj v hv => Option.noConfusion hv)
     (fun j hj => ⟨fun l hl => Option.noConfusion hl, fun l hl => Option.noConfusion hl⟩)
     ⟨[], [0], [(0, 0)], fun _ => Obj.mkNull, 1, [0]⟩
     ⟨[], [0], [(0, 0)], fun _ => Obj.mkNull, 1, [0]⟩ rfl rfl⟩
